import Mathlib

/-!
# libevfibers: a shallow embedding of `src/fiber.c`

The runtime context (`struct fbr_context` with its private part) becomes the
record `fbr_context`; every C function becomes a function on that record.

Conventions of the embedding:

* Pointers are natural numbers, `0` is `NULL` for arena pointers; a pointer that
  may be `NULL` and designates a fiber or a function is an `Option`.
* The lists of `sys/queue.h` and `utlist.h` (`LIST_*`, `TAILQ_*`, `DL_*`) are
  the sequences of their elements, head first. Their links lie in the
  elements, so a sequence stands for a list only as long as an element is
  inserted while it is on no list through the same links. Three functions
  insert without that test: `fbr_create` (a record it takes from the pool is
  still on the list of children of the fiber that made it, `fbr_reclaim` does
  not unlink it), `fbr_mutex_unlock` (a mutex that is still on `mutexes`) and
  `fbr_mutex_lock` (a fiber that is still on `pending`). The statements about
  these functions and about runs name the states in which they are used.
* `malloc` is an input: the address it returns is an argument of the function
  that calls it.
* A function that can `abort()` (or fail an `assert`) returns `Option`, and
  `none` is the aborted run. `fbr_free_in_fiber` is also `none` on a pointer
  that is no block of the arena it is given: the code does not abort there,
  it unlinks whatever lies before the pointer (see the function).
* Calls through user function pointers (arena destructors) are recorded in
  `dtor_log`; the underlying system calls take their results from `sys`.
* `coro_transfer` does not return to its caller before the fiber is resumed:
  what the resumed code of this file does first is applied by `coro_transfer`
  to the state, according to where the target context was saved.
* Logging, trace snapshots (`fill_trace_info`) and the mapping of fiber
  stacks are not represented.
* The header `evfibers_private/fiber.h` is not part of the sources at hand:
  `FBR_MAX_ARG_NUM` is a parameter. The frame array `stack[]` is indexed by
  integers; its number of frames, a constant of that header, is the parameter
  `call_stack_size` of the runs (`Reachable`, `Runs`). `fbr_vcall` does not
  test it: a call made at `sp + 1 = call_stack_size` writes behind the array.
-/

namespace Evfibers

/-- Error codes of the context level error field `f_errno`. -/
inductive fbr_error_code where
  | FBR_SUCCESS
  | FBR_EINVAL
  | FBR_ENOFIBER
  deriving DecidableEq, Repr

/-- POSIX `EINTR`. -/
def EINTR : Int := 4

/-- POSIX `EAGAIN`. -/
def EAGAIN : Int := 11

/-- POSIX `EINVAL`. -/
def EINVAL : Int := 22

/-- Argument of a fiber call, `struct fbr_fiber_arg`: an integer (`fbr_arg_i`)
or a pointer (`fbr_arg_v`). -/
inductive fbr_fiber_arg where
  | i (n : Int)
  | v (p : Nat)
  deriving DecidableEq, Repr

/-- Record `struct fbr_call_info`; `addr` is the address of the record itself
(the user pointer `fbr_alloc` returned for it), `argv` holds the `argc` slots
that were written. -/
structure fbr_call_info where
  addr : Nat
  caller : Nat
  argc : Int
  argv : List fbr_fiber_arg
  deriving DecidableEq, Repr

/-- Header `struct fbr_mem_pool` of an arena allocation; `addr` is the address
of the header, the user pointer is `addr + 1` (`pool_entry + 1`). -/
structure fbr_mem_pool where
  addr : Nat
  ptr : Nat
  destructor : Option Nat
  destructor_context : Nat
  deriving DecidableEq, Repr

/-- Reactor watcher for fd readiness; `active` is set while it is started,
`fd` and `events` are what `ev_io_set` stored. -/
structure ev_io where
  active : Bool
  fd : Int
  events : Int
  deriving DecidableEq, Repr

/-- Reactor timer watcher; `active` is set while it is started. -/
structure ev_timer where
  active : Bool
  deriving DecidableEq, Repr

/-- Reactor async watcher; `sent` is set by `ev_async_send`. -/
structure ev_async where
  active : Bool
  sent : Bool
  deriving DecidableEq, Repr

/-- Saved machine context of a fiber, by the place where it will continue. -/
inductive coro_context where
  /-- made by `coro_create (ctx, NULL, ...)` or zeroed: nothing saved yet -/
  | empty
  /-- made by `coro_create (ctx, call_wrapper, ...)`: starts `call_wrapper` -/
  | entry
  /-- saved by the `coro_transfer` of `fbr_vcall` -/
  | in_vcall
  /-- saved by the `coro_transfer` of `fbr_yield` -/
  | in_yield
  deriving DecidableEq, Repr

/-- Record `struct fbr_fiber`. The count `call_list_size` (a `size_t`) is a
natural number: each record it counts occupies memory, so it does not wrap. -/
structure fbr_fiber where
  name : Nat
  func : Nat
  ctx : coro_context
  call_list : List fbr_call_info
  call_list_size : Nat
  w_io : ev_io
  w_io_expected : Int
  w_timer : ev_timer
  w_timer_expected : Int
  reclaimed : Int
  children : List Nat
  parent : Option Nat
  pool : List fbr_mem_pool

/-- Record `struct fbr_mutex`. -/
structure fbr_mutex where
  locked_by : Option Nat
  pending : List Nat
  deriving DecidableEq, Repr

/-- Record `struct fbr_cond_var`. -/
structure fbr_cond_var where
  mutex : Option Nat
  waiting : List Nat
  deriving DecidableEq, Repr

/-- One call of an arena destructor: `destructor (ptr, destructor_context)`,
made while freeing in the arena of `fiber`. -/
structure destructor_call where
  fiber : Nat
  func : Nat
  ptr : Nat
  context : Nat
  deriving DecidableEq, Repr

/-- Result of one underlying system call: the value returned and the `errno`
it leaves when that value is `-1`. -/
structure sys_result where
  ret : Int
  err : Int
  deriving DecidableEq, Repr

/-- The runtime context: `struct fbr_context` and `struct fbr_context_private`,
the memory holding fibers, mutexes and condition variables, and the
environment (`errno`, `sys`), with the fiber in control (`running`) and the
record of destructor calls (`dtor_log`). -/
structure fbr_context where
  f_errno : fbr_error_code
  fibers : Nat → fbr_fiber
  stack : Int → Nat
  sp : Int
  reclaimed : List Nat
  mutex_mem : Nat → fbr_mutex
  cond_mem : Nat → fbr_cond_var
  mutexes : List Nat
  pending_fibers : List Nat
  mutex_async : ev_async
  pending_async : ev_async
  backtraces_enabled : Int
  errno : Int
  sys : List sys_result
  running : Nat
  dtor_log : List destructor_call

/-- Address of the root fiber, `&fctx->__p->root`. -/
def ROOT : Nat := 0

/-- Store `f` at the fiber address `a`. -/
def set_fiber (s : fbr_context) (a : Nat) (f : fbr_fiber) : fbr_context :=
  { s with fibers := fun x => if x = a then f else s.fibers x }

/-- Macro `CURRENT_FIBER`: `fctx->__p->sp->fiber`. -/
def CURRENT_FIBER (s : fbr_context) : Nat := s.stack s.sp

/-- Macro `CALLED_BY_ROOT`: `(fctx->__p->sp - 1)->fiber == &fctx->__p->root`. -/
def CALLED_BY_ROOT (s : fbr_context) : Bool := s.stack (s.sp - 1) == ROOT

/-- Function `allocate_in_fiber`; `p` is the address `malloc` returns (the
size of the block is not represented). -/
def allocate_in_fiber (s : fbr_context) (fiber : Nat) (p : Nat) :
    Option (Nat × fbr_context) :=
  if p = 0 then none
  else
    let pool_entry : fbr_mem_pool :=
      { addr := p, ptr := p, destructor := none, destructor_context := 0 }
    let f := s.fibers fiber
    some (p + 1, set_fiber s fiber { f with pool := f.pool ++ [pool_entry] })

/-- Function `fbr_init`; `mem` is the memory before the call (the context
block is not initialised by `malloc`), `p` the address `malloc` returns for
the logger. -/
def fbr_init (mem : fbr_context) (p : Nat) : Option fbr_context :=
  let s1 : fbr_context :=
    { mem with reclaimed := [], mutexes := [], pending_fibers := [] }
  let root := s1.fibers ROOT
  let s2 := set_fiber s1 ROOT
    { root with children := [], name := 0, pool := [], ctx := coro_context.empty }
  match allocate_in_fiber s2 ROOT p with
  | none => none
  | some (_, s3) =>
    some { s3 with
      sp := 0
      stack := fun x => if x = 0 then ROOT else s3.stack x
      backtraces_enabled := 0
      mutex_async := { active := false, sent := false }
      pending_async := { active := false, sent := false }
      running := ROOT
      dtor_log := [] }

/-- Function `fiber_prepare`: `ev_init` on both watchers, `reclaimed = 0`. -/
def fiber_prepare (s : fbr_context) (fiber : Nat) : fbr_context :=
  let f := s.fibers fiber
  set_fiber s fiber
    { f with w_io := { f.w_io with active := false }, w_timer := { active := false },
             reclaimed := 0 }

/-- Primitive `coro_transfer (&src->ctx, &dst->ctx)`: the context of `src` is
saved at `site`, control passes to `dst`, whose code then goes on: a context
made for `call_wrapper` prepares `CURRENT_FIBER`, a context saved in
`fbr_vcall` sets `f_errno = FBR_SUCCESS` (and `fbr_vcall` returns 0). -/
def coro_transfer (s : fbr_context) (src dst : Nat) (site : coro_context) : fbr_context :=
  let s1 := set_fiber s src { s.fibers src with ctx := site }
  let s2 := { s1 with running := dst }
  match (s2.fibers dst).ctx with
  | coro_context.entry => fiber_prepare s2 (CURRENT_FIBER s2)
  | coro_context.in_vcall => { s2 with f_errno := fbr_error_code.FBR_SUCCESS }
  | _ => s2

/-- Function `fbr_free_in_fiber`. The header `ptr - 1` is looked up in the
arena of `fiber`. It is `none` when the header fails the integrity check
(`abort`; the run is not under valgrind), and also when `ptr` is no block of
the arena of `fiber`: the code then reads the memory before `ptr` as a header
and, if that passes the check, runs `DL_DELETE` on the list of `fiber` with an
element of another list, which leaves lists that are no sequences. The runs
of `Runs` free blocks of the arena of the running fiber only. -/
def fbr_free_in_fiber (s : fbr_context) (fiber : Nat) (ptr : Nat) : Option fbr_context :=
  if ptr = 0 then some s
  else
    let f := s.fibers fiber
    match f.pool.find? (fun e => e.addr + 1 == ptr) with
    | none => none
    | some pool_entry =>
      if pool_entry.ptr ≠ pool_entry.addr then none
      else
        let s1 := set_fiber s fiber
          { f with pool := f.pool.eraseP (fun e => e.addr + 1 == ptr) }
        match pool_entry.destructor with
        | none => some s1
        | some d =>
          some { s1 with dtor_log := s1.dtor_log ++
            [{ fiber := fiber, func := d, ptr := ptr,
               context := pool_entry.destructor_context }] }

/-- Loop `DL_FOREACH_SAFE (fiber->pool, p_elt, p_tmp)` of `fiber_cleanup`,
over the entries still to visit. -/
def fiber_cleanup_loop (fiber : Nat) : fbr_context → List fbr_mem_pool → Option fbr_context
  | s, [] => some s
  | s, p_elt :: rest =>
    match fbr_free_in_fiber s fiber (p_elt.addr + 1) with
    | none => none
    | some s1 => fiber_cleanup_loop fiber s1 rest

/-- Function `fiber_cleanup`. -/
def fiber_cleanup (s : fbr_context) (fiber : Nat) : Option fbr_context :=
  let f := s.fibers fiber
  let s1 := set_fiber s fiber
    { f with w_io := { f.w_io with active := false }, w_timer := { active := false } }
  fiber_cleanup_loop fiber s1 (s1.fibers fiber).pool

/-- Loop `LIST_FOREACH (child, &fiber->children, entries.children)` of
`reclaim_children`, with `reclaim` for `fbr_reclaim`. -/
def reclaim_children_loop (reclaim : fbr_context → Nat → Option fbr_context) :
    fbr_context → List Nat → Option fbr_context
  | s, [] => some s
  | s, child :: rest =>
    match reclaim s child with
    | none => none
    | some s1 => reclaim_children_loop reclaim s1 rest

/-- Function `fbr_reclaim`, with `reclaim_children` in it. The recursion on
the children is bounded by `fuel`; `none` when the fuel runs out or a
destructor pass aborts. -/
def fbr_reclaim : Nat → fbr_context → Nat → Option fbr_context
  | 0, _, _ => none
  | fuel + 1, s, fiber =>
    if (s.fibers fiber).reclaimed ≠ 0 then some s
    else
      match reclaim_children_loop (fbr_reclaim fuel) s (s.fibers fiber).children with
      | none => none
      | some s1 =>
        match fiber_cleanup s1 fiber with
        | none => none
        | some s2 =>
          let s3 := set_fiber s2 fiber { s2.fibers fiber with reclaimed := 1 }
          some { s3 with reclaimed := fiber :: s3.reclaimed }

/-- Function `fbr_is_reclaimed`. -/
def fbr_is_reclaimed (s : fbr_context) (fiber : Nat) : Int := (s.fibers fiber).reclaimed

/-- Function `fbr_yield`. -/
def fbr_yield (s : fbr_context) : fbr_context :=
  let callee := s.stack s.sp
  let s1 := { s with sp := s.sp - 1 }
  let caller := s1.stack s1.sp
  coro_transfer s1 callee caller coro_context.in_yield

/-- Function `fbr_alloc`. -/
def fbr_alloc (s : fbr_context) (p : Nat) : Option (Nat × fbr_context) :=
  allocate_in_fiber s (CURRENT_FIBER s) p

/-- Function `fbr_calloc` (the zeroing of the block is not represented). -/
def fbr_calloc (s : fbr_context) (p : Nat) : Option (Nat × fbr_context) :=
  allocate_in_fiber s (CURRENT_FIBER s) p

/-- The header `e` after `fbr_alloc_set_destructor (ptr, func, context)`:
written when `ptr - 1` is its address. -/
def set_destructor_entry (ptr : Nat) (func : Option Nat) (context : Nat)
    (e : fbr_mem_pool) : fbr_mem_pool :=
  if e.addr + 1 = ptr then { e with destructor := func, destructor_context := context }
  else e

/-- Function `fbr_alloc_set_destructor`: the header `ptr - 1` is written where
it lies, whichever arena links it. -/
def fbr_alloc_set_destructor (s : fbr_context) (ptr : Nat) (func : Option Nat)
    (context : Nat) : fbr_context :=
  { s with fibers := fun x =>
      { s.fibers x with pool := (s.fibers x).pool.map (set_destructor_entry ptr func context) } }

/-- Function `fbr_free`. -/
def fbr_free (s : fbr_context) (ptr : Nat) : Option fbr_context :=
  fbr_free_in_fiber s (CURRENT_FIBER s) ptr

/-- The all-zero fiber record left by `memset (fiber, 0x00, ...)`. -/
def zero_fiber : fbr_fiber :=
  { name := 0, func := 0, ctx := coro_context.empty, call_list := [], call_list_size := 0,
    w_io := { active := false, fd := 0, events := 0 }, w_io_expected := 0,
    w_timer := { active := false }, w_timer_expected := 0, reclaimed := 0,
    children := [], parent := none, pool := [] }

/-- Function `fbr_create`; `p` is the address `malloc` returns when the
pool of reclaimed fibers is empty. Returns the handle and the new state.
`LIST_INSERT_HEAD` is the insertion at the head of the sequence when the
record is on no list of children, which holds for fresh storage. A record
taken from the pool is still linked into the list of the fiber that made it
(`fbr_reclaim` unlinks nothing): the code links it again, and the lists of
children are then no sequences (two lists run into one another, or a list
runs into itself). -/
def fbr_create (s : fbr_context) (name func : Nat) (p : Nat) : Nat × fbr_context :=
  let r : Nat × fbr_context :=
    match s.reclaimed with
    | fiber :: rest => (fiber, { s with reclaimed := rest })
    | [] => (p, set_fiber s p zero_fiber)
  let fiber := r.1
  let s1 := r.2
  let s2 := set_fiber s1 fiber
    { s1.fibers fiber with
      ctx := coro_context.entry
      w_io_expected := 0
      w_timer_expected := 0
      reclaimed := 0
      call_list := []
      call_list_size := 0
      children := []
      pool := []
      name := name
      func := func }
  let cur := CURRENT_FIBER s2
  let s3 := set_fiber s2 cur { s2.fibers cur with children := fiber :: (s2.fibers cur).children }
  let s4 := set_fiber s3 fiber { s3.fibers fiber with parent := some (CURRENT_FIBER s3) }
  (fiber, s4)

/-- How a function that may transfer control ends its first part: it has
returned `r`, or the calling fiber is suspended in `coro_transfer`. -/
inductive call_outcome where
  | returned (r : Int)
  | transferred
  deriving DecidableEq, Repr

/-- Function `fbr_vcall`, up to its `coro_transfer`; `ap` is the argument
list, `p` the address `malloc` returns for the call-info record. What follows
the transfer (`f_errno = FBR_SUCCESS; return 0`) runs when the caller is
resumed, see `coro_transfer`. The test against `FBR_CALL_LIST_WARN` only
logs and is left out. As in the code, `sp` is incremented and the frame
written without a test against the number of frames of `stack[]`: the result
is a state of the program only while `sp + 1` is below that number. -/
def fbr_vcall (FBR_MAX_ARG_NUM : Int) (s : fbr_context) (callee : Nat) (leave_info : Int)
    (argnum : Int) (ap : List fbr_fiber_arg) (p : Nat) : Option (call_outcome × fbr_context) :=
  let caller := s.stack s.sp
  if argnum ≥ FBR_MAX_ARG_NUM then
    some (call_outcome.returned (-1), { s with f_errno := fbr_error_code.FBR_EINVAL })
  else if (s.fibers callee).reclaimed = 1 then
    some (call_outcome.returned (-1), { s with f_errno := fbr_error_code.FBR_ENOFIBER })
  else
    let s1 := { s with sp := s.sp + 1 }
    let s2 := { s1 with stack := fun x => if x = s1.sp then callee else s1.stack x }
    if leave_info = 0 then
      some (call_outcome.transferred, coro_transfer s2 caller callee coro_context.in_vcall)
    else
      match fbr_alloc s2 p with
      | none => none
      | some (info, s3) =>
        let record : fbr_call_info :=
          { addr := info, caller := caller, argc := argnum, argv := ap.take argnum.toNat }
        let f := s3.fibers callee
        let s4 := set_fiber s3 callee
          { f with call_list := f.call_list ++ [record],
                   call_list_size := f.call_list_size + 1 }
        some (call_outcome.transferred, coro_transfer s4 caller callee coro_context.in_vcall)

/-- Function `fbr_call_noinfo`. -/
def fbr_call_noinfo (FBR_MAX_ARG_NUM : Int) (s : fbr_context) (callee : Nat) (argnum : Int)
    (ap : List fbr_fiber_arg) : Option (call_outcome × fbr_context) :=
  fbr_vcall FBR_MAX_ARG_NUM s callee 0 argnum ap 0

/-- Function `fbr_call`. -/
def fbr_call (FBR_MAX_ARG_NUM : Int) (s : fbr_context) (callee : Nat) (argnum : Int)
    (ap : List fbr_fiber_arg) (p : Nat) : Option (call_outcome × fbr_context) :=
  fbr_vcall FBR_MAX_ARG_NUM s callee 1 argnum ap p

/-- Function `fbr_next_call_info`. The argument `info_ptr` is `none` for a
`NULL` pointer, else the content of the slot it points to (`none` when the
slot holds `NULL`); the result gives the return value, the content of the
slot afterwards (`none` when there is no slot) and the new state. -/
def fbr_next_call_info (s : fbr_context) (info_ptr : Option (Option fbr_call_info)) :
    Option (Int × Option fbr_call_info × fbr_context) :=
  let fiber := CURRENT_FIBER s
  let f := s.fibers fiber
  match f.call_list with
  | [] => some (0, info_ptr.join, s)
  | tmp :: rest =>
    let s1 := set_fiber s fiber
      { f with call_list := rest, call_list_size := f.call_list_size - 1 }
    match info_ptr with
    | none =>
      match fbr_free s1 tmp.addr with
      | none => none
      | some s2 => some (1, none, s2)
    | some none => some (1, some tmp, s1)
    | some (some old) =>
      match fbr_free s1 old.addr with
      | none => none
      | some s2 => some (1, some tmp, s2)

/-- Run `fbr_next_call_info (&slot)` `k` times in a row on the same slot:
the values returned with the content of the slot after each call, then the
slot and the state at the end. -/
def next_call_infos : Nat → fbr_context → Option fbr_call_info →
    Option (List (Int × Option fbr_call_info) × Option fbr_call_info × fbr_context)
  | 0, s, slot => some ([], slot, s)
  | k + 1, s, slot =>
    match fbr_next_call_info s (some slot) with
    | none => none
    | some (r, slot1, s1) =>
      match next_call_infos k s1 slot1 with
      | none => none
      | some (rs, slot2, s2) => some ((r, slot1) :: rs, slot2, s2)

/-- One call to make: the count of arguments, the arguments, and the address
`malloc` will return for the call-info record. -/
structure call_args where
  argnum : Int
  ap : List fbr_fiber_arg
  p : Nat
  deriving DecidableEq, Repr

/-- The running fiber calls `callee` with `fbr_call` once for each element of
the list, in order, and the callee yields back at once each time. Gives
`none` when a call fails. -/
def call_rounds (FBR_MAX_ARG_NUM : Int) (callee : Nat) :
    fbr_context → List call_args → Option fbr_context
  | s, [] => some s
  | s, c :: rest =>
    match fbr_call FBR_MAX_ARG_NUM s callee c.argnum c.ap c.p with
    | some (call_outcome.transferred, s1) =>
      call_rounds FBR_MAX_ARG_NUM callee (fbr_yield s1) rest
    | _ => none

/-- The call-info record that `caller` leaves with the call `c`. -/
def record_of (caller : Nat) (c : call_args) : fbr_call_info :=
  { addr := c.p + 1, caller := caller, argc := c.argnum, argv := c.ap.take c.argnum.toNat }

/-- The arena entry that holds the call-info record of the call `c`. -/
def entry_of (c : call_args) : fbr_mem_pool :=
  { addr := c.p, ptr := c.p, destructor := none, destructor_context := 0 }

/-- Event mask `EV_READ` of the reactor. -/
def EV_READ : Int := 1

/-- Event mask `EV_WRITE` of the reactor. -/
def EV_WRITE : Int := 2

/-- Function `io_start`; `none` when the `assert` fails. -/
def io_start (s : fbr_context) (fiber : Nat) (fd events : Int) : Option fbr_context :=
  let f := s.fibers fiber
  let s1 := set_fiber s fiber { f with w_io := { active := true, fd := fd, events := events } }
  if (s1.fibers fiber).w_io_expected ≠ 0 then none
  else some (set_fiber s1 fiber { s1.fibers fiber with w_io_expected := 1 })

/-- Function `io_stop`; `none` when the `assert` fails. -/
def io_stop (s : fbr_context) (fiber : Nat) : Option fbr_context :=
  let f := s.fibers fiber
  if f.w_io_expected ≠ 1 then none
  else some (set_fiber s fiber
    { f with w_io_expected := 0, w_io := { f.w_io with active := false } })

/-- Function `timer_start` (the time values are not represented). -/
def timer_start (s : fbr_context) (fiber : Nat) : fbr_context :=
  let f := s.fibers fiber
  set_fiber s fiber { f with w_timer := { active := true }, w_timer_expected := 1 }

/-- Function `timer_stop`. -/
def timer_stop (s : fbr_context) (fiber : Nat) : fbr_context :=
  let f := s.fibers fiber
  set_fiber s fiber { f with w_timer_expected := 0, w_timer := { active := false } }

/-- Loop `do { r = call (...); } while (-1 == r && EINTR == errno);` over the
results the system will give: the value kept, `errno` and the results left;
`none` when the results run out. -/
def retry_eintr : List sys_result → Int → Option (Int × Int × List sys_result)
  | [], _ => none
  | x :: rest, errno =>
    let errno1 := if x.ret = -1 then x.err else errno
    if x.ret = -1 ∧ errno1 = EINTR then retry_eintr rest errno1
    else some (x.ret, errno1, rest)

/-- One underlying system call, made once. -/
def sys_once : List sys_result → Int → Option (Int × Int × List sys_result)
  | [], _ => none
  | x :: rest, errno => some (x.ret, if x.ret = -1 then x.err else errno, rest)

/-- How an I/O wrapper ends a part of its run: it has returned `r`, or the
fiber is suspended in `fbr_yield` (with `done` bytes transferred so far). -/
inductive io_outcome where
  | returned (r : Int)
  | suspended (done : Int)
  deriving DecidableEq, Repr

/-- First part of `fbr_read`, `fbr_write`, `fbr_recvfrom`, `fbr_sendto` and
`fbr_accept`, which differ in `events` only: from the entry to the suspension
in `fbr_yield`. -/
def io_wrapper_begin (s : fbr_context) (fd events : Int) : Option fbr_context :=
  let fiber := CURRENT_FIBER s
  match io_start s fiber fd events with
  | none => none
  | some s1 => some (fbr_yield s1)

/-- Function `fbr_read`, up to the suspension. -/
def fbr_read_begin (s : fbr_context) (fd : Int) : Option fbr_context :=
  io_wrapper_begin s fd EV_READ

/-- Function `fbr_write`, up to the suspension. -/
def fbr_write_begin (s : fbr_context) (fd : Int) : Option fbr_context :=
  io_wrapper_begin s fd EV_WRITE

/-- Function `fbr_recvfrom`, up to the suspension. -/
def fbr_recvfrom_begin (s : fbr_context) (sockfd : Int) : Option fbr_context :=
  io_wrapper_begin s sockfd EV_READ

/-- Function `fbr_sendto`, up to the suspension. -/
def fbr_sendto_begin (s : fbr_context) (sockfd : Int) : Option fbr_context :=
  io_wrapper_begin s sockfd EV_WRITE

/-- Function `fbr_accept`, up to the suspension. -/
def fbr_accept_begin (s : fbr_context) (sockfd : Int) : Option fbr_context :=
  io_wrapper_begin s sockfd EV_READ

/-- Function `fbr_read` from its resumption on; `fiber` is its local
variable. Gives the value returned. -/
def fbr_read_resume (s : fbr_context) (fiber : Nat) : Option (Int × fbr_context) :=
  if !CALLED_BY_ROOT s then
    match io_stop { s with errno := EINTR } fiber with
    | none => none
    | some s1 => some (-1, s1)
  else
    match retry_eintr s.sys s.errno with
    | none => none
    | some (r, e, rest) =>
      match io_stop { s with errno := e, sys := rest } fiber with
      | none => none
      | some s1 => some (r, s1)

/-- Function `fbr_write` from its resumption on. -/
def fbr_write_resume (s : fbr_context) (fiber : Nat) : Option (Int × fbr_context) :=
  if !CALLED_BY_ROOT s then
    match io_stop { s with errno := EINTR } fiber with
    | none => none
    | some s1 => some (-1, s1)
  else
    match retry_eintr s.sys s.errno with
    | none => none
    | some (r, e, rest) =>
      match io_stop { s with errno := e, sys := rest } fiber with
      | none => none
      | some s1 => some (r, s1)

/-- Function `fbr_recvfrom` from its resumption on. -/
def fbr_recvfrom_resume (s : fbr_context) (fiber : Nat) : Option (Int × fbr_context) :=
  match io_stop s fiber with
  | none => none
  | some s1 =>
    if CALLED_BY_ROOT s1 then
      match sys_once s1.sys s1.errno with
      | none => none
      | some (nbytes, e, rest) => some (nbytes, { s1 with errno := e, sys := rest })
    else some (-1, { s1 with errno := EINTR })

/-- Function `fbr_sendto` from its resumption on. -/
def fbr_sendto_resume (s : fbr_context) (fiber : Nat) : Option (Int × fbr_context) :=
  match io_stop s fiber with
  | none => none
  | some s1 =>
    if CALLED_BY_ROOT s1 then
      match sys_once s1.sys s1.errno with
      | none => none
      | some (nbytes, e, rest) => some (nbytes, { s1 with errno := e, sys := rest })
    else some (-1, { s1 with errno := EINTR })

/-- Function `fbr_accept` from its resumption on. -/
def fbr_accept_resume (s : fbr_context) (fiber : Nat) : Option (Int × fbr_context) :=
  if !CALLED_BY_ROOT s then
    match io_stop s fiber with
    | none => none
    | some s1 => some (-1, { s1 with errno := EINTR })
  else
    match retry_eintr s.sys s.errno with
    | none => none
    | some (r, e, rest) =>
      match io_stop { s with errno := e, sys := rest } fiber with
      | none => none
      | some s1 => some (r, s1)

/-- Result of the inner `for (;;)` of `fbr_read_all` and `fbr_write_all`:
`goto next`, `goto error`, or `break` with the value `r`. -/
inductive all_step where
  | next
  | error
  | done (r : Int)
  deriving DecidableEq, Repr

/-- Inner loop `for (;;)` of `fbr_read_all` and `fbr_write_all`. -/
def all_inner : List sys_result → Int → Option (all_step × Int × List sys_result)
  | [], _ => none
  | x :: rest, errno =>
    if x.ret = -1 then
      if x.err = EINTR then all_inner rest x.err
      else if x.err = EAGAIN then some (all_step.next, x.err, rest)
      else some (all_step.error, x.err, rest)
    else some (all_step.done x.ret, errno, rest)

/-- Loop head `while (count != done)` of `fbr_read_all` and `fbr_write_all`:
enter the body and suspend in `fbr_yield`, or leave, stop the watcher and
return `done`. -/
def all_loop_head (s : fbr_context) (fiber : Nat) (count done : Int) :
    Option (io_outcome × fbr_context) :=
  if count ≠ done then some (io_outcome.suspended done, fbr_yield s)
  else
    match io_stop s fiber with
    | none => none
    | some s1 => some (io_outcome.returned done, s1)

/-- First part of `fbr_read_all` and `fbr_write_all`. -/
def all_begin (s : fbr_context) (fd events count : Int) : Option (io_outcome × fbr_context) :=
  let fiber := CURRENT_FIBER s
  match io_start s fiber fd events with
  | none => none
  | some s1 => all_loop_head s1 fiber count 0

/-- Function `fbr_read_all`, up to the first suspension or the return. -/
def fbr_read_all_begin (s : fbr_context) (fd count : Int) : Option (io_outcome × fbr_context) :=
  all_begin s fd EV_READ count

/-- Function `fbr_write_all`, up to the first suspension or the return. -/
def fbr_write_all_begin (s : fbr_context) (fd count : Int) : Option (io_outcome × fbr_context) :=
  all_begin s fd EV_WRITE count

/-- Function `fbr_read_all` from a resumption to the next suspension or the
return; `fiber`, `count` and `done` are its local variables. -/
def fbr_read_all_resume (s : fbr_context) (fiber : Nat) (count done : Int) :
    Option (io_outcome × fbr_context) :=
  if !CALLED_BY_ROOT s then all_loop_head s fiber count done
  else
    match all_inner s.sys s.errno with
    | none => none
    | some (all_step.next, e, rest) =>
      some (io_outcome.suspended done, fbr_yield { s with errno := e, sys := rest })
    | some (all_step.error, e, rest) =>
      match io_stop { s with errno := e, sys := rest } fiber with
      | none => none
      | some s1 => some (io_outcome.returned (-1), s1)
    | some (all_step.done r, e, rest) =>
      if r = 0 then
        match io_stop { s with errno := e, sys := rest } fiber with
        | none => none
        | some s1 => some (io_outcome.returned done, s1)
      else all_loop_head { s with errno := e, sys := rest } fiber count (done + r)

/-- Function `fbr_write_all` from a resumption to the next suspension or the
return. -/
def fbr_write_all_resume (s : fbr_context) (fiber : Nat) (count done : Int) :
    Option (io_outcome × fbr_context) :=
  if !CALLED_BY_ROOT s then all_loop_head s fiber count done
  else
    match all_inner s.sys s.errno with
    | none => none
    | some (all_step.next, e, rest) =>
      some (io_outcome.suspended done, fbr_yield { s with errno := e, sys := rest })
    | some (all_step.error, e, rest) =>
      match io_stop { s with errno := e, sys := rest } fiber with
      | none => none
      | some s1 => some (io_outcome.returned (-1), s1)
    | some (all_step.done r, e, rest) =>
      all_loop_head { s with errno := e, sys := rest } fiber count (done + r)

/-- What one `fbr_read (fd, &ch, 1)` gives to `fbr_readline`: `-1` with an
`errno`, `0` at the end of the stream, or `1` with the byte read. -/
inductive read_event where
  | error (e : Int)
  | eof
  | byte (ch : Nat)
  deriving DecidableEq, Repr

/-- Result of `fbr_readline`: the value returned, the buffer, `errno`, and
the reads the stream still holds. -/
structure readline_result where
  ret : Int
  buffer : List Nat
  errno : Int
  rest : List read_event
  deriving DecidableEq, Repr

/-- Loop `for (;;)` of `fbr_readline` with the code after it; `stream` lists
what the successive `fbr_read` calls give, `buf` is the offset of the write
pointer in `buffer`. Gives `none` when the stream has no further read to give
(the fiber stays suspended). It is entered with `n > 0`. -/
def fbr_readline_loop (n : Nat) :
    List read_event → List Nat → Nat → Nat → Int → Option readline_result
  | [], _, _, _, _ => none
  | read_event.error e :: rest, buffer, buf, total_read, _ =>
    if e = EINTR then fbr_readline_loop n rest buffer buf total_read e
    else some { ret := -1, buffer := buffer, errno := e, rest := rest }
  | read_event.eof :: rest, buffer, buf, total_read, errno =>
    if total_read = 0 then some { ret := 0, buffer := buffer, errno := errno, rest := rest }
    else some { ret := total_read, buffer := buffer.set buf 0, errno := errno, rest := rest }
  | read_event.byte ch :: rest, buffer, buf, total_read, errno =>
    let keep : Bool := decide (total_read < n - 1)
    let total_read1 := if keep then total_read + 1 else total_read
    let buffer1 := if keep then buffer.set buf ch else buffer
    let buf1 := if keep then buf + 1 else buf
    if ch = 10 then
      some { ret := total_read1, buffer := buffer1.set buf1 0, errno := errno, rest := rest }
    else fbr_readline_loop n rest buffer1 buf1 total_read1 errno

/-- Function `fbr_readline`; `buffer` is `none` for a `NULL` pointer, else the
memory it points to. -/
def fbr_readline (stream : List read_event) (buffer : Option (List Nat)) (n : Nat)
    (errno : Int) : Option readline_result :=
  match buffer with
  | none => some { ret := -1, buffer := [], errno := EINVAL, rest := stream }
  | some mem =>
    if n ≤ 0 then some { ret := -1, buffer := mem, errno := EINVAL, rest := stream }
    else fbr_readline_loop n stream mem 0 0 errno

/-- Store `m` at the mutex address `a`. -/
def set_mutex (s : fbr_context) (a : Nat) (m : fbr_mutex) : fbr_context :=
  { s with mutex_mem := fun x => if x = a then m else s.mutex_mem x }

/-- Function `fbr_mutex_create`; `p` is the address `malloc` returns. -/
def fbr_mutex_create (s : fbr_context) (p : Nat) : Nat × fbr_context :=
  (p, set_mutex s p { locked_by := none, pending := [] })

/-- Store `c` at the condition variable address `a`. -/
def set_cond (s : fbr_context) (a : Nat) (c : fbr_cond_var) : fbr_context :=
  { s with cond_mem := fun x => if x = a then c else s.cond_mem x }

/-- How `fbr_mutex_lock` ends a part of its run. -/
inductive lock_outcome where
  | returned
  | suspended
  deriving DecidableEq, Repr

/-- Function `fbr_mutex_lock`, up to its return or its first suspension.
`TAILQ_INSERT_TAIL` is the insertion at the tail of the sequence when the
running fiber is not on `pending` yet. -/
def fbr_mutex_lock (s : fbr_context) (mutex : Nat) : lock_outcome × fbr_context :=
  let m := s.mutex_mem mutex
  match m.locked_by with
  | none => (lock_outcome.returned, set_mutex s mutex { m with locked_by := some (CURRENT_FIBER s) })
  | some _ =>
    let s1 := set_mutex s mutex { m with pending := m.pending ++ [CURRENT_FIBER s] }
    (lock_outcome.suspended, fbr_yield s1)

/-- Function `fbr_mutex_lock` from a resumption on: the test of
`while (mutex->locked_by != CURRENT_FIBER)`. -/
def fbr_mutex_lock_resume (s : fbr_context) (mutex : Nat) : lock_outcome × fbr_context :=
  if (s.mutex_mem mutex).locked_by ≠ some (CURRENT_FIBER s) then
    (lock_outcome.suspended, fbr_yield s)
  else (lock_outcome.returned, s)

/-- Function `fbr_mutex_trylock`. -/
def fbr_mutex_trylock (s : fbr_context) (mutex : Nat) : Int × fbr_context :=
  let m := s.mutex_mem mutex
  match m.locked_by with
  | none => (1, set_mutex s mutex { m with locked_by := some (CURRENT_FIBER s) })
  | some _ => (0, s)

/-- Function `fbr_mutex_unlock`. `TAILQ_INSERT_TAIL` is the insertion at the
tail of the sequence `mutexes` when the mutex is not on it yet; the code does
not test that, and inserting a mutex that is still queued leaves a queue that
is no sequence. -/
def fbr_mutex_unlock (s : fbr_context) (mutex : Nat) : fbr_context :=
  let m := s.mutex_mem mutex
  match m.pending with
  | [] => set_mutex s mutex { m with locked_by := none }
  | fiber :: rest =>
    let s1 := set_mutex s mutex { locked_by := some fiber, pending := rest }
    let s2 :=
      if (s1.mutex_mem mutex).pending.isEmpty then
        { s1 with mutex_async := { s1.mutex_async with active := true } }
      else s1
    let s3 := { s2 with mutexes := s2.mutexes ++ [mutex] }
    { s3 with mutex_async := { s3.mutex_async with sent := true } }

/-- Function `fbr_cond_broadcast`. -/
def fbr_cond_broadcast (s : fbr_context) (cond : Nat) : fbr_context :=
  let c := s.cond_mem cond
  if c.waiting.isEmpty then s
  else
    let was_empty := s.pending_fibers.isEmpty
    let s1 := { s with pending_fibers := s.pending_fibers ++ c.waiting }
    let s2 := set_cond s1 cond { c with waiting := [] }
    let s3 :=
      if was_empty && !s2.pending_fibers.isEmpty then
        { s2 with pending_async := { s2.pending_async with active := true } }
      else s2
    { s3 with pending_async := { s3.pending_async with sent := true } }

/-- Function `fbr_cond_signal`. -/
def fbr_cond_signal (s : fbr_context) (cond : Nat) : fbr_context :=
  let c := s.cond_mem cond
  match c.waiting with
  | [] => s
  | fiber :: rest =>
    let was_empty := s.pending_fibers.isEmpty
    let s1 := set_cond s cond { c with waiting := rest }
    let s2 := { s1 with pending_fibers := s1.pending_fibers ++ [fiber] }
    let s3 :=
      if was_empty && !s2.pending_fibers.isEmpty then
        { s2 with pending_async := { s2.pending_async with active := true } }
      else s2
    { s3 with pending_async := { s3.pending_async with sent := true } }

/-- The states the API reaches from `fbr_init`, with the handles `fbr_create`
has returned so far, in a frame array of `call_stack_size` frames. The callee
of a call and the fiber of a reclaim are such handles, `fbr_yield` is not run
by the root fiber, the storage `malloc` gives for a new fiber is not the root
fiber, and a call that transfers control is made while the frame it writes,
`stack[sp + 1]`, lies in the array. -/
inductive Reachable (FBR_MAX_ARG_NUM call_stack_size : Int) :
    fbr_context → List Nat → Prop where
  | init (mem : fbr_context) (p : Nat) (s : fbr_context) :
      0 < call_stack_size → fbr_init mem p = some s →
      Reachable FBR_MAX_ARG_NUM call_stack_size s []
  | create (s : fbr_context) (hs : List Nat) (name func p : Nat) :
      Reachable FBR_MAX_ARG_NUM call_stack_size s hs → p ≠ ROOT →
      Reachable FBR_MAX_ARG_NUM call_stack_size (fbr_create s name func p).2
        ((fbr_create s name func p).1 :: hs)
  | reclaim (s : fbr_context) (hs : List Nat) (fuel fiber : Nat) (s1 : fbr_context) :
      Reachable FBR_MAX_ARG_NUM call_stack_size s hs → fiber ∈ hs →
      fbr_reclaim fuel s fiber = some s1 →
      Reachable FBR_MAX_ARG_NUM call_stack_size s1 hs
  | call (s : fbr_context) (hs : List Nat) (callee : Nat) (argnum : Int)
      (ap : List fbr_fiber_arg) (p : Nat) (o : call_outcome) (s1 : fbr_context) :
      Reachable FBR_MAX_ARG_NUM call_stack_size s hs → callee ∈ hs →
      fbr_call FBR_MAX_ARG_NUM s callee argnum ap p = some (o, s1) →
      (o = call_outcome.transferred → s.sp + 1 < call_stack_size) →
      Reachable FBR_MAX_ARG_NUM call_stack_size s1 hs
  | call_noinfo (s : fbr_context) (hs : List Nat) (callee : Nat) (argnum : Int)
      (ap : List fbr_fiber_arg) (o : call_outcome) (s1 : fbr_context) :
      Reachable FBR_MAX_ARG_NUM call_stack_size s hs → callee ∈ hs →
      fbr_call_noinfo FBR_MAX_ARG_NUM s callee argnum ap = some (o, s1) →
      (o = call_outcome.transferred → s.sp + 1 < call_stack_size) →
      Reachable FBR_MAX_ARG_NUM call_stack_size s1 hs
  | yield (s : fbr_context) (hs : List Nat) :
      Reachable FBR_MAX_ARG_NUM call_stack_size s hs → CURRENT_FIBER s ≠ ROOT →
      Reachable FBR_MAX_ARG_NUM call_stack_size (fbr_yield s) hs

/-- The call-stack invariant: the stack is not empty, its bottom frame holds
the root fiber, no frame above the bottom holds it, and the fiber in control
is the one of the top frame. -/
def stack_inv (s : fbr_context) : Prop :=
  0 ≤ s.sp ∧ s.stack 0 = ROOT ∧ (∀ i : Int, 0 < i → i ≤ s.sp → s.stack i ≠ ROOT) ∧
    s.running = s.stack s.sp

/-- The destructor calls a pass over the arena entries `pool` of `fiber`
makes: one for each entry with a destructor, in the order of the entries, with
the user pointer `addr + 1` and the context of the entry. -/
def dtor_calls (fiber : Nat) (pool : List fbr_mem_pool) : List destructor_call :=
  pool.filterMap (fun e =>
    match e.destructor with
    | none => none
    | some d => some { fiber := fiber, func := d, ptr := e.addr + 1,
                       context := e.destructor_context })

/-- The destructor calls of `log` made for the arena of fiber `g`. -/
def calls_of (g : Nat) (log : List destructor_call) : List destructor_call :=
  log.filter (fun c => c.fiber == g)

/-- The fiber record after its cleanup and reclaim: watchers stopped, arena
empty, `reclaimed = 1`. -/
def reclaimed_fiber (f : fbr_fiber) : fbr_fiber :=
  { f with w_io := { f.w_io with active := false }, w_timer := { active := false },
           pool := [], reclaimed := 1 }

/-- Between `s` and `t` the fiber `g` and the destructor calls of its arena
are the same. -/
def untouched (s t : fbr_context) (g : Nat) : Prop :=
  t.fibers g = s.fibers g ∧ calls_of g t.dtor_log = calls_of g s.dtor_log

/-- Between `s` and `t` the live fiber `g` was cleaned up and reclaimed: the
destructors of its arena were called once each, in the order of the arena. -/
def reclaimed_now (s t : fbr_context) (g : Nat) : Prop :=
  (s.fibers g).reclaimed = 0 ∧ t.fibers g = reclaimed_fiber (s.fibers g) ∧
    calls_of g t.dtor_log = calls_of g s.dtor_log ++ dtor_calls g (s.fibers g).pool

/-- What a run of `fbr_reclaim` from `s` to `t` may change: fibers, each left
as it was or reclaimed, the pool of reclaimed fibers and the record of
destructor calls. -/
def reclaim_rel (s t : fbr_context) : Prop :=
  t = { s with fibers := t.fibers, dtor_log := t.dtor_log, reclaimed := t.reclaimed } ∧
    ∀ g, untouched s t g ∨ reclaimed_now s t g

/-- A memory filled with zeroes, to run the functions on. -/
def mem0 : fbr_context :=
  { f_errno := fbr_error_code.FBR_SUCCESS, fibers := fun _ => zero_fiber, stack := fun _ => 0,
    sp := 0, reclaimed := [], mutex_mem := fun _ => { locked_by := none, pending := [] },
    cond_mem := fun _ => { mutex := none, waiting := [] }, mutexes := [], pending_fibers := [],
    mutex_async := { active := false, sent := false },
    pending_async := { active := false, sent := false }, backtraces_enabled := 0, errno := 0,
    sys := [], running := 0, dtor_log := [] }

/-- The state after `fbr_init` on `mem0`, the logger being stored at 1. -/
def demo_init : fbr_context := (fbr_init mem0 1).getD mem0

/-- The state after the root fiber has created a fiber, stored at 5. -/
def demo_created : fbr_context := (fbr_create demo_init 0 0 5).2

/-- The state after the root fiber has called fiber 5 with one argument, the
call-info record being stored at 7. -/
def demo_called : fbr_context :=
  ((fbr_call 10 demo_created 5 1 [fbr_fiber_arg.i 1] 7).getD
    (call_outcome.transferred, demo_created)).2

/-- The state after the root fiber has reclaimed fiber 5 of `demo_created`. -/
def demo_reclaimed : fbr_context := (fbr_reclaim 1 demo_created 5).getD demo_created

/-- Two calls for the fiber 5 of `demo_created`, with one and two arguments. -/
def demo_calls : List call_args :=
  [{ argnum := 1, ap := [fbr_fiber_arg.i 1], p := 7 },
   { argnum := 2, ap := [fbr_fiber_arg.i 2, fbr_fiber_arg.v 3], p := 9 }]

/-- Fibers entering `fbr_mutex_lock` on `mutex` one after the other:
`lock_entries mutex s fs u` holds when the fibers `fs` enter in that order,
the first in state `s`, and `u` is the state after the last entry. A fiber
that enters is not waiting for the mutex already. Between two entries
anything may run that leaves the record of the mutex as it is. -/
inductive lock_entries (mutex : Nat) : fbr_context → List Nat → fbr_context → Prop where
  | done (s : fbr_context) : lock_entries mutex s [] s
  | enter (s t u : fbr_context) (fiber : Nat) (rest : List Nat) :
      CURRENT_FIBER s = fiber →
      fiber ∉ (s.mutex_mem mutex).pending →
      t.mutex_mem mutex = (fbr_mutex_lock s mutex).2.mutex_mem mutex →
      lock_entries mutex t rest u →
      lock_entries mutex s (fiber :: rest) u

/-- Successive calls of `fbr_mutex_unlock` on `mutex`, the first in state
`s`, with the owners (`locked_by`) they leave, in order. Between two calls
anything may run that leaves the record of the mutex as it is. -/
inductive unlock_owners (mutex : Nat) : fbr_context → List (Option Nat) → Prop where
  | done (s : fbr_context) : unlock_owners mutex s []
  | unlock (s t : fbr_context) (owners : List (Option Nat)) :
      t.mutex_mem mutex = (fbr_mutex_unlock s mutex).mutex_mem mutex →
      unlock_owners mutex t owners →
      unlock_owners mutex s ((t.mutex_mem mutex).locked_by :: owners)

/-- The state `demo_called` (fiber 5 runs, called by the root), with the
mutex 3 held by the root fiber. -/
def demo_locked : fbr_context :=
  set_mutex demo_called 3 { locked_by := some 0, pending := [] }

/-- The state `demo_called` with the fibers 5, 6 and 7 waiting, in that order,
on the condition variable 4, and fiber 8 already in `pending_fibers`. -/
def demo_waiting : fbr_context :=
  { set_cond demo_called 4 { mutex := none, waiting := [5, 6, 7] } with pending_fibers := [8] }

/-- The state `demo_called` after the running fiber 5 has allocated three
blocks, at 20, 22 and 24, and set a destructor on the first and the third. -/
def demo_arena : fbr_context :=
  let s1 := ((fbr_alloc demo_called 20).getD (0, demo_called)).2
  let s2 := fbr_alloc_set_destructor s1 21 (some 100) 1
  let s3 := ((fbr_alloc s2 22).getD (0, s2)).2
  let s4 := ((fbr_alloc s3 24).getD (0, s3)).2
  fbr_alloc_set_destructor s4 25 (some 101) 2

/-- A rank for the fibers of `demo_arena`: the root above the fibers it made. -/
def demo_rank (g : Nat) : Nat := if g = 0 then 1 else 0

/-- The state after the root fiber has created a second fiber, stored at 6. -/
def demo_two : fbr_context := (fbr_create demo_created 0 0 6).2

/-- The state after the root fiber has called fiber 5 and fiber 5 has entered
`fbr_read_all (fd = 3, count = 10)`, which armed its watcher and yielded. -/
def demo_reading : fbr_context :=
  ((fbr_read_all_begin
      ((fbr_call_noinfo 10 demo_two 5 0 []).getD (call_outcome.transferred, demo_two)).2
      3 10).getD (io_outcome.suspended 0, demo_two)).2

/-- The state after the root fiber has then called fiber 6, and fiber 6 has
called fiber 5: fiber 5 is resumed with fiber 6, not the root, in the frame
below its own. -/
def demo_spurious : fbr_context :=
  ((fbr_call_noinfo 10
      ((fbr_call_noinfo 10 demo_reading 6 0 []).getD (call_outcome.transferred, demo_reading)).2
      5 0 []).getD (call_outcome.transferred, demo_reading)).2

/-- The I/O watcher of `fiber` is armed in `t`. -/
def io_armed (t : fbr_context) (fiber : Nat) : Prop :=
  (t.fibers fiber).w_io_expected = 1 ∧ (t.fibers fiber).w_io.active = true

/-- The I/O watcher of `fiber` is disarmed in `t`. -/
def io_disarmed (t : fbr_context) (fiber : Nat) : Prop :=
  (t.fibers fiber).w_io_expected = 0 ∧ (t.fibers fiber).w_io.active = false

/-- The result `res` of a wrapper resumed in state `s` is the interrupted
one: `-1` with `errno = EINTR`, no system call made, watcher disarmed. -/
def io_interrupted (s : fbr_context) (fiber : Nat) (res : Option (Int × fbr_context)) : Prop :=
  ∃ t, res = some (-1, t) ∧ t.errno = EINTR ∧ t.sys = s.sys ∧ io_disarmed t fiber

/-- The result `res` of the first part of a wrapper entered in state `x`: the
watcher of the running fiber is armed and the fiber has yielded. -/
def io_armed_and_yielded (x : fbr_context) (res : Option fbr_context) : Prop :=
  ∃ x1, io_armed x1 (CURRENT_FIBER x) ∧ x1.sp = x.sp ∧ x1.stack = x.stack ∧
    res = some (fbr_yield x1) ∧ io_armed (fbr_yield x1) (CURRENT_FIBER x)

/-- The bytes of `bs` up to and with its first newline (all of `bs` when it has
none): what `fbr_readline` consumes from a stream that starts with `bs`. -/
def line_of : List Nat → List Nat
  | [] => []
  | b :: bs => if b = 10 then [b] else b :: line_of bs

/-- The bytes of `bs` after its first newline. -/
def after_line : List Nat → List Nat
  | [] => []
  | b :: bs => if b = 10 then bs else after_line bs

/-- The memory `mem` after the bytes `data` were stored one by one from the
offset `k` on. -/
def write_at : List Nat → Nat → List Nat → List Nat
  | mem, _, [] => mem
  | mem, k, d :: ds => write_at (mem.set k d) (k + 1) ds

/-- Function `fbr_sleep`, up to the suspension in `fbr_yield` (the times are
not represented). -/
def fbr_sleep_begin (s : fbr_context) : fbr_context :=
  let fiber := CURRENT_FIBER s
  fbr_yield (timer_start s fiber)

/-- Function `fbr_sleep` from its resumption on; `fiber` is its local
variable (the value returned is not represented). -/
def fbr_sleep_resume (s : fbr_context) (fiber : Nat) : fbr_context :=
  timer_stop s fiber

/-- The fiber `g` is in a frame of the call stack, `stack[0] .. stack[sp]`. -/
def on_stack (s : fbr_context) (g : Nat) : Prop :=
  ∃ i : Int, 0 ≤ i ∧ i ≤ s.sp ∧ s.stack i = g

/-- The states the API reaches from `fbr_init`, with the handles `fbr_create`
has returned so far, by fiber creation, calls, yields, arena operations, the
I/O wrappers, `fbr_sleep` and reclaims, in a frame array of `call_stack_size`
frames. The steps are those on which the lists of the program stay sequences:
* `fbr_create` runs while the pool of reclaimed fibers is empty, so that it
  takes fresh storage, which `malloc` gives where no fiber is;
* a call that transfers control is made while the frame it writes lies in the
  frame array;
* `fbr_free` is given `NULL` or a block of the arena of the running fiber,
  `fbr_alloc_set_destructor` a block of some arena;
* a wrapper or a sleep runs in the running fiber, which is not the root;
* a fiber is reclaimed while it is in no frame of the call stack (`reclaim`),
  or at the end of its function by `call_wrapper`, which reclaims the running
  fiber and yields (`finish`), the running fiber being in no frame below the
  top; no reclaim takes with it a fiber that is in a frame. -/
inductive Runs (FBR_MAX_ARG_NUM call_stack_size : Int) :
    fbr_context → List Nat → Prop where
  | init (mem : fbr_context) (p : Nat) (s : fbr_context) :
      fbr_init mem p = some s → Runs FBR_MAX_ARG_NUM call_stack_size s []
  | create (s : fbr_context) (hs : List Nat) (name func p : Nat) :
      Runs FBR_MAX_ARG_NUM call_stack_size s hs → s.reclaimed = [] → p ≠ ROOT → p ∉ hs →
      Runs FBR_MAX_ARG_NUM call_stack_size (fbr_create s name func p).2
        ((fbr_create s name func p).1 :: hs)
  | reclaim (s : fbr_context) (hs : List Nat) (fuel fiber : Nat) (t : fbr_context) :
      Runs FBR_MAX_ARG_NUM call_stack_size s hs → fiber ∈ hs → fbr_reclaim fuel s fiber = some t →
      (∀ g, (s.fibers g).reclaimed ≠ 1 → (t.fibers g).reclaimed = 1 → ¬ on_stack s g) →
      Runs FBR_MAX_ARG_NUM call_stack_size t hs
  | finish (s : fbr_context) (hs : List Nat) (fuel : Nat) (t : fbr_context) :
      Runs FBR_MAX_ARG_NUM call_stack_size s hs → CURRENT_FIBER s ≠ ROOT →
      fbr_reclaim fuel s (CURRENT_FIBER s) = some t →
      (∀ g, (s.fibers g).reclaimed ≠ 1 → (t.fibers g).reclaimed = 1 →
        g ≠ CURRENT_FIBER s → ¬ on_stack s g) →
      (∀ i : Int, 0 ≤ i → i < s.sp → s.stack i ≠ CURRENT_FIBER s) →
      Runs FBR_MAX_ARG_NUM call_stack_size (fbr_yield t) hs
  | call (s : fbr_context) (hs : List Nat) (callee : Nat) (argnum : Int)
      (ap : List fbr_fiber_arg) (p : Nat) (o : call_outcome) (t : fbr_context) :
      Runs FBR_MAX_ARG_NUM call_stack_size s hs → callee ∈ hs →
      fbr_call FBR_MAX_ARG_NUM s callee argnum ap p = some (o, t) →
      (o = call_outcome.transferred → s.sp + 1 < call_stack_size) →
      Runs FBR_MAX_ARG_NUM call_stack_size t hs
  | call_noinfo (s : fbr_context) (hs : List Nat) (callee : Nat) (argnum : Int)
      (ap : List fbr_fiber_arg) (o : call_outcome) (t : fbr_context) :
      Runs FBR_MAX_ARG_NUM call_stack_size s hs → callee ∈ hs →
      fbr_call_noinfo FBR_MAX_ARG_NUM s callee argnum ap = some (o, t) →
      (o = call_outcome.transferred → s.sp + 1 < call_stack_size) →
      Runs FBR_MAX_ARG_NUM call_stack_size t hs
  | yield (s : fbr_context) (hs : List Nat) :
      Runs FBR_MAX_ARG_NUM call_stack_size s hs → CURRENT_FIBER s ≠ ROOT →
      Runs FBR_MAX_ARG_NUM call_stack_size (fbr_yield s) hs
  | alloc (s : fbr_context) (hs : List Nat) (p ptr : Nat) (t : fbr_context) :
      Runs FBR_MAX_ARG_NUM call_stack_size s hs →
      (fbr_alloc s p = some (ptr, t) ∨ fbr_calloc s p = some (ptr, t)) →
      Runs FBR_MAX_ARG_NUM call_stack_size t hs
  | set_destructor (s : fbr_context) (hs : List Nat) (ptr : Nat) (func : Option Nat)
      (context : Nat) :
      Runs FBR_MAX_ARG_NUM call_stack_size s hs →
      (∃ g, ∃ e ∈ (s.fibers g).pool, e.addr + 1 = ptr) →
      Runs FBR_MAX_ARG_NUM call_stack_size (fbr_alloc_set_destructor s ptr func context) hs
  | free (s : fbr_context) (hs : List Nat) (ptr : Nat) (t : fbr_context) :
      Runs FBR_MAX_ARG_NUM call_stack_size s hs →
      (ptr = 0 ∨ ∃ e ∈ (s.fibers (CURRENT_FIBER s)).pool, e.addr + 1 = ptr) →
      fbr_free s ptr = some t → Runs FBR_MAX_ARG_NUM call_stack_size t hs
  | io_begin (s : fbr_context) (hs : List Nat) (fd : Int) (t : fbr_context) :
      Runs FBR_MAX_ARG_NUM call_stack_size s hs → CURRENT_FIBER s ≠ ROOT →
      (fbr_read_begin s fd = some t ∨ fbr_write_begin s fd = some t ∨
        fbr_recvfrom_begin s fd = some t ∨ fbr_sendto_begin s fd = some t ∨
        fbr_accept_begin s fd = some t) →
      Runs FBR_MAX_ARG_NUM call_stack_size t hs
  | io_resume (s : fbr_context) (hs : List Nat) (r : Int) (t : fbr_context) :
      Runs FBR_MAX_ARG_NUM call_stack_size s hs →
      (fbr_read_resume s (CURRENT_FIBER s) = some (r, t) ∨
        fbr_write_resume s (CURRENT_FIBER s) = some (r, t) ∨
        fbr_recvfrom_resume s (CURRENT_FIBER s) = some (r, t) ∨
        fbr_sendto_resume s (CURRENT_FIBER s) = some (r, t) ∨
        fbr_accept_resume s (CURRENT_FIBER s) = some (r, t)) →
      Runs FBR_MAX_ARG_NUM call_stack_size t hs
  | all_begin (s : fbr_context) (hs : List Nat) (fd count : Int) (o : io_outcome)
      (t : fbr_context) :
      Runs FBR_MAX_ARG_NUM call_stack_size s hs → CURRENT_FIBER s ≠ ROOT →
      (fbr_read_all_begin s fd count = some (o, t) ∨
        fbr_write_all_begin s fd count = some (o, t)) →
      Runs FBR_MAX_ARG_NUM call_stack_size t hs
  | all_resume (s : fbr_context) (hs : List Nat) (count done : Int) (o : io_outcome)
      (t : fbr_context) :
      Runs FBR_MAX_ARG_NUM call_stack_size s hs → CURRENT_FIBER s ≠ ROOT →
      (fbr_read_all_resume s (CURRENT_FIBER s) count done = some (o, t) ∨
        fbr_write_all_resume s (CURRENT_FIBER s) count done = some (o, t)) →
      Runs FBR_MAX_ARG_NUM call_stack_size t hs
  | sleep_begin (s : fbr_context) (hs : List Nat) :
      Runs FBR_MAX_ARG_NUM call_stack_size s hs → CURRENT_FIBER s ≠ ROOT →
      Runs FBR_MAX_ARG_NUM call_stack_size (fbr_sleep_begin s) hs
  | sleep_resume (s : fbr_context) (hs : List Nat) :
      Runs FBR_MAX_ARG_NUM call_stack_size s hs →
      Runs FBR_MAX_ARG_NUM call_stack_size (fbr_sleep_resume s (CURRENT_FIBER s)) hs

/-- Watchers and flags of a fiber record agree: an active watcher is expected;
in a fiber that is not reclaimed an expected watcher is active; a reclaimed
fiber has both watchers stopped and an empty arena. -/
def fiber_base (f : fbr_fiber) : Prop :=
  (f.w_io.active = true → f.w_io_expected = 1) ∧
  (f.w_timer.active = true → f.w_timer_expected = 1) ∧
  (f.reclaimed ≠ 1 →
    (f.w_io_expected = 1 → f.w_io.active = true) ∧
    (f.w_timer_expected = 1 → f.w_timer.active = true)) ∧
  (f.reclaimed = 1 → f.w_io.active = false ∧ f.w_timer.active = false ∧ f.pool = [])

/-- A fiber that has not left its first context yet expects no event. -/
def fiber_fresh (f : fbr_fiber) : Prop :=
  f.ctx = coro_context.entry → f.w_io_expected = 0 ∧ f.w_timer_expected = 0

/-- The fiber record with its context saved at `site` by `coro_transfer`. -/
def saved_at (f : fbr_fiber) (site : coro_context) : fbr_fiber := { f with ctx := site }

/-- The fiber record after `fiber_prepare`. -/
def prepared (f : fbr_fiber) : fbr_fiber :=
  { f with w_io := { f.w_io with active := false }, w_timer := { active := false },
           reclaimed := 0 }

/-- The invariant of the states of `Runs`, in the form it has inside a step:
`src` is the fiber that may have armed a watcher and not yet saved its
context, `k` the top of the part of the call stack that holds no reclaimed
fiber. Between steps `src` is the root fiber (no handle) and `k` is `sp`.
The parts: the frames above the bottom hold handles; children of the root and
of handles are handles, and their lists form a forest (`rank`); the pool of
reclaimed fibers has no duplicates and holds handles with `reclaimed = 1`;
the watchers and flags of every handle agree (`fiber_base`, `fiber_fresh`);
no reclaimed handle is in a frame up to `k`. -/
def runs_inv (s : fbr_context) (hs : List Nat) (src : Nat) (k : Int) : Prop :=
  (0 ≤ s.sp ∧ s.stack 0 = ROOT ∧ ROOT ∉ hs ∧
    ∀ i : Int, 0 < i → i ≤ s.sp → s.stack i ∈ hs) ∧
  (∀ g, (g = ROOT ∨ g ∈ hs) → ∀ c ∈ (s.fibers g).children, c ∈ hs) ∧
  (∃ rank : Nat → Nat, ∀ g, (g = ROOT ∨ g ∈ hs) →
    ∀ c ∈ (s.fibers g).children, rank c < rank g) ∧
  (s.reclaimed.Nodup ∧ ∀ x ∈ s.reclaimed, x ∈ hs ∧ (s.fibers x).reclaimed = 1) ∧
  (∀ g ∈ hs, fiber_base (s.fibers g) ∧ (g ≠ src → fiber_fresh (s.fibers g))) ∧
  (∀ g ∈ hs, (s.fibers g).reclaimed = 1 → ∀ i : Int, 0 ≤ i → i ≤ k → s.stack i ≠ g)

/-- A step from `s` to `t` that leaves the call stack, the pool of reclaimed
fibers, the lists of children and the `reclaimed` flags as they are, and keeps
the agreement of watchers and flags in every handle (for the fiber `src` that
runs the step: up to `fiber_fresh`). -/
def keeps (hs : List Nat) (src : Nat) (s t : fbr_context) : Prop :=
  t.stack = s.stack ∧ t.sp = s.sp ∧ t.reclaimed = s.reclaimed ∧
  ∀ g, (t.fibers g).children = (s.fibers g).children ∧
    (t.fibers g).reclaimed = (s.fibers g).reclaimed ∧
    (g ∈ hs → ((s.fibers g).reclaimed = 1 → g ≠ CURRENT_FIBER s) →
      fiber_base (s.fibers g) → fiber_base (t.fibers g)) ∧
    (g ∈ hs → g ≠ src → fiber_fresh (s.fibers g) → fiber_fresh (t.fibers g))

/-- The state after the root fiber has created the mutex 3 in `demo_two` and
locked it, has called fiber 5, which entered `fbr_mutex_lock` and was
suspended, and has then called fiber 6, which did the same: the root fiber
runs and owns the mutex, fibers 5 and 6 wait for it, in that order. -/
def demo_contended : fbr_context :=
  let s0 := (fbr_mutex_create demo_two 3).2
  let s1 := (fbr_mutex_lock s0 3).2
  let s2 := ((fbr_call_noinfo 10 s1 5 0 []).getD (call_outcome.transferred, s1)).2
  let s3 := (fbr_mutex_lock s2 3).2
  let s4 := ((fbr_call_noinfo 10 s3 6 0 []).getD (call_outcome.transferred, s3)).2
  (fbr_mutex_lock s4 3).2

/-- The states `x` and `s` have the same fiber records, call stack and pool
of reclaimed fibers. -/
def same_core (x s : fbr_context) : Prop :=
  x.fibers = s.fibers ∧ x.stack = s.stack ∧ x.sp = s.sp ∧ x.reclaimed = s.reclaimed

/-- The state after fiber 5 of `demo_called`, which has one call-info record
not yet taken, has yielded and the root fiber has reclaimed it. -/
def demo_undelivered : fbr_context :=
  (fbr_reclaim 1 (fbr_yield demo_called) 5).getD demo_called

/-- The state after the root fiber has reclaimed fiber 5 of `demo_reading`,
which is suspended in `fbr_read_all` with its I/O watcher armed. -/
def demo_armed_reclaimed : fbr_context :=
  (fbr_reclaim 1 demo_reading 5).getD demo_reading

/-- The lists of children of `s` are the lists of a forest: a child is below
the fiber that lists it (`rank`), no list holds a fiber twice and no fiber is
on two lists. These are the states in which the lists of the program are the
sequences of the model. -/
def children_forest (rank : Nat → Nat) (s : fbr_context) : Prop :=
  (∀ g, ∀ c ∈ (s.fibers g).children, rank c < rank g) ∧
  (∀ g, (s.fibers g).children.Nodup) ∧
  (∀ g1 g2 c, c ∈ (s.fibers g1).children → c ∈ (s.fibers g2).children → g1 = g2)

/-- The state after the root fiber has called fiber 5 of `demo_two`: fiber 5
runs in frame 1. -/
def demo_nested : fbr_context :=
  ((fbr_call_noinfo 10 demo_two 5 0 []).getD (call_outcome.transferred, demo_two)).2

/-- The state after `n` more calls made from `s` by the fibers 5 and 6 in
turn, the running one calling the other with `fbr_call_noinfo` before any
yield: every call adds a frame. -/
def ping_pong : Nat → fbr_context → fbr_context
  | 0, s => s
  | n + 1, s =>
    ping_pong n ((fbr_call_noinfo 10 s (if CURRENT_FIBER s = 5 then 6 else 5) 0 []).getD
      (call_outcome.transferred, s)).2

/-- The state after the root fiber has called fiber 5 of `demo_two` and the
fibers 5 and 6 have then called each other 14 times: the running fiber is in
frame 15. -/
def demo_deep : fbr_context := ping_pong 14 demo_nested

/-! ## Frame lemmas -/

theorem coro_transfer_frame (s : fbr_context) (src dst : Nat) (site : coro_context) :
    (coro_transfer s src dst site).stack = s.stack ∧
    (coro_transfer s src dst site).sp = s.sp ∧
    (coro_transfer s src dst site).running = dst ∧
    (coro_transfer s src dst site).reclaimed = s.reclaimed ∧
    (∀ g, ((coro_transfer s src dst site).fibers g).children = (s.fibers g).children) := by
  unfold coro_transfer
  simp only
  split <;> simp [fiber_prepare, set_fiber, CURRENT_FIBER] <;> intro g <;> split_ifs <;> simp_all

theorem calls_of_append (g : Nat) (l1 l2 : List destructor_call) :
    calls_of g (l1 ++ l2) = calls_of g l1 ++ calls_of g l2 := by
  simp [calls_of]

theorem calls_of_dtor_calls_self (g : Nat) (pool : List fbr_mem_pool) :
    calls_of g (dtor_calls g pool) = dtor_calls g pool := by
  unfold calls_of dtor_calls
  rw [List.filter_eq_self]
  intro c hc
  rw [List.mem_filterMap] at hc
  obtain ⟨e, _, he⟩ := hc
  cases hd : e.destructor <;> simp [hd] at he
  subst he
  simp

theorem calls_of_dtor_calls_other (g f : Nat) (h : g ≠ f) (pool : List fbr_mem_pool) :
    calls_of g (dtor_calls f pool) = [] := by
  unfold calls_of dtor_calls
  rw [List.filter_eq_nil_iff]
  intro c hc
  rw [List.mem_filterMap] at hc
  obtain ⟨e, _, he⟩ := hc
  cases hd : e.destructor <;> simp [hd] at he
  subst he
  simpa using fun h2 => h h2.symm

@[simp]
theorem coro_transfer_stack (s : fbr_context) (src dst : Nat) (site : coro_context) :
    (coro_transfer s src dst site).stack = s.stack :=
  (coro_transfer_frame s src dst site).1

@[simp]
theorem coro_transfer_sp (s : fbr_context) (src dst : Nat) (site : coro_context) :
    (coro_transfer s src dst site).sp = s.sp :=
  (coro_transfer_frame s src dst site).2.1

@[simp]
theorem coro_transfer_running (s : fbr_context) (src dst : Nat) (site : coro_context) :
    (coro_transfer s src dst site).running = dst :=
  (coro_transfer_frame s src dst site).2.2.1

@[simp]
theorem coro_transfer_reclaimed (s : fbr_context) (src dst : Nat) (site : coro_context) :
    (coro_transfer s src dst site).reclaimed = s.reclaimed :=
  (coro_transfer_frame s src dst site).2.2.2.1

@[simp]
theorem coro_transfer_children (s : fbr_context) (src dst : Nat) (site : coro_context)
    (g : Nat) :
    ((coro_transfer s src dst site).fibers g).children = (s.fibers g).children :=
  (coro_transfer_frame s src dst site).2.2.2.2 g

/-- Primitive `coro_transfer` leaves call lists and arenas alone, and a
`reclaimed` flag is kept or (on the first entry of a fiber) set to 0. -/
theorem coro_transfer_fibers (s : fbr_context) (src dst : Nat) (site : coro_context) (g : Nat) :
    ((coro_transfer s src dst site).fibers g).call_list = (s.fibers g).call_list ∧
    ((coro_transfer s src dst site).fibers g).call_list_size = (s.fibers g).call_list_size ∧
    ((coro_transfer s src dst site).fibers g).pool = (s.fibers g).pool ∧
    (((coro_transfer s src dst site).fibers g).reclaimed = (s.fibers g).reclaimed ∨
      ((coro_transfer s src dst site).fibers g).reclaimed = 0) := by
  unfold coro_transfer
  simp only
  split <;> simp only [fiber_prepare, set_fiber, CURRENT_FIBER] <;> split_ifs <;> simp_all

/-- The cleanup loop over the whole arena of `fiber`: it ends with the arena
empty and has called the destructors in the order of the arena. -/
theorem fiber_cleanup_loop_spec (fiber : Nat) (l : List fbr_mem_pool) :
    ∀ (s t : fbr_context), (s.fibers fiber).pool = l →
      fiber_cleanup_loop fiber s l = some t →
      t = { s with fibers := fun x => if x = fiber then { s.fibers fiber with pool := [] }
                                      else s.fibers x,
                   dtor_log := s.dtor_log ++ dtor_calls fiber l } := by
  induction l with
  | nil =>
    intro s t hp h
    simp only [fiber_cleanup_loop, Option.some.injEq] at h
    subst h
    simp only [dtor_calls, List.filterMap_nil, List.append_nil]
    have : (fun x => if x = fiber then { s.fibers fiber with pool := [] } else s.fibers x)
        = s.fibers := by
      funext x
      split_ifs with hx
      · subst hx
        rw [← hp]
      · rfl
    rw [this]
  | cons e rest ih =>
    intro s t hp h
    simp only [fiber_cleanup_loop] at h
    cases hfree : fbr_free_in_fiber s fiber (e.addr + 1) with
    | none => simp [hfree] at h
    | some s1 =>
      simp only [hfree] at h
      unfold fbr_free_in_fiber at hfree
      simp only [Nat.add_one_ne_zero, ↓reduceIte, hp, List.find?_cons, beq_self_eq_true,
        List.eraseP_cons, cond_true] at hfree
      split_ifs at hfree with hint
      have hs1 := ih s1 t ?_ h
      · subst hs1
        cases hd : e.destructor with
        | none =>
          simp only [hd, Option.some.injEq] at hfree
          subst hfree
          simp [set_fiber, dtor_calls, hd]
          funext x
          split_ifs <;> simp_all
        | some d =>
          simp only [hd, Option.some.injEq] at hfree
          subst hfree
          simp [set_fiber, dtor_calls, hd]
          funext x
          split_ifs <;> simp_all
      · cases hd : e.destructor <;> simp only [hd, Option.some.injEq] at hfree <;>
          subst hfree <;> simp [set_fiber]

/-- The cleanup loop does not abort on entries that carry their own address. -/
theorem fiber_cleanup_loop_total (fiber : Nat) (l : List fbr_mem_pool) :
    ∀ (s : fbr_context), (s.fibers fiber).pool = l → (∀ e ∈ l, e.ptr = e.addr) →
      ∃ t, fiber_cleanup_loop fiber s l = some t := by
  induction l with
  | nil => intro s _ _; exact ⟨s, rfl⟩
  | cons e rest ih =>
    intro s hp hint
    have he : e.ptr = e.addr := hint e (List.mem_cons_self _ _)
    have hfree : ∃ s1, fbr_free_in_fiber s fiber (e.addr + 1) = some s1 ∧
        (s1.fibers fiber).pool = rest := by
      unfold fbr_free_in_fiber
      simp only [Nat.add_one_ne_zero, ↓reduceIte, hp, List.find?_cons, beq_self_eq_true,
        List.eraseP_cons, cond_true, he, ne_eq, not_true_eq_false]
      cases hd : e.destructor <;> simp [set_fiber]
    obtain ⟨s1, h1, h2⟩ := hfree
    obtain ⟨t, ht⟩ := ih s1 h2 (fun x hx => hint x (List.mem_cons_of_mem _ hx))
    exact ⟨t, by simp [fiber_cleanup_loop, h1, ht]⟩

/-- Function `fiber_cleanup`, when it returns: the fiber has its watchers
stopped and its arena empty, the destructors were called in arena order. -/
theorem fiber_cleanup_spec (s t : fbr_context) (fiber : Nat)
    (h : fiber_cleanup s fiber = some t) :
    t = { s with
      fibers := fun x =>
        if x = fiber then
          { s.fibers fiber with w_io := { (s.fibers fiber).w_io with active := false },
                                w_timer := { active := false }, pool := [] }
        else s.fibers x,
      dtor_log := s.dtor_log ++ dtor_calls fiber (s.fibers fiber).pool } := by
  unfold fiber_cleanup at h
  have := fiber_cleanup_loop_spec fiber _ _ t rfl h
  rw [this]
  simp [set_fiber]
  funext x
  split_ifs <;> simp_all

theorem fiber_cleanup_total (s : fbr_context) (fiber : Nat)
    (hint : ∀ e ∈ (s.fibers fiber).pool, e.ptr = e.addr) :
    ∃ t, fiber_cleanup s fiber = some t := by
  unfold fiber_cleanup
  apply fiber_cleanup_loop_total fiber _ _ rfl
  simpa [set_fiber] using hint

theorem reclaim_rel_refl (s : fbr_context) : reclaim_rel s s :=
  ⟨rfl, fun _ => Or.inl ⟨rfl, rfl⟩⟩

theorem reclaimed_fiber_flag (f : fbr_fiber) : (reclaimed_fiber f).reclaimed = 1 := rfl

theorem reclaim_rel_trans (s t u : fbr_context) (h1 : reclaim_rel s t) (h2 : reclaim_rel t u) :
    reclaim_rel s u := by
  obtain ⟨e1, g1⟩ := h1
  obtain ⟨e2, g2⟩ := h2
  refine ⟨?_, fun g => ?_⟩
  · rw [e2]
    rw [e1]
  · rcases g1 g with ⟨a1, a2⟩ | ⟨b0, b1, b2⟩
    · rcases g2 g with ⟨c1, c2⟩ | ⟨d0, d1, d2⟩
      · exact Or.inl ⟨c1.trans a1, c2.trans a2⟩
      · exact Or.inr ⟨a1 ▸ d0, by rw [d1, a1], by rw [d2, a2, a1]⟩
    · rcases g2 g with ⟨c1, c2⟩ | ⟨d0, d1, d2⟩
      · exact Or.inr ⟨b0, c1.trans b1, c2.trans b2⟩
      · rw [b1, reclaimed_fiber_flag] at d0
        exact absurd d0 (by decide)

theorem reclaim_children_loop_rel (reclaim : fbr_context → Nat → Option fbr_context)
    (hrec : ∀ s c t, reclaim s c = some t → reclaim_rel s t) (l : List Nat) :
    ∀ s t, reclaim_children_loop reclaim s l = some t → reclaim_rel s t := by
  induction l with
  | nil =>
    intro s t h
    simp only [reclaim_children_loop, Option.some.injEq] at h
    subst h
    exact reclaim_rel_refl s
  | cons c rest ih =>
    intro s t h
    simp only [reclaim_children_loop] at h
    cases hc : reclaim s c with
    | none => simp [hc] at h
    | some s1 =>
      simp only [hc] at h
      exact reclaim_rel_trans s s1 t (hrec s c s1 hc) (ih s1 t h)

/-- The last part of `fbr_reclaim` (cleanup, flag, pool) on a fiber that the
pass over the children left alone or reclaimed. -/
theorem reclaim_tail_rel (s1 s2 : fbr_context) (fiber : Nat)
    (hflag : (s1.fibers fiber).reclaimed = 0 ∨ s1.fibers fiber = reclaimed_fiber (s1.fibers fiber))
    (h : fiber_cleanup s1 fiber = some s2) :
    reclaim_rel s1
      { set_fiber s2 fiber { s2.fibers fiber with reclaimed := 1 } with
        reclaimed := fiber :: (set_fiber s2 fiber { s2.fibers fiber with reclaimed := 1 }).reclaimed } := by
  have h2 := fiber_cleanup_spec s1 s2 fiber h
  subst h2
  refine ⟨by simp [set_fiber], fun g => ?_⟩
  by_cases hg : g = fiber
  · subst hg
    rcases hflag with h0 | h1
    · right
      refine ⟨h0, by simp [set_fiber, reclaimed_fiber], ?_⟩
      simp [set_fiber, calls_of_append, calls_of_dtor_calls_self]
    · left
      have hp : (s1.fibers g).pool = [] := by rw [h1]; rfl
      refine ⟨?_, ?_⟩
      · simp only [set_fiber, ↓reduceIte]
        conv_rhs => rw [h1]
        simp [reclaimed_fiber]
      · simp [set_fiber, hp, dtor_calls]
  · left
    refine ⟨by simp [set_fiber, hg], ?_⟩
    simp [set_fiber, calls_of_append, calls_of_dtor_calls_other g fiber hg]

/-- Function `fbr_reclaim`, when it returns: every fiber is left as it was
or has been reclaimed, nothing else but the pool and the record of destructor
calls has changed. -/
theorem fbr_reclaim_rel (fuel : Nat) :
    ∀ s fiber t, fbr_reclaim fuel s fiber = some t → reclaim_rel s t := by
  induction fuel with
  | zero => intro s fiber t h; simp [fbr_reclaim] at h
  | succ n ih =>
    intro s fiber t h
    simp only [fbr_reclaim] at h
    split_ifs at h with hr
    · simp only [Option.some.injEq] at h
      subst h
      exact reclaim_rel_refl s
    · cases hc : reclaim_children_loop (fbr_reclaim n) s (s.fibers fiber).children with
      | none => simp [hc] at h
      | some s1 =>
        simp only [hc] at h
        have r1 := reclaim_children_loop_rel (fbr_reclaim n) ih _ s s1 hc
        cases hk : fiber_cleanup s1 fiber with
        | none => simp [hk] at h
        | some s2 =>
          simp only [hk, Option.some.injEq] at h
          subst h
          refine reclaim_rel_trans s s1 _ r1 (reclaim_tail_rel s1 s2 fiber ?_ hk)
          rcases r1.2 fiber with ⟨a1, _⟩ | ⟨_, b1, _⟩
          · left
            rw [a1]
            simpa using hr
          · right
            rw [b1]
            rfl

theorem reclaim_rel_children (s t : fbr_context) (h : reclaim_rel s t) (g : Nat) :
    (t.fibers g).children = (s.fibers g).children := by
  rcases h.2 g with ⟨a, _⟩ | ⟨_, b, _⟩
  · rw [a]
  · rw [b]; rfl

theorem reclaim_rel_stack (s t : fbr_context) (h : reclaim_rel s t) :
    t.stack = s.stack ∧ t.sp = s.sp ∧ t.running = s.running ∧ t.f_errno = s.f_errno := by
  obtain ⟨e, _⟩ := h
  rw [e]
  exact ⟨rfl, rfl, rfl, rfl⟩

theorem reclaim_children_loop_pool (reclaim : fbr_context → Nat → Option fbr_context)
    (P : Nat → Prop)
    (hrel : ∀ s c t, reclaim s c = some t → reclaim_rel s t)
    (hrec : ∀ s c t, reclaim s c = some t →
      (∀ g, P g → ∀ c ∈ (s.fibers g).children, P c) → P c →
      ∀ x ∈ t.reclaimed, x ∈ s.reclaimed ∨ P x) (l : List Nat) :
    ∀ s t, reclaim_children_loop reclaim s l = some t →
      (∀ g, P g → ∀ c ∈ (s.fibers g).children, P c) → (∀ c ∈ l, P c) →
      ∀ x ∈ t.reclaimed, x ∈ s.reclaimed ∨ P x := by
  induction l with
  | nil =>
    intro s t h _ _ x hx
    simp only [reclaim_children_loop, Option.some.injEq] at h
    subst h
    exact Or.inl hx
  | cons c rest ih =>
    intro s t h hcl hl x hx
    simp only [reclaim_children_loop] at h
    cases hc : reclaim s c with
    | none => simp [hc] at h
    | some s1 =>
      simp only [hc] at h
      have hcl1 : ∀ g, P g → ∀ c ∈ (s1.fibers g).children, P c := by
        intro g hg c1 hc1
        rw [reclaim_rel_children s s1 (hrel s c s1 hc)] at hc1
        exact hcl g hg c1 hc1
      rcases ih s1 t h hcl1 (fun y hy => hl y (List.mem_cons_of_mem _ hy)) x hx with h1 | h1
      · exact hrec s c s1 hc hcl (hl c (List.mem_cons_self _ _)) x h1
      · exact Or.inr h1

/-- Function `fbr_reclaim` adds to the pool of reclaimed fibers only the
fiber it is given and fibers reached from it through `children`. -/
theorem fbr_reclaim_pool (P : Nat → Prop) (fuel : Nat) :
    ∀ s fiber t, fbr_reclaim fuel s fiber = some t →
      (∀ g, P g → ∀ c ∈ (s.fibers g).children, P c) → P fiber →
      ∀ x ∈ t.reclaimed, x ∈ s.reclaimed ∨ P x := by
  induction fuel with
  | zero => intro s fiber t h; simp [fbr_reclaim] at h
  | succ n ih =>
    intro s fiber t h hcl hP x hx
    simp only [fbr_reclaim] at h
    split_ifs at h with hr
    · simp only [Option.some.injEq] at h
      subst h
      exact Or.inl hx
    · cases hc : reclaim_children_loop (fbr_reclaim n) s (s.fibers fiber).children with
      | none => simp [hc] at h
      | some s1 =>
        simp only [hc] at h
        cases hk : fiber_cleanup s1 fiber with
        | none => simp [hk] at h
        | some s2 =>
          simp only [hk, Option.some.injEq] at h
          subst h
          have h2 := fiber_cleanup_spec s1 s2 fiber hk
          subst h2
          simp only [set_fiber, List.mem_cons] at hx
          rcases hx with rfl | hx
          · exact Or.inr hP
          · exact reclaim_children_loop_pool (fbr_reclaim n) P (fbr_reclaim_rel n) ih _ s s1 hc
              hcl (fun c hc1 => hcl fiber hP c hc1) x hx

/-- What `fbr_vcall` does to the call stack: nothing when it fails, one
frame for the callee when it transfers control. -/
theorem fbr_vcall_stack (M : Int) (s : fbr_context) (callee : Nat) (leave_info argnum : Int)
    (ap : List fbr_fiber_arg) (p : Nat) (o : call_outcome) (t : fbr_context)
    (h : fbr_vcall M s callee leave_info argnum ap p = some (o, t)) :
    (t.reclaimed = s.reclaimed ∧ ∀ g, (t.fibers g).children = (s.fibers g).children) ∧
    ((o = call_outcome.returned (-1) ∧ t.stack = s.stack ∧ t.sp = s.sp ∧ t.running = s.running) ∨
     (o = call_outcome.transferred ∧ t.sp = s.sp + 1 ∧ t.running = callee ∧
       t.stack = fun x => if x = s.sp + 1 then callee else s.stack x)) := by
  unfold fbr_vcall at h
  simp only at h
  split_ifs at h with h1 h2 h3
  · simp only [Option.some.injEq, Prod.mk.injEq] at h
    obtain ⟨rfl, rfl⟩ := h
    exact ⟨⟨rfl, fun _ => rfl⟩, Or.inl ⟨rfl, rfl, rfl, rfl⟩⟩
  · simp only [Option.some.injEq, Prod.mk.injEq] at h
    obtain ⟨rfl, rfl⟩ := h
    exact ⟨⟨rfl, fun _ => rfl⟩, Or.inl ⟨rfl, rfl, rfl, rfl⟩⟩
  · simp only [Option.some.injEq, Prod.mk.injEq] at h
    obtain ⟨rfl, rfl⟩ := h
    obtain ⟨c1, c2, c3, c4, c5⟩ := coro_transfer_frame
      { s with sp := s.sp + 1, stack := fun x => if x = s.sp + 1 then callee else s.stack x }
      (s.stack s.sp) callee coro_context.in_vcall
    exact ⟨⟨c4, c5⟩, Or.inr ⟨rfl, c2, c3, c1⟩⟩
  · unfold fbr_alloc allocate_in_fiber at h
    simp only at h
    split_ifs at h with hp
    simp only [Option.some.injEq, Prod.mk.injEq] at h
    obtain ⟨rfl, rfl⟩ := h
    refine ⟨⟨?_, fun g => ?_⟩, Or.inr ⟨rfl, ?_, ?_, ?_⟩⟩
    · simp [set_fiber]
    · simp only [coro_transfer_children, set_fiber, CURRENT_FIBER]
      split_ifs <;> simp_all
    · simp [set_fiber]
    · simp
    · simp [set_fiber]

/-- What `fbr_create` leaves alone (the call stack), where its handle comes
from, and what it does to the pool and to the lists of children. -/
theorem fbr_create_spec (s : fbr_context) (name func p : Nat) :
    (fbr_create s name func p).2.stack = s.stack ∧
    (fbr_create s name func p).2.sp = s.sp ∧
    (fbr_create s name func p).2.running = s.running ∧
    ((fbr_create s name func p).1 = p ∨ (fbr_create s name func p).1 ∈ s.reclaimed) ∧
    (∀ x ∈ (fbr_create s name func p).2.reclaimed, x ∈ s.reclaimed) ∧
    (∀ g c, c ∈ ((fbr_create s name func p).2.fibers g).children →
      c = (fbr_create s name func p).1 ∨
        (g ≠ (fbr_create s name func p).1 ∧ c ∈ (s.fibers g).children)) := by
  cases hr : s.reclaimed with
  | nil =>
    refine ⟨?_, ?_, ?_, ?_, ?_, ?_⟩
    · simp [fbr_create, hr, set_fiber]
    · simp [fbr_create, hr, set_fiber]
    · simp [fbr_create, hr, set_fiber]
    · simp [fbr_create, hr, set_fiber]
    · simp [fbr_create, hr, set_fiber]
    · intro g c
      simp only [fbr_create, hr, set_fiber, CURRENT_FIBER]
      split_ifs <;> (try simp [zero_fiber]) <;> (try subst_vars) <;> tauto
  | cons f rest =>
    refine ⟨?_, ?_, ?_, ?_, ?_, ?_⟩
    · simp [fbr_create, hr, set_fiber]
    · simp [fbr_create, hr, set_fiber]
    · simp [fbr_create, hr, set_fiber]
    · simp [fbr_create, hr, set_fiber]
    · simp only [fbr_create, hr, set_fiber]
      intro x hx
      exact List.mem_cons_of_mem _ hx
    · intro g c
      simp only [fbr_create, hr, set_fiber, CURRENT_FIBER]
      split_ifs <;> (try simp) <;> (try subst_vars) <;> tauto

/-- The fiber records after `fbr_create`, when the record it takes is not the
running fiber. -/
theorem fbr_create_fibers (s : fbr_context) (name func p : Nat)
    (hx : (fbr_create s name func p).1 ≠ CURRENT_FIBER s) :
    ((fbr_create s name func p).1 = p ∧ s.reclaimed = [] ∧
        (fbr_create s name func p).2.reclaimed = [] ∧
        ((fbr_create s name func p).2.fibers p).w_io.active = false ∧
        ((fbr_create s name func p).2.fibers p).w_timer.active = false ∨
      s.reclaimed = (fbr_create s name func p).1 :: (fbr_create s name func p).2.reclaimed ∧
        ((fbr_create s name func p).2.fibers (fbr_create s name func p).1).w_io =
          (s.fibers (fbr_create s name func p).1).w_io ∧
        ((fbr_create s name func p).2.fibers (fbr_create s name func p).1).w_timer =
          (s.fibers (fbr_create s name func p).1).w_timer) ∧
    ((fbr_create s name func p).2.fibers (fbr_create s name func p).1).children = [] ∧
    ((fbr_create s name func p).2.fibers (fbr_create s name func p).1).reclaimed = 0 ∧
    ((fbr_create s name func p).2.fibers (fbr_create s name func p).1).w_io_expected = 0 ∧
    ((fbr_create s name func p).2.fibers (fbr_create s name func p).1).w_timer_expected = 0 ∧
    ((fbr_create s name func p).2.fibers (fbr_create s name func p).1).pool = [] ∧
    ∀ g, g ≠ (fbr_create s name func p).1 →
      (fbr_create s name func p).2.fibers g =
        if g = CURRENT_FIBER s then
          { s.fibers g with
            children := (fbr_create s name func p).1 :: (s.fibers g).children }
        else s.fibers g := by
  cases hr : s.reclaimed with
  | nil =>
    have e1 : (fbr_create s name func p).1 = p := by simp [fbr_create, hr]
    rw [e1] at hx ⊢
    have hx2 : ¬ s.stack s.sp = p := fun e => hx e.symm
    have hx3 : ¬ p = s.stack s.sp := hx
    refine ⟨Or.inl ⟨rfl, rfl, ?_, ?_, ?_⟩, ?_, ?_, ?_, ?_, ?_, ?_⟩
    · simp [fbr_create, hr, set_fiber]
    · simp [fbr_create, hr, set_fiber, CURRENT_FIBER, hx2, hx3, zero_fiber]
    · simp [fbr_create, hr, set_fiber, CURRENT_FIBER, hx2, hx3, zero_fiber]
    · simp [fbr_create, hr, set_fiber, CURRENT_FIBER, hx2, hx3, zero_fiber]
    · simp [fbr_create, hr, set_fiber, CURRENT_FIBER, hx2, hx3, zero_fiber]
    · simp [fbr_create, hr, set_fiber, CURRENT_FIBER, hx2, hx3, zero_fiber]
    · simp [fbr_create, hr, set_fiber, CURRENT_FIBER, hx2, hx3, zero_fiber]
    · simp [fbr_create, hr, set_fiber, CURRENT_FIBER, hx2, hx3, zero_fiber]
    · intro g hg
      simp only [fbr_create, hr, set_fiber, CURRENT_FIBER, hg, ↓reduceIte]
      split_ifs with h1
      · rw [h1]
      · rfl
  | cons f rest =>
    have e1 : (fbr_create s name func p).1 = f := by simp [fbr_create, hr]
    rw [e1] at hx ⊢
    have hx2 : ¬ s.stack s.sp = f := fun e => hx e.symm
    have hx3 : ¬ f = s.stack s.sp := hx
    refine ⟨Or.inr ⟨?_, ?_, ?_⟩, ?_, ?_, ?_, ?_, ?_, ?_⟩
    · simp [fbr_create, hr, set_fiber]
    · simp [fbr_create, hr, set_fiber, CURRENT_FIBER, hx2, hx3]
    · simp [fbr_create, hr, set_fiber, CURRENT_FIBER, hx2, hx3]
    · simp [fbr_create, hr, set_fiber, CURRENT_FIBER, hx2, hx3]
    · simp [fbr_create, hr, set_fiber, CURRENT_FIBER, hx2, hx3]
    · simp [fbr_create, hr, set_fiber, CURRENT_FIBER, hx2, hx3]
    · simp [fbr_create, hr, set_fiber, CURRENT_FIBER, hx2, hx3]
    · simp [fbr_create, hr, set_fiber, CURRENT_FIBER, hx2, hx3]
    · intro g hg
      simp only [fbr_create, hr, set_fiber, CURRENT_FIBER, hg, ↓reduceIte]
      split_ifs with h1
      · rw [h1]
      · rfl

theorem fbr_init_spec (mem : fbr_context) (p : Nat) (s : fbr_context)
    (h : fbr_init mem p = some s) :
    s.sp = 0 ∧ s.stack 0 = ROOT ∧ s.running = ROOT ∧ s.reclaimed = [] ∧
    (s.fibers ROOT).children = [] := by
  unfold fbr_init allocate_in_fiber at h
  simp only at h
  split_ifs at h with hp
  simp only [Option.some.injEq] at h
  subst h
  simp [set_fiber]

theorem fbr_yield_frame (s : fbr_context) :
    (fbr_yield s).stack = s.stack ∧ (fbr_yield s).sp = s.sp - 1 ∧
    (fbr_yield s).running = s.stack (s.sp - 1) ∧ (fbr_yield s).reclaimed = s.reclaimed ∧
    ∀ g, ((fbr_yield s).fibers g).children = (s.fibers g).children := by
  unfold fbr_yield
  simp

/-- A call with a handle as callee keeps the invariant of the reachable states. -/
theorem reachable_inv_call (M : Int) (s : fbr_context) (hs : List Nat) (callee : Nat)
    (leave_info argnum : Int) (ap : List fbr_fiber_arg) (p : Nat) (o : call_outcome)
    (t : fbr_context) (hc : callee ∈ hs)
    (hcall : fbr_vcall M s callee leave_info argnum ap p = some (o, t))
    (ih : stack_inv s ∧ ROOT ∉ hs ∧ (∀ x ∈ s.reclaimed, x ∈ hs) ∧
      (∀ g, (g = ROOT ∨ g ∈ hs) → ∀ c ∈ (s.fibers g).children, c ∈ hs) ∧
      (∀ i : Int, 0 ≤ i → i ≤ s.sp → s.stack i = ROOT ∨ s.stack i ∈ hs)) :
    stack_inv t ∧ ROOT ∉ hs ∧ (∀ x ∈ t.reclaimed, x ∈ hs) ∧
      (∀ g, (g = ROOT ∨ g ∈ hs) → ∀ c ∈ (t.fibers g).children, c ∈ hs) ∧
      (∀ i : Int, 0 ≤ i → i ≤ t.sp → t.stack i = ROOT ∨ t.stack i ∈ hs) := by
  obtain ⟨⟨i1, i2, i3, i4⟩, iroot, ipool, ichild, iframe⟩ := ih
  obtain ⟨⟨v1, v2⟩, v3⟩ := fbr_vcall_stack M s callee leave_info argnum ap p o t hcall
  have hpool : ∀ x ∈ t.reclaimed, x ∈ hs := by
    intro x hx
    rw [v1] at hx
    exact ipool x hx
  have hchild : ∀ g, (g = ROOT ∨ g ∈ hs) → ∀ c ∈ (t.fibers g).children, c ∈ hs := by
    intro g hg c hc1
    rw [v2] at hc1
    exact ichild g hg c hc1
  have hne : callee ≠ ROOT := fun h => iroot (h ▸ hc)
  rcases v3 with ⟨_, w1, w2, w3⟩ | ⟨_, w1, w2, w3⟩
  · refine ⟨⟨by rw [w2]; exact i1, by rw [w1]; exact i2, ?_, by rw [w3, w1, w2]; exact i4⟩,
      iroot, hpool, hchild, ?_⟩
    · intro i hi1 hi2
      rw [w1]
      rw [w2] at hi2
      exact i3 i hi1 hi2
    · intro i hi1 hi2
      rw [w1]
      rw [w2] at hi2
      exact iframe i hi1 hi2
  · refine ⟨⟨by rw [w1]; omega, ?_, ?_, ?_⟩, iroot, hpool, hchild, ?_⟩
    · rw [w3]
      simp only
      rw [if_neg (by omega)]
      exact i2
    · intro i hi1 hi2
      rw [w3]
      simp only
      rw [w1] at hi2
      split_ifs with hi
      · exact hne
      · exact i3 i hi1 (by omega)
    · rw [w2, w3, w1]
      simp
    · intro i hi1 hi2
      rw [w3]
      simp only
      rw [w1] at hi2
      split_ifs with hi
      · exact Or.inr hc
      · exact iframe i hi1 (by omega)

/-- The invariant of the reachable states behind the call-stack invariant:
handles are not the root fiber, and the pool, the lists of children of the
fibers in use and the frames hold handles (or, for a frame, the root). -/
theorem reachable_inv (M C : Int) (s : fbr_context) (hs : List Nat)
    (h : Reachable M C s hs) :
    stack_inv s ∧ ROOT ∉ hs ∧ (∀ x ∈ s.reclaimed, x ∈ hs) ∧
    (∀ g, (g = ROOT ∨ g ∈ hs) → ∀ c ∈ (s.fibers g).children, c ∈ hs) ∧
    (∀ i : Int, 0 ≤ i → i ≤ s.sp → s.stack i = ROOT ∨ s.stack i ∈ hs) := by
  induction h with
  | init mem p s _ h =>
    obtain ⟨h1, h2, h3, h4, h5⟩ := fbr_init_spec mem p s h
    refine ⟨⟨by omega, h2, ?_, by rw [h3, h1, h2]⟩, by simp, by simp [h4], ?_, ?_⟩
    · intro i hi1 hi2
      omega
    · intro g hg c hc
      simp only [List.not_mem_nil, or_false] at hg
      subst hg
      simp [h5] at hc
    · intro i hi1 hi2
      have : i = 0 := by omega
      subst this
      exact Or.inl h2
  | create s hs name func p _ hp ih =>
    obtain ⟨⟨i1, i2, i3, i4⟩, iroot, ipool, ichild, iframe⟩ := ih
    obtain ⟨c1, c2, c3, c4, c5, c6⟩ := fbr_create_spec s name func p
    have hne : (fbr_create s name func p).1 ≠ ROOT := by
      rcases c4 with h | h
      · rw [h]; exact hp
      · intro heq
        rw [heq] at h
        exact iroot (ipool _ h)
    refine ⟨⟨by rw [c2]; exact i1, by rw [c1]; exact i2, ?_, by rw [c3, c1, c2]; exact i4⟩,
      ?_, ?_, ?_, ?_⟩
    · intro i hi1 hi2
      rw [c1]
      rw [c2] at hi2
      exact i3 i hi1 hi2
    · simp only [List.mem_cons, not_or]
      exact ⟨fun h => hne h.symm, iroot⟩
    · intro x hx
      exact List.mem_cons_of_mem _ (ipool x (c5 x hx))
    · intro g hg c hc
      rcases c6 g c hc with h | ⟨hg1, h⟩
      · rw [h]; exact List.mem_cons_self _ _
      · refine List.mem_cons_of_mem _ (ichild g ?_ c h)
        rcases hg with hg | hg
        · exact Or.inl hg
        · rcases List.mem_cons.mp hg with hg | hg
          · exact absurd hg hg1
          · exact Or.inr hg
    · intro i hi1 hi2
      rw [c1]
      rw [c2] at hi2
      rcases iframe i hi1 hi2 with h | h
      · exact Or.inl h
      · exact Or.inr (List.mem_cons_of_mem _ h)
  | reclaim s hs fuel fiber s1 _ hf hrec ih =>
    obtain ⟨⟨i1, i2, i3, i4⟩, iroot, ipool, ichild, iframe⟩ := ih
    have hrel := fbr_reclaim_rel fuel s fiber s1 hrec
    obtain ⟨r1, r2, r3, _⟩ := reclaim_rel_stack s s1 hrel
    refine ⟨⟨by rw [r2]; exact i1, by rw [r1]; exact i2, ?_, by rw [r3, r1, r2]; exact i4⟩,
      iroot, ?_, ?_, ?_⟩
    · intro i hi1 hi2
      rw [r1]
      rw [r2] at hi2
      exact i3 i hi1 hi2
    · intro x hx
      rcases fbr_reclaim_pool (fun y => y ∈ hs) fuel s fiber s1 hrec
        (fun g hg c hc => ichild g (Or.inr hg) c hc) hf x hx with h | h
      · exact ipool x h
      · exact h
    · intro g hg c hc
      rw [reclaim_rel_children s s1 hrel] at hc
      exact ichild g hg c hc
    · intro i hi1 hi2
      rw [r1]
      rw [r2] at hi2
      exact iframe i hi1 hi2
  | call s hs callee argnum ap p o s1 _ hc hcall _ ih =>
    exact reachable_inv_call M s hs callee 1 argnum ap p o s1 hc hcall ih
  | call_noinfo s hs callee argnum ap o s1 _ hc hcall _ ih =>
    exact reachable_inv_call M s hs callee 0 argnum ap 0 o s1 hc hcall ih
  | yield s hs _ hcur ih =>
    obtain ⟨⟨i1, i2, i3, i4⟩, iroot, ipool, ichild, iframe⟩ := ih
    obtain ⟨y1, y2, y3, y4, y5⟩ := fbr_yield_frame s
    have hsp : 0 < s.sp := by
      rcases lt_or_eq_of_le i1 with h | h
      · exact h
      · exfalso
        apply hcur
        unfold CURRENT_FIBER
        rw [← h]
        exact i2
    refine ⟨⟨by rw [y2]; omega, by rw [y1]; exact i2, ?_, by rw [y3, y1, y2]⟩,
      iroot, ?_, ?_, ?_⟩
    · intro i hi1 hi2
      rw [y1]
      rw [y2] at hi2
      exact i3 i hi1 (by omega)
    · intro x hx
      rw [y4] at hx
      exact ipool x hx
    · intro g hg c hc
      rw [y5] at hc
      exact ichild g hg c hc
    · intro i hi1 hi2
      rw [y1]
      rw [y2] at hi2
      exact iframe i hi1 (by omega)

/-! ## The call stack -/

/-- The frames of the reachable states lie in the frame array. -/
theorem reachable_depth (M C : Int) (s : fbr_context) (hs : List Nat)
    (h : Reachable M C s hs) : s.sp < C := by
  induction h with
  | init mem p s hcap h =>
    rw [(fbr_init_spec mem p s h).1]
    exact hcap
  | create s hs name func p _ _ ih =>
    rw [(fbr_create_spec s name func p).2.1]
    exact ih
  | reclaim s hs fuel fiber s1 _ _ hrec ih =>
    rw [(reclaim_rel_stack s s1 (fbr_reclaim_rel fuel s fiber s1 hrec)).2.1]
    exact ih
  | call s hs callee argnum ap p o s1 _ _ hcall hroom ih =>
    rcases (fbr_vcall_stack M s callee 1 argnum ap p o s1 hcall).2 with
      ⟨_, _, w, _⟩ | ⟨ho, w, _, _⟩
    · rw [w]; exact ih
    · rw [w]; exact hroom ho
  | call_noinfo s hs callee argnum ap o s1 _ _ hcall hroom ih =>
    rcases (fbr_vcall_stack M s callee 0 argnum ap 0 o s1 hcall).2 with
      ⟨_, _, w, _⟩ | ⟨ho, w, _, _⟩
    · rw [w]; exact ih
    · rw [w]; exact hroom ho
  | yield s hs _ _ ih =>
    rw [(fbr_yield_frame s).2.1]
    omega

/-- Function `fbr_vcall` makes no test of the depth: a call of a fiber that
is not reclaimed, with fewer than `FBR_MAX_ARG_NUM` arguments, transfers
control and leaves `sp` one higher, in every state. -/
theorem fbr_call_noinfo_pushes (M : Int) (s : fbr_context) (callee : Nat) (argnum : Int)
    (ap : List fbr_fiber_arg) (harg : argnum < M) (hlive : (s.fibers callee).reclaimed ≠ 1) :
    ∃ t, fbr_call_noinfo M s callee argnum ap = some (call_outcome.transferred, t) ∧
      t.sp = s.sp + 1 := by
  have hn : ¬ argnum ≥ M := by omega
  simp only [fbr_call_noinfo, fbr_vcall, hn, hlive, ↓reduceIte]
  exact ⟨_, rfl, by simp⟩

/-- C1 (within the frame array). Call-stack invariant: in every state reached
from `fbr_init` by `fbr_create`, `fbr_reclaim`, `fbr_call`, `fbr_call_noinfo`
and `fbr_yield`, where `fbr_yield` is not run while the root fiber is on top,
callees are handles returned by `fbr_create`, and every call that transfers
control is made with `sp + 1` below the number of frames `call_stack_size`:
the call stack is not empty (`0 ≤ sp`), the bottom frame holds the root
fiber, no frame above the bottom up to `sp` holds it, the fiber in control is
the one of frame `stack[sp]`, and `sp` is inside the frame array. The bound on
the calls is not one the code keeps: in each of these states a call of a live
fiber with an admissible count of arguments transfers control and leaves `sp`
one higher, also when `sp + 1 = call_stack_size`. -/
theorem call_stack_invariant (FBR_MAX_ARG_NUM call_stack_size : Int) (s : fbr_context)
    (hs : List Nat) (h : Reachable FBR_MAX_ARG_NUM call_stack_size s hs) :
    (stack_inv s ∧ s.sp < call_stack_size) ∧
    ∀ (callee : Nat) (argnum : Int) (ap : List fbr_fiber_arg),
      argnum < FBR_MAX_ARG_NUM → (s.fibers callee).reclaimed ≠ 1 →
      ∃ t, fbr_call_noinfo FBR_MAX_ARG_NUM s callee argnum ap =
          some (call_outcome.transferred, t) ∧ t.sp = s.sp + 1 :=
  ⟨⟨(reachable_inv FBR_MAX_ARG_NUM call_stack_size s hs h).1,
    reachable_depth FBR_MAX_ARG_NUM call_stack_size s hs h⟩,
   fun callee argnum ap harg hlive =>
     fbr_call_noinfo_pushes FBR_MAX_ARG_NUM s callee argnum ap harg hlive⟩

/-- A call with `fbr_call_noinfo` keeps every `reclaimed` flag or sets it to 0. -/
theorem fbr_call_noinfo_flags (M : Int) (s : fbr_context) (callee : Nat) (argnum : Int)
    (ap : List fbr_fiber_arg) (o : call_outcome) (t : fbr_context)
    (h : fbr_call_noinfo M s callee argnum ap = some (o, t)) (g : Nat) :
    (t.fibers g).reclaimed = (s.fibers g).reclaimed ∨ (t.fibers g).reclaimed = 0 := by
  unfold fbr_call_noinfo fbr_vcall at h
  simp only [↓reduceIte] at h
  split_ifs at h with h1 h2
  · simp only [Option.some.injEq, Prod.mk.injEq] at h
    obtain ⟨_, rfl⟩ := h
    exact Or.inl rfl
  · simp only [Option.some.injEq, Prod.mk.injEq] at h
    obtain ⟨_, rfl⟩ := h
    exact Or.inl rfl
  · simp only [Option.some.injEq, Prod.mk.injEq] at h
    obtain ⟨_, rfl⟩ := h
    exact (coro_transfer_fibers _ _ _ _ g).2.2.2

/-- The fibers 5 and 6 calling each other in turn stay among the reachable
states as long as the frames they write lie in the frame array, and every
call adds a frame. -/
theorem ping_pong_reachable (C : Int) (n : Nat) :
    ∀ s, Reachable 10 C s [6, 5] → (s.fibers 5).reclaimed ≠ 1 → (s.fibers 6).reclaimed ≠ 1 →
      s.sp + n < C →
      Reachable 10 C (ping_pong n s) [6, 5] ∧ (ping_pong n s).sp = s.sp + n ∧
      ((ping_pong n s).fibers 5).reclaimed ≠ 1 ∧ ((ping_pong n s).fibers 6).reclaimed ≠ 1 := by
  induction n with
  | zero =>
    intro s h h5 h6 _
    exact ⟨h, by simp [ping_pong], h5, h6⟩
  | succ n ih =>
    intro s h h5 h6 hroom
    have hc : (s.fibers (if CURRENT_FIBER s = 5 then 6 else 5)).reclaimed ≠ 1 := by
      split_ifs
      · exact h6
      · exact h5
    obtain ⟨t, ht, hsp⟩ := fbr_call_noinfo_pushes 10 s (if CURRENT_FIBER s = 5 then 6 else 5)
      0 [] (by decide) hc
    have hmem : (if CURRENT_FIBER s = 5 then 6 else 5) ∈ [6, 5] := by
      split_ifs <;> simp
    have hr : Reachable 10 C t [6, 5] :=
      Reachable.call_noinfo s [6, 5] _ 0 [] call_outcome.transferred t h hmem ht
        (fun _ => by push_cast at hroom; omega)
    have hfl : ∀ g, (s.fibers g).reclaimed ≠ 1 → (t.fibers g).reclaimed ≠ 1 := by
      intro g hg
      rcases fbr_call_noinfo_flags 10 s _ 0 [] _ t ht g with e | e
      · rw [e]; exact hg
      · rw [e]; decide
    have hstep : ping_pong (n + 1) s = ping_pong n t := by
      simp only [ping_pong, ht, Option.getD_some]
    rw [hstep]
    obtain ⟨a, b, c, d⟩ := ih t hr (hfl 5 h5) (hfl 6 h6) (by push_cast at hroom; omega)
    refine ⟨a, ?_, c, d⟩
    rw [b, hsp]
    push_cast
    omega

theorem demo_nested_reachable : Reachable 10 16 demo_nested [6, 5] :=
  Reachable.call_noinfo demo_two [6, 5] 5 0 [] call_outcome.transferred demo_nested
    (Reachable.create demo_created [5] 0 0 6
      (Reachable.create demo_init [] 0 0 5
        (Reachable.init mem0 1 demo_init (by decide) rfl) (by decide)) (by decide))
    (by simp) rfl (fun _ => by decide)

theorem demo_deep_reachable :
    Reachable 10 16 demo_deep [6, 5] ∧ demo_deep.sp = 15 ∧
    (demo_deep.fibers 6).reclaimed ≠ 1 := by
  have h := ping_pong_reachable 16 14 demo_nested demo_nested_reachable (by decide) (by decide)
    (by decide)
  exact ⟨h.1, h.2.1.trans (by decide), h.2.2.2⟩

/-- Witness of C1: in a frame array of 16 frames the root creates the fibers
5 and 6 and calls fiber 5, and the two fibers call each other 14 times: the
running fiber is in frame 15, the last of the array, and the invariant holds.
The next call is not refused and leaves `sp = 16`, behind the array. -/
theorem call_stack_invariant_witness :
    Reachable 10 16 demo_deep [6, 5] ∧ demo_deep.sp = 15 ∧
    (stack_inv demo_deep ∧ demo_deep.sp < 16) ∧
    ∃ t, fbr_call_noinfo 10 demo_deep 6 0 [] = some (call_outcome.transferred, t) ∧
      t.sp = demo_deep.sp + 1 :=
  ⟨demo_deep_reachable.1, demo_deep_reachable.2.1,
   (call_stack_invariant 10 16 demo_deep [6, 5] demo_deep_reachable.1).1,
   (call_stack_invariant 10 16 demo_deep [6, 5] demo_deep_reachable.1).2 6 0 []
     (by decide) demo_deep_reachable.2.2⟩

/-! ## Failing calls -/

/-- C2 (evaluation of the code where the claim fails). A call that passes
exactly `FBR_MAX_ARG_NUM` arguments is refused: `fbr_vcall` returns `-1` with
`f_errno = FBR_EINVAL` and changes nothing else, whatever the callee. -/
theorem vcall_refuses_max_arg_num (FBR_MAX_ARG_NUM : Int) (s : fbr_context) (callee : Nat)
    (leave_info : Int) (ap : List fbr_fiber_arg) (p : Nat) :
    fbr_vcall FBR_MAX_ARG_NUM s callee leave_info FBR_MAX_ARG_NUM ap p =
      some (call_outcome.returned (-1), { s with f_errno := fbr_error_code.FBR_EINVAL }) := by
  simp [fbr_vcall]

/-- When `fbr_reclaim` returns for a fiber whose flag was 0 or 1, the flag is 1. -/
theorem fbr_reclaim_flag (fuel : Nat) (s t : fbr_context) (fiber : Nat)
    (hflag : (s.fibers fiber).reclaimed = 0 ∨ (s.fibers fiber).reclaimed = 1)
    (h : fbr_reclaim fuel s fiber = some t) : (t.fibers fiber).reclaimed = 1 := by
  cases fuel with
  | zero => simp [fbr_reclaim] at h
  | succ n =>
    simp only [fbr_reclaim] at h
    split_ifs at h with hr
    · simp only [Option.some.injEq] at h
      subst h
      rcases hflag with h0 | h1
      · exact absurd h0 hr
      · exact h1
    · cases hc : reclaim_children_loop (fbr_reclaim n) s (s.fibers fiber).children with
      | none => simp [hc] at h
      | some s1 =>
        simp only [hc] at h
        cases hk : fiber_cleanup s1 fiber with
        | none => simp [hk] at h
        | some s2 =>
          simp only [hk, Option.some.injEq] at h
          subst h
          simp [set_fiber]

theorem find_entry_of (c : call_args) (rest : List fbr_mem_pool) (pre : List fbr_mem_pool)
    (h : ∀ e ∈ pre, e.addr ≠ c.p) :
    (pre ++ entry_of c :: rest).find? (fun e => e.addr + 1 == c.p + 1) = some (entry_of c) ∧
    (pre ++ entry_of c :: rest).eraseP (fun e => e.addr + 1 == c.p + 1) = pre ++ rest := by
  induction pre with
  | nil => simp [entry_of]
  | cons e pre ih =>
    have he : e.addr ≠ c.p := h e (List.mem_cons_self _ _)
    have ih1 := ih (fun x hx => h x (List.mem_cons_of_mem _ hx))
    have hb : (e.addr + 1 == c.p + 1) = false := by simpa using he
    rw [List.cons_append, List.find?_cons, List.eraseP_cons, hb]
    refine ⟨ih1.1, ?_⟩
    simp only [cond_false]
    rw [ih1.2]
    rfl

/-- Freeing the call-info record of the call `c` in the arena that holds its
entry removes that entry and does nothing else. -/
theorem fbr_free_entry_of (s : fbr_context) (c : call_args) (pre rest : List fbr_mem_pool)
    (hpool : (s.fibers (CURRENT_FIBER s)).pool = pre ++ entry_of c :: rest)
    (h : ∀ e ∈ pre, e.addr ≠ c.p) :
    fbr_free s (c.p + 1) =
      some (set_fiber s (CURRENT_FIBER s)
        { s.fibers (CURRENT_FIBER s) with pool := pre ++ rest }) := by
  unfold fbr_free fbr_free_in_fiber
  obtain ⟨h1, h2⟩ := find_entry_of c rest pre h
  simp only [Nat.add_one_ne_zero, ↓reduceIte, hpool, h1, h2]
  simp [entry_of]

/-- One successful `fbr_call`: a frame for the callee, one record at the tail
of its call list, held by one new entry at the tail of its arena; the other
fibers keep their call lists and arenas. -/
theorem fbr_call_step (M : Int) (s : fbr_context) (f : Nat) (c : call_args)
    (harg : c.argnum < M) (hlive : (s.fibers f).reclaimed ≠ 1) (hp : c.p ≠ 0) :
    ∃ t, fbr_call M s f c.argnum c.ap c.p = some (call_outcome.transferred, t) ∧
      t.sp = s.sp + 1 ∧ (t.stack = fun x => if x = s.sp + 1 then f else s.stack x) ∧
      (t.fibers f).call_list = (s.fibers f).call_list ++ [record_of (CURRENT_FIBER s) c] ∧
      (t.fibers f).call_list_size = (s.fibers f).call_list_size + 1 ∧
      (t.fibers f).pool = (s.fibers f).pool ++ [entry_of c] ∧
      (t.fibers f).reclaimed ≠ 1 ∧
      ∀ g, g ≠ f → (t.fibers g).call_list = (s.fibers g).call_list ∧
        (t.fibers g).call_list_size = (s.fibers g).call_list_size ∧
        (t.fibers g).pool = (s.fibers g).pool := by
  have hn : ¬ c.argnum ≥ M := by omega
  simp only [fbr_call, fbr_vcall, hn, hlive, ↓reduceIte, one_ne_zero, fbr_alloc,
    allocate_in_fiber, hp, CURRENT_FIBER]
  refine ⟨_, rfl, ?_, ?_, ?_, ?_, ?_, ?_, ?_⟩
  · simp [set_fiber]
  · simp [set_fiber]
  · rw [(coro_transfer_fibers _ _ _ _ f).1]
    simp [set_fiber, record_of, CURRENT_FIBER]
  · rw [(coro_transfer_fibers _ _ _ _ f).2.1]
    simp [set_fiber]
  · rw [(coro_transfer_fibers _ _ _ _ f).2.2.1]
    simp [set_fiber, entry_of]
  · rcases (coro_transfer_fibers _ _ _ _ f).2.2.2 with h | h
    · rw [h]
      simpa [set_fiber] using hlive
    · rw [h]
      decide
  · intro g hg
    rw [(coro_transfer_fibers _ _ _ _ g).1, (coro_transfer_fibers _ _ _ _ g).2.1,
      (coro_transfer_fibers _ _ _ _ g).2.2.1]
    simp [set_fiber, hg]

/-- Function `fbr_yield` leaves call lists and arenas alone. -/
theorem fbr_yield_fibers (s : fbr_context) (g : Nat) :
    ((fbr_yield s).fibers g).call_list = (s.fibers g).call_list ∧
    ((fbr_yield s).fibers g).call_list_size = (s.fibers g).call_list_size ∧
    ((fbr_yield s).fibers g).pool = (s.fibers g).pool ∧
    (((fbr_yield s).fibers g).reclaimed = (s.fibers g).reclaimed ∨
      ((fbr_yield s).fibers g).reclaimed = 0) := by
  unfold fbr_yield
  exact coro_transfer_fibers _ _ _ _ g

/-- The calls of `call_rounds` all succeed and queue their records in order. -/
theorem call_rounds_spec (M : Int) (f : Nat) (calls : List call_args) :
    ∀ (s : fbr_context), (s.fibers f).reclaimed ≠ 1 → f ≠ CURRENT_FIBER s →
      (∀ c ∈ calls, c.argnum < M ∧ c.p ≠ 0) →
      ∃ t, call_rounds M f s calls = some t ∧
        t.sp = s.sp ∧ CURRENT_FIBER t = CURRENT_FIBER s ∧ (t.fibers f).reclaimed ≠ 1 ∧
        (t.fibers f).call_list =
          (s.fibers f).call_list ++ calls.map (record_of (CURRENT_FIBER s)) ∧
        (t.fibers f).call_list_size = (s.fibers f).call_list_size + calls.length ∧
        (t.fibers f).pool = (s.fibers f).pool ++ calls.map entry_of ∧
        ∀ g, g ≠ f → (t.fibers g).call_list = (s.fibers g).call_list ∧
          (t.fibers g).call_list_size = (s.fibers g).call_list_size ∧
          (t.fibers g).pool = (s.fibers g).pool := by
  induction calls with
  | nil =>
    intro s hlive _ _
    exact ⟨s, rfl, rfl, rfl, hlive, by simp, by simp, by simp, fun g _ => ⟨rfl, rfl, rfl⟩⟩
  | cons c rest ih =>
    intro s hlive hne hargs
    obtain ⟨hc1, hc2⟩ := hargs c (List.mem_cons_self _ _)
    obtain ⟨t1, e1, a1, a2, a3, a4, a5, a6, a7⟩ := fbr_call_step M s f c hc1 hlive hc2
    obtain ⟨y1, y2, _, _, _⟩ := fbr_yield_frame t1
    have hcur : CURRENT_FIBER (fbr_yield t1) = CURRENT_FIBER s := by
      unfold CURRENT_FIBER
      rw [y1, y2, a1, a2]
      simp
    have hlive1 : ((fbr_yield t1).fibers f).reclaimed ≠ 1 := by
      rcases (fbr_yield_fibers t1 f).2.2.2 with h | h
      · rw [h]; exact a6
      · rw [h]; decide
    obtain ⟨t, e2, b1, b2, b3, b4, b5, b6, b7⟩ := ih (fbr_yield t1) hlive1 (by rw [hcur]; exact hne)
      (fun x hx => hargs x (List.mem_cons_of_mem _ hx))
    refine ⟨t, by simp only [call_rounds, e1, e2], ?_, ?_, b3, ?_, ?_, ?_, ?_⟩
    · rw [b1, y2, a1]
      ring
    · rw [b2, hcur]
    · rw [b4, (fbr_yield_fibers t1 f).1, a3, hcur]
      simp
    · rw [b5, (fbr_yield_fibers t1 f).2.1, a4]
      simp only [List.length_cons]
      omega
    · rw [b6, (fbr_yield_fibers t1 f).2.2.1, a5]
      simp
    · intro g hg
      obtain ⟨d1, d2, d3⟩ := b7 g hg
      obtain ⟨d4, d5, d6⟩ := a7 g hg
      rw [d1, d2, d3, (fbr_yield_fibers t1 g).1, (fbr_yield_fibers t1 g).2.1,
        (fbr_yield_fibers t1 g).2.2.1, d4, d5, d6]
      exact ⟨rfl, rfl, rfl⟩

theorem set_fiber_twice (s : fbr_context) (a : Nat) (f1 f2 : fbr_fiber) :
    set_fiber (set_fiber s a f1) a f2 = set_fiber s a f2 := by
  unfold set_fiber
  simp only [fbr_context.mk.injEq, and_self, and_true, true_and]
  funext x
  split_ifs <;> rfl

/-- Function `fbr_next_call_info`, run as many times as the call list is
long, hands out the records in the order of the list, returns 1 each time and
frees each record when the next one replaces it in the slot. -/
theorem next_call_infos_spec (f caller : Nat) (calls : List call_args) :
    ∀ (u : fbr_context) (pre : List fbr_mem_pool) (held : Option call_args),
      CURRENT_FIBER u = f →
      (u.fibers f).call_list = calls.map (record_of caller) →
      (u.fibers f).pool = pre ++ (held.toList ++ calls).map entry_of →
      (∀ e ∈ pre, ∀ c ∈ held.toList ++ calls, e.addr ≠ c.p) →
      ∃ v, next_call_infos calls.length u (held.map (record_of caller)) =
          some (calls.map (fun c => ((1 : Int), some (record_of caller c))),
            ((held.toList ++ calls).getLast?).map (record_of caller), v) ∧
        CURRENT_FIBER v = f ∧ (v.fibers f).call_list = [] ∧
        (v.fibers f).call_list_size = (u.fibers f).call_list_size - calls.length := by
  induction calls with
  | nil =>
    intro u pre held hcur hlist _ _
    refine ⟨u, ?_, hcur, by simpa using hlist, by simp⟩
    cases held <;> simp [next_call_infos]
  | cons c rest ih =>
    intro u pre held hcur hlist hpool hfresh
    cases held with
    | none =>
      have hstep : fbr_next_call_info u (some none) =
          some (1, some (record_of caller c),
            set_fiber u f { u.fibers f with call_list := rest.map (record_of caller),
                                            call_list_size := (u.fibers f).call_list_size - 1 }) := by
        unfold fbr_next_call_info
        simp only [hcur, hlist, List.map_cons]
      obtain ⟨v, e, h1, h2, h3⟩ := ih
        (set_fiber u f { u.fibers f with call_list := rest.map (record_of caller),
                                         call_list_size := (u.fibers f).call_list_size - 1 })
        pre (some c) (by simpa [CURRENT_FIBER, set_fiber] using hcur) (by simp [set_fiber])
        (by simpa [set_fiber] using hpool) (by simpa using hfresh)
      refine ⟨v, ?_, h1, h2, ?_⟩
      · simp only [List.length_cons, next_call_infos, Option.map_none', hstep]
        simp only [Option.map_some'] at e
        rw [e]
        simp
      · rw [h3]
        simp only [set_fiber, ↓reduceIte, List.length_cons]
        omega
    | some h =>
      have hfree : fbr_free
          (set_fiber u f { u.fibers f with call_list := rest.map (record_of caller),
                                           call_list_size := (u.fibers f).call_list_size - 1 })
          (h.p + 1) =
          some (set_fiber u f { u.fibers f with
            call_list := rest.map (record_of caller),
            call_list_size := (u.fibers f).call_list_size - 1,
            pool := pre ++ (c :: rest).map entry_of }) := by
        have hc1 : CURRENT_FIBER
            (set_fiber u f { u.fibers f with call_list := rest.map (record_of caller),
                                             call_list_size := (u.fibers f).call_list_size - 1 })
            = f := by simpa [CURRENT_FIBER, set_fiber] using hcur
        rw [fbr_free_entry_of _ h pre ((c :: rest).map entry_of)
          (by rw [hc1]; simpa [set_fiber] using hpool)
          (fun e he => hfresh e he h (by simp))]
        rw [hc1, set_fiber_twice]
        simp [set_fiber]
      have hstep : fbr_next_call_info u (some (some (record_of caller h))) =
          some (1, some (record_of caller c),
            set_fiber u f { u.fibers f with
              call_list := rest.map (record_of caller),
              call_list_size := (u.fibers f).call_list_size - 1,
              pool := pre ++ (c :: rest).map entry_of }) := by
        unfold fbr_next_call_info
        simp only [hcur, hlist, List.map_cons]
        have : (record_of caller h).addr = h.p + 1 := rfl
        rw [this, hfree]
        rfl
      obtain ⟨v, e, h1, h2, h3⟩ := ih
        (set_fiber u f { u.fibers f with
              call_list := rest.map (record_of caller),
              call_list_size := (u.fibers f).call_list_size - 1,
              pool := pre ++ (c :: rest).map entry_of })
        pre (some c) (by simpa [CURRENT_FIBER, set_fiber] using hcur) (by simp [set_fiber])
        (by simp [set_fiber])
        (fun e he x hx => hfresh e he x (by
          simp only [Option.toList_some, List.singleton_append, List.mem_cons] at hx ⊢
          exact Or.inr hx))
      refine ⟨v, ?_, h1, h2, ?_⟩
      · simp only [List.length_cons, next_call_infos, Option.map_some', hstep]
        simp only [Option.map_some'] at e
        rw [e]
        simp
      · rw [h3]
        simp only [set_fiber, ↓reduceIte, List.length_cons]
        omega

/-- Function `fbr_call_noinfo` changes no call list. -/
theorem fbr_call_noinfo_call_lists (M : Int) (s : fbr_context) (callee : Nat) (argnum : Int)
    (ap : List fbr_fiber_arg) (o : call_outcome) (t : fbr_context)
    (h : fbr_call_noinfo M s callee argnum ap = some (o, t)) (g : Nat) :
    (t.fibers g).call_list = (s.fibers g).call_list ∧
    (t.fibers g).call_list_size = (s.fibers g).call_list_size := by
  unfold fbr_call_noinfo fbr_vcall at h
  simp only [↓reduceIte] at h
  split_ifs at h with h1 h2
  · simp only [Option.some.injEq, Prod.mk.injEq] at h
    obtain ⟨_, rfl⟩ := h
    exact ⟨rfl, rfl⟩
  · simp only [Option.some.injEq, Prod.mk.injEq] at h
    obtain ⟨_, rfl⟩ := h
    exact ⟨rfl, rfl⟩
  · simp only [Option.some.injEq, Prod.mk.injEq] at h
    obtain ⟨_, rfl⟩ := h
    rw [(coro_transfer_fibers _ _ _ _ g).1, (coro_transfer_fibers _ _ _ _ g).2.1]
    exact ⟨rfl, rfl⟩

/-- C4. Call-info delivery is FIFO and exactly once. Let `f` be a live fiber
with an empty call list, other than the running fiber, and let the running
fiber make the calls `calls` to `f` with `fbr_call`, each with fewer than
`FBR_MAX_ARG_NUM` arguments and a record that `malloc` places at a fresh
address, `f` yielding back each time (`call_rounds`). Then all calls succeed;
the call list of `f` holds one record per call, in call order, with the
caller, `argc` and the `argc` first arguments as passed; `call_list_size` is
the length of the list; the records lie in the arena of `f`, appended at its
tail in call order, and no other fiber has its arena or call list changed.
When `f` is resumed (here with `fbr_call_noinfo`, which changes no call list
in any state), as many calls of `fbr_next_call_info` through one slot as
there were calls return 1 each and leave the records in the slot in call
order, and the next call returns 0 and leaves the slot and the state as they
are. -/
theorem call_info_fifo (FBR_MAX_ARG_NUM : Int) (s : fbr_context) (f : Nat)
    (calls : List call_args) (hM : 0 < FBR_MAX_ARG_NUM)
    (hlive : (s.fibers f).reclaimed ≠ 1) (hne : f ≠ CURRENT_FIBER s)
    (hempty : (s.fibers f).call_list = [] ∧ (s.fibers f).call_list_size = 0)
    (hargs : ∀ c ∈ calls, c.argnum < FBR_MAX_ARG_NUM ∧ c.p ≠ 0 ∧
      ∀ e ∈ (s.fibers f).pool, e.addr ≠ c.p) :
    (∀ (s0 t0 : fbr_context) (callee : Nat) (argnum : Int) (ap : List fbr_fiber_arg)
        (o : call_outcome),
        fbr_call_noinfo FBR_MAX_ARG_NUM s0 callee argnum ap = some (o, t0) →
        ∀ g, (t0.fibers g).call_list = (s0.fibers g).call_list ∧
          (t0.fibers g).call_list_size = (s0.fibers g).call_list_size) ∧
    ∃ t u v,
      call_rounds FBR_MAX_ARG_NUM f s calls = some t ∧
      (t.fibers f).call_list = calls.map (record_of (CURRENT_FIBER s)) ∧
      (t.fibers f).call_list_size = (t.fibers f).call_list.length ∧
      (t.fibers f).pool = (s.fibers f).pool ++ calls.map entry_of ∧
      (∀ g, g ≠ f → (t.fibers g).call_list = (s.fibers g).call_list ∧
        (t.fibers g).call_list_size = (s.fibers g).call_list_size ∧
        (t.fibers g).pool = (s.fibers g).pool) ∧
      fbr_call_noinfo FBR_MAX_ARG_NUM t f 0 [] = some (call_outcome.transferred, u) ∧
      CURRENT_FIBER u = f ∧
      next_call_infos calls.length u none =
        some (calls.map (fun c => ((1 : Int), some (record_of (CURRENT_FIBER s) c))),
          (calls.getLast?).map (record_of (CURRENT_FIBER s)), v) ∧
      fbr_next_call_info v (some ((calls.getLast?).map (record_of (CURRENT_FIBER s)))) =
        some (0, (calls.getLast?).map (record_of (CURRENT_FIBER s)), v) := by
  refine ⟨fun s0 t0 callee argnum ap o h g =>
    fbr_call_noinfo_call_lists FBR_MAX_ARG_NUM s0 callee argnum ap o t0 h g, ?_⟩
  obtain ⟨t, e1, _, _, b3, b4, b5, b6, b7⟩ := call_rounds_spec FBR_MAX_ARG_NUM f calls s hlive hne
    (fun c hc => ⟨(hargs c hc).1, (hargs c hc).2.1⟩)
  have hu : ∃ u, fbr_call_noinfo FBR_MAX_ARG_NUM t f 0 [] = some (call_outcome.transferred, u) ∧
      CURRENT_FIBER u = f ∧ (u.fibers f).call_list = (t.fibers f).call_list ∧
      (u.fibers f).pool = (t.fibers f).pool := by
    have hn : ¬ (0 : Int) ≥ FBR_MAX_ARG_NUM := by omega
    simp only [fbr_call_noinfo, fbr_vcall, hn, b3, ↓reduceIte]
    refine ⟨_, rfl, ?_, ?_, ?_⟩
    · simp [CURRENT_FIBER]
    · rw [(coro_transfer_fibers _ _ _ _ f).1]
    · rw [(coro_transfer_fibers _ _ _ _ f).2.2.1]
  obtain ⟨u, e2, c1, c2, c3⟩ := hu
  obtain ⟨v, e3, d1, d2, _⟩ := next_call_infos_spec f (CURRENT_FIBER s) calls u
    (s.fibers f).pool none c1 (by rw [c2, b4, hempty.1]; simp) (by rw [c3, b6]; simp)
    (fun e he c hc => (hargs c (by simpa using hc)).2.2 e he)
  refine ⟨t, u, v, e1, by rw [b4, hempty.1]; simp, ?_, b6, b7, e2, c1, ?_, ?_⟩
  · rw [b5, b4, hempty.1, hempty.2]
    simp
  · simpa using e3
  · unfold fbr_next_call_info
    simp only [d1, d2, Option.join]
    rfl

/-- Witness of C4: two calls from the root fiber to the fiber it created. -/
theorem call_info_fifo_witness :
    ((0 : Int) < 10 ∧ (demo_created.fibers 5).reclaimed ≠ 1 ∧ 5 ≠ CURRENT_FIBER demo_created ∧
      (demo_created.fibers 5).call_list = [] ∧ (demo_created.fibers 5).call_list_size = 0) ∧
    ∃ t u v,
      call_rounds 10 5 demo_created demo_calls = some t ∧
      (t.fibers 5).call_list = demo_calls.map (record_of (CURRENT_FIBER demo_created)) ∧
      (t.fibers 5).call_list_size = (t.fibers 5).call_list.length ∧
      (t.fibers 5).pool = (demo_created.fibers 5).pool ++ demo_calls.map entry_of ∧
      (∀ g, g ≠ 5 → (t.fibers g).call_list = (demo_created.fibers g).call_list ∧
        (t.fibers g).call_list_size = (demo_created.fibers g).call_list_size ∧
        (t.fibers g).pool = (demo_created.fibers g).pool) ∧
      fbr_call_noinfo 10 t 5 0 [] = some (call_outcome.transferred, u) ∧
      CURRENT_FIBER u = 5 ∧
      next_call_infos demo_calls.length u none =
        some (demo_calls.map (fun c => ((1 : Int), some (record_of (CURRENT_FIBER demo_created) c))),
          (demo_calls.getLast?).map (record_of (CURRENT_FIBER demo_created)), v) ∧
      fbr_next_call_info v
          (some ((demo_calls.getLast?).map (record_of (CURRENT_FIBER demo_created)))) =
        some (0, (demo_calls.getLast?).map (record_of (CURRENT_FIBER demo_created)), v) :=
  ⟨⟨by decide, by decide, by decide, rfl, rfl⟩,
   (call_info_fifo 10 demo_created 5 demo_calls (by decide) (by decide) (by decide) ⟨rfl, rfl⟩
     (by
       intro c hc
       have hpool : (demo_created.fibers 5).pool = [] := rfl
       rw [hpool]
       simp only [demo_calls, List.mem_cons, List.mem_singleton, List.not_mem_nil, or_false] at hc
       rcases hc with rfl | rfl <;> simp)).2⟩

/-! ## Mutexes and condition variables -/

theorem fbr_yield_mutex_mem (s : fbr_context) : (fbr_yield s).mutex_mem = s.mutex_mem := by
  unfold fbr_yield coro_transfer
  simp only
  split <;> simp [fiber_prepare, set_fiber]

/-- A fiber that enters `fbr_mutex_lock` on a held mutex goes to the tail of
`pending`, and the owner stays. -/
theorem fbr_mutex_lock_held (s : fbr_context) (mutex : Nat)
    (h : (s.mutex_mem mutex).locked_by ≠ none) :
    (fbr_mutex_lock s mutex).2.mutex_mem mutex =
      { locked_by := (s.mutex_mem mutex).locked_by,
        pending := (s.mutex_mem mutex).pending ++ [CURRENT_FIBER s] } := by
  unfold fbr_mutex_lock
  cases hl : (s.mutex_mem mutex).locked_by with
  | none => exact absurd hl h
  | some o =>
    simp only [fbr_yield_mutex_mem, set_mutex, ↓reduceIte, hl]

theorem lock_entries_pending (mutex : Nat) (s u : fbr_context) (fs : List Nat)
    (h : lock_entries mutex s fs u) :
    (s.mutex_mem mutex).locked_by ≠ none →
    (u.mutex_mem mutex).locked_by = (s.mutex_mem mutex).locked_by ∧
    (u.mutex_mem mutex).pending = (s.mutex_mem mutex).pending ++ fs := by
  induction h with
  | done s => intro _; simp
  | enter s t u fiber rest hcur _ ht _ ih =>
    intro hheld
    rw [fbr_mutex_lock_held s mutex hheld] at ht
    have h1 : (t.mutex_mem mutex).locked_by ≠ none := by rw [ht]; exact hheld
    obtain ⟨a, b⟩ := ih h1
    rw [a, b, ht, hcur]
    simp

/-- Function `fbr_mutex_unlock` on a mutex with waiters: the state it gives. -/
theorem fbr_mutex_unlock_pending (s : fbr_context) (mutex w : Nat) (rest : List Nat)
    (h : (s.mutex_mem mutex).pending = w :: rest) :
    fbr_mutex_unlock s mutex =
      { set_mutex s mutex { locked_by := some w, pending := rest } with
        mutexes := s.mutexes ++ [mutex],
        mutex_async := { active := if rest = [] then true else s.mutex_async.active,
                         sent := true } } := by
  unfold fbr_mutex_unlock
  simp only [h, set_mutex, ↓reduceIte, List.isEmpty_eq_true]
  split_ifs <;> rfl

theorem unlock_owners_fifo (mutex : Nat) (s : fbr_context) (owners : List (Option Nat))
    (h : unlock_owners mutex s owners) :
    ∀ (fs : List Nat), (s.mutex_mem mutex).pending = fs → owners.length = fs.length →
      owners = fs.map some := by
  induction h with
  | done s =>
    intro fs _ hlen
    cases fs with
    | nil => rfl
    | cons _ _ => simp at hlen
  | unlock s t owners ht _ ih =>
    intro fs hp hlen
    cases fs with
    | nil => simp at hlen
    | cons w rest =>
      rw [fbr_mutex_unlock_pending s mutex w rest hp] at ht
      simp only [set_mutex, ↓reduceIte] at ht
      rw [ht] at ih ⊢
      simp only [List.map_cons, List.cons.injEq, true_and]
      exact ih rest rfl (by simpa using hlen)

/-- Function `fbr_mutex_unlock` makes no test whether the mutex is on
`mutexes` already: on a queued mutex with waiters the sequence it leaves holds
the mutex twice, which stands for no queue of the program. -/
theorem fbr_mutex_unlock_twice (x : fbr_context) (mutex w : Nat) (rest : List Nat)
    (h : (x.mutex_mem mutex).pending = w :: rest) (hq : mutex ∈ x.mutexes) :
    ¬ (fbr_mutex_unlock x mutex).mutexes.Nodup := by
  rw [fbr_mutex_unlock_pending x mutex w rest h]
  simp only [set_mutex]
  intro hn
  rw [List.nodup_append] at hn
  exact hn.2.2 hq (List.mem_singleton_self _)

/-- C5 (the mutex not queued yet). Mutex unlock hands ownership over in FIFO
order. `fbr_mutex_unlock` on a mutex without waiters sets `locked_by` to none
and changes nothing else, in every state; on a mutex with
`pending = w :: rest` that is not on `mutexes` it sets `locked_by = w` and
`pending = rest` in one step, appends the mutex to the tail of `mutexes`
(starting `mutex_async` when `rest` is empty, and signalling it); in every
state with `pending = w :: rest`, queued or not, the record of the mutex gets
`locked_by = w` and `pending = rest`, and on a mutex that is queued already
the sequence `mutexes` then holds it twice (no test is made; such a sequence
stands for no queue of the program); and `fbr_mutex_trylock` in any state
where the mutex has an owner returns 0 and changes nothing. And if the fibers
`fs` enter `fbr_mutex_lock` in that order on a held mutex without waiters,
none of them waiting for it already, then as many successive unlocks make the
owners the fibers of `fs`, in that order. -/
theorem mutex_unlock_fifo (mutex : Nat) (s u : fbr_context) (fs : List Nat)
    (owners : List (Option Nat))
    (hheld : (s.mutex_mem mutex).locked_by ≠ none)
    (hnone : (s.mutex_mem mutex).pending = [])
    (hlock : lock_entries mutex s fs u)
    (hunlock : unlock_owners mutex u owners)
    (hlen : owners.length = fs.length) :
    (∀ (x : fbr_context), (x.mutex_mem mutex).pending = [] →
      fbr_mutex_unlock x mutex =
        set_mutex x mutex { x.mutex_mem mutex with locked_by := none }) ∧
    (∀ (x : fbr_context) (w : Nat) (rest : List Nat), (x.mutex_mem mutex).pending = w :: rest →
      mutex ∉ x.mutexes →
      fbr_mutex_unlock x mutex =
        { set_mutex x mutex { locked_by := some w, pending := rest } with
          mutexes := x.mutexes ++ [mutex],
          mutex_async := { active := if rest = [] then true else x.mutex_async.active,
                           sent := true } }) ∧
    (∀ (x : fbr_context) (w : Nat) (rest : List Nat), (x.mutex_mem mutex).pending = w :: rest →
      (fbr_mutex_unlock x mutex).mutex_mem mutex = { locked_by := some w, pending := rest }) ∧
    (∀ (x : fbr_context) (w : Nat) (rest : List Nat), (x.mutex_mem mutex).pending = w :: rest →
      mutex ∈ x.mutexes → ¬ (fbr_mutex_unlock x mutex).mutexes.Nodup) ∧
    (∀ (x : fbr_context), (x.mutex_mem mutex).locked_by ≠ none →
      fbr_mutex_trylock x mutex = (0, x)) ∧
    (u.mutex_mem mutex).pending = fs ∧
    owners = fs.map some := by
  have hp := lock_entries_pending mutex s u fs hlock hheld
  rw [hnone] at hp
  refine ⟨?_, fun x w rest h _ => fbr_mutex_unlock_pending x mutex w rest h,
    fun x w rest h => ?_, fun x w rest h hq => fbr_mutex_unlock_twice x mutex w rest h hq,
    ?_, by simpa using hp.2,
    unlock_owners_fifo mutex u owners hunlock fs (by simpa using hp.2) hlen⟩
  · intro x hx
    unfold fbr_mutex_unlock
    simp only [hx]
  · rw [fbr_mutex_unlock_pending x mutex w rest h]
    simp [set_mutex]
  · intro x hx
    unfold fbr_mutex_trylock
    cases hl : (x.mutex_mem mutex).locked_by with
    | none => exact absurd hl hx
    | some o => simp only [hl]

/-- Witness of C5: fiber 5 enters `fbr_mutex_lock` on the mutex the root
holds, then the root unlocks. -/
theorem mutex_unlock_fifo_witness :
    (demo_locked.mutex_mem 3).locked_by ≠ none ∧ (demo_locked.mutex_mem 3).pending = [] ∧
    lock_entries 3 demo_locked [5] (fbr_mutex_lock demo_locked 3).2 ∧
    unlock_owners 3 (fbr_mutex_lock demo_locked 3).2 [some 5] ∧
    (((fbr_mutex_lock demo_locked 3).2).mutex_mem 3).pending = [5] ∧
    [some 5] = [5].map some :=
  have hl : lock_entries 3 demo_locked [5] (fbr_mutex_lock demo_locked 3).2 :=
    lock_entries.enter demo_locked _ _ 5 [] rfl (List.not_mem_nil 5) rfl (lock_entries.done _)
  have hu : unlock_owners 3 (fbr_mutex_lock demo_locked 3).2 [some 5] :=
    unlock_owners.unlock (fbr_mutex_lock demo_locked 3).2
      (fbr_mutex_unlock (fbr_mutex_lock demo_locked 3).2 3) [] rfl (unlock_owners.done _)
  ⟨by decide, rfl, hl, hu,
   (mutex_unlock_fifo 3 demo_locked _ [5] [some 5] (by decide) rfl hl hu rfl).2.2.2.2.2.1,
   (mutex_unlock_fifo 3 demo_locked _ [5] [some 5] (by decide) rfl hl hu rfl).2.2.2.2.2.2⟩

/-- C6. Condition-variable wake order. With `waiting = w :: rest` and
`pending_fibers = P`, `fbr_cond_signal` leaves `waiting = rest` and
`pending_fibers = P ++ [w]`, `fbr_cond_broadcast` leaves `waiting = []` and
`pending_fibers = P ++ w :: rest`; both start `pending_async` when `P` was
empty, signal it, and change nothing else. Both change nothing at all when
`waiting` is empty. -/
theorem cond_wake_order (s : fbr_context) (cond w : Nat) (rest : List Nat)
    (h : (s.cond_mem cond).waiting = w :: rest) :
    fbr_cond_signal s cond =
      { set_cond s cond { s.cond_mem cond with waiting := rest } with
        pending_fibers := s.pending_fibers ++ [w],
        pending_async := { active := if s.pending_fibers = [] then true
                                     else s.pending_async.active,
                           sent := true } } ∧
    fbr_cond_broadcast s cond =
      { set_cond s cond { s.cond_mem cond with waiting := [] } with
        pending_fibers := s.pending_fibers ++ w :: rest,
        pending_async := { active := if s.pending_fibers = [] then true
                                     else s.pending_async.active,
                           sent := true } } ∧
    ∀ (x : fbr_context), (x.cond_mem cond).waiting = [] →
      fbr_cond_signal x cond = x ∧ fbr_cond_broadcast x cond = x := by
  refine ⟨?_, ?_, ?_⟩
  · unfold fbr_cond_signal
    simp only [h, set_cond]
    by_cases hp : s.pending_fibers = [] <;> simp [hp]
  · unfold fbr_cond_broadcast
    simp only [h, set_cond]
    by_cases hp : s.pending_fibers = [] <;> simp [hp]
  · intro x hx
    constructor
    · unfold fbr_cond_signal
      simp only [hx]
    · unfold fbr_cond_broadcast
      simp [hx]

/-- Witness of C6: three waiters, one fiber pending already. -/
theorem cond_wake_order_witness :
    (demo_waiting.cond_mem 4).waiting = 5 :: [6, 7] ∧
    ((fbr_cond_signal demo_waiting 4).cond_mem 4).waiting = [6, 7] ∧
    (fbr_cond_signal demo_waiting 4).pending_fibers = [8, 5] ∧
    ((fbr_cond_broadcast demo_waiting 4).cond_mem 4).waiting = [] ∧
    (fbr_cond_broadcast demo_waiting 4).pending_fibers = [8, 5, 6, 7] :=
  ⟨rfl,
   by rw [(cond_wake_order demo_waiting 4 5 [6, 7] rfl).1]; rfl,
   by rw [(cond_wake_order demo_waiting 4 5 [6, 7] rfl).1]; rfl,
   by rw [(cond_wake_order demo_waiting 4 5 [6, 7] rfl).2.1]; rfl,
   by rw [(cond_wake_order demo_waiting 4 5 [6, 7] rfl).2.1]; rfl⟩

/-! ## The arena -/

theorem find_pool_entry (e0 : fbr_mem_pool) (rest pre : List fbr_mem_pool)
    (h : ∀ e ∈ pre, e.addr ≠ e0.addr) :
    (pre ++ e0 :: rest).find? (fun e => e.addr + 1 == e0.addr + 1) = some e0 ∧
    (pre ++ e0 :: rest).eraseP (fun e => e.addr + 1 == e0.addr + 1) = pre ++ rest := by
  induction pre with
  | nil => simp
  | cons e pre ih =>
    have he : e.addr ≠ e0.addr := h e (List.mem_cons_self _ _)
    have ih1 := ih (fun x hx => h x (List.mem_cons_of_mem _ hx))
    have hb : (e.addr + 1 == e0.addr + 1) = false := by simpa using he
    rw [List.cons_append, List.find?_cons, List.eraseP_cons, hb]
    refine ⟨ih1.1, ?_⟩
    simp only [cond_false]
    rw [ih1.2]
    rfl

theorem set_destructor_other (p : Nat) (func : Option Nat) (context : Nat)
    (l : List fbr_mem_pool) (h : ∀ e ∈ l, e.addr ≠ p) :
    l.map (set_destructor_entry (p + 1) func context) = l := by
  induction l with
  | nil => rfl
  | cons e l ih =>
    have he : e.addr ≠ p := h e (List.mem_cons_self _ _)
    rw [List.map_cons, ih (fun x hx => h x (List.mem_cons_of_mem _ hx))]
    simp [set_destructor_entry, he]

theorem set_fiber_same (s : fbr_context) (a : Nat) : set_fiber s a (s.fibers a) = s := by
  unfold set_fiber
  have : (fun x => if x = a then s.fibers a else s.fibers x) = s.fibers := by
    funext x
    split_ifs with hx
    · rw [hx]
    · rfl
  rw [this]

/-- Function `fbr_free_in_fiber` on the user pointer of an entry of the arena
whose self-pointer is intact: the entry leaves the arena and its destructor,
if any, is called once. -/
theorem fbr_free_in_fiber_entry (x : fbr_context) (g : Nat) (e0 : fbr_mem_pool)
    (pre rest : List fbr_mem_pool) (hpool : (x.fibers g).pool = pre ++ e0 :: rest)
    (hpre : ∀ e ∈ pre, e.addr ≠ e0.addr) (hself : e0.ptr = e0.addr) :
    fbr_free_in_fiber x g (e0.addr + 1) =
      some { set_fiber x g { x.fibers g with pool := pre ++ rest } with
        dtor_log := x.dtor_log ++
          (match e0.destructor with
           | none => []
           | some d => [{ fiber := g, func := d, ptr := e0.addr + 1,
                          context := e0.destructor_context }]) } := by
  obtain ⟨h1, h2⟩ := find_pool_entry e0 rest pre hpre
  unfold fbr_free_in_fiber
  simp only [Nat.add_one_ne_zero, ↓reduceIte, hpool, h1, h2, hself, ne_eq, not_true_eq_false]
  cases e0.destructor <;> simp [set_fiber]

/-- C7. Arena alloc/free round trip. When `malloc` returns the non-null
address `p`, not the address of a live entry, `fbr_alloc` and `fbr_calloc`
return the user pointer `p + 1` and append to the arena of the current fiber
exactly one entry, with no destructor and the self-pointer `ptr` equal to its
own address `p`; `fbr_free` of that pointer then gives back the state before
the allocation; if `fbr_alloc_set_destructor` has set `(fn, ctx)` on it, that
`fbr_free` restores the arena and records exactly one call `fn (p + 1, ctx)`;
and `fbr_free (NULL)` changes nothing in any state. -/
theorem arena_alloc_free (s : fbr_context) (p fn ctx : Nat) (hp : p ≠ 0)
    (hfresh : ∀ g, ∀ e ∈ (s.fibers g).pool, e.addr ≠ p) :
    fbr_alloc s p = some (p + 1, set_fiber s (CURRENT_FIBER s)
      { s.fibers (CURRENT_FIBER s) with
        pool := (s.fibers (CURRENT_FIBER s)).pool ++
          [{ addr := p, ptr := p, destructor := none, destructor_context := 0 }] }) ∧
    fbr_calloc s p = fbr_alloc s p ∧
    (∀ t, fbr_alloc s p = some (p + 1, t) →
      fbr_free t (p + 1) = some s ∧
      fbr_free (fbr_alloc_set_destructor t (p + 1) (some fn) ctx) (p + 1) =
        some { s with dtor_log := s.dtor_log ++
          [{ fiber := CURRENT_FIBER s, func := fn, ptr := p + 1, context := ctx }] }) ∧
    ∀ (x : fbr_context), fbr_free x 0 = some x := by
  have halloc : fbr_alloc s p = some (p + 1, set_fiber s (CURRENT_FIBER s)
      { s.fibers (CURRENT_FIBER s) with
        pool := (s.fibers (CURRENT_FIBER s)).pool ++
          [{ addr := p, ptr := p, destructor := none, destructor_context := 0 }] }) := by
    simp [fbr_alloc, allocate_in_fiber, hp]
  refine ⟨halloc, rfl, ?_, fun x => by simp [fbr_free, fbr_free_in_fiber]⟩
  intro t ht
  rw [halloc] at ht
  simp only [Option.some.injEq, Prod.mk.injEq, true_and] at ht
  subst ht
  have hcur : ∀ e ∈ (s.fibers (CURRENT_FIBER s)).pool, e.addr ≠ p := hfresh _
  constructor
  · unfold fbr_free
    have hc : CURRENT_FIBER (set_fiber s (CURRENT_FIBER s)
      { s.fibers (CURRENT_FIBER s) with
        pool := (s.fibers (CURRENT_FIBER s)).pool ++
          [{ addr := p, ptr := p, destructor := none, destructor_context := 0 }] })
        = CURRENT_FIBER s := rfl
    rw [hc]
    rw [fbr_free_in_fiber_entry _ (CURRENT_FIBER s)
      { addr := p, ptr := p, destructor := none, destructor_context := 0 }
      (s.fibers (CURRENT_FIBER s)).pool [] (by simp [set_fiber]) hcur rfl]
    simp only [set_fiber_twice, List.append_nil]
    conv_rhs => rw [← set_fiber_same s (CURRENT_FIBER s)]
    simp [set_fiber]
  · have hset : fbr_alloc_set_destructor (set_fiber s (CURRENT_FIBER s)
        { s.fibers (CURRENT_FIBER s) with
          pool := (s.fibers (CURRENT_FIBER s)).pool ++
            [{ addr := p, ptr := p, destructor := none, destructor_context := 0 }] })
        (p + 1) (some fn) ctx =
        set_fiber s (CURRENT_FIBER s)
        { s.fibers (CURRENT_FIBER s) with
          pool := (s.fibers (CURRENT_FIBER s)).pool ++
            [{ addr := p, ptr := p, destructor := some fn, destructor_context := ctx }] } := by
      unfold fbr_alloc_set_destructor set_fiber
      simp only [fbr_context.mk.injEq, and_self, and_true, true_and]
      funext x
      by_cases hx : x = CURRENT_FIBER s
      · subst hx
        simp only [↓reduceIte, List.map_append, set_destructor_other p (some fn) ctx _ hcur]
        simp [set_destructor_entry]
      · simp only [hx, ↓reduceIte, set_destructor_other p (some fn) ctx _ (hfresh x)]
    rw [hset]
    unfold fbr_free
    have hc : CURRENT_FIBER (set_fiber s (CURRENT_FIBER s)
      { s.fibers (CURRENT_FIBER s) with
        pool := (s.fibers (CURRENT_FIBER s)).pool ++
          [{ addr := p, ptr := p, destructor := some fn, destructor_context := ctx }] })
        = CURRENT_FIBER s := rfl
    rw [hc]
    rw [fbr_free_in_fiber_entry _ (CURRENT_FIBER s)
      { addr := p, ptr := p, destructor := some fn, destructor_context := ctx }
      (s.fibers (CURRENT_FIBER s)).pool [] (by simp [set_fiber]) hcur rfl]
    simp only [set_fiber_twice, List.append_nil]
    have h3 : set_fiber s (CURRENT_FIBER s)
        { (set_fiber s (CURRENT_FIBER s)
            { s.fibers (CURRENT_FIBER s) with
              pool := (s.fibers (CURRENT_FIBER s)).pool ++
              [{ addr := p, ptr := p, destructor := some fn, destructor_context := ctx }] }).fibers
            (CURRENT_FIBER s) with pool := (s.fibers (CURRENT_FIBER s)).pool } = s := by
      conv_rhs => rw [← set_fiber_same s (CURRENT_FIBER s)]
      simp [set_fiber]
    rw [h3]
    simp [set_fiber]

theorem demo_called_pool (g : Nat) (e : fbr_mem_pool) (he : e ∈ (demo_called.fibers g).pool) :
    e.addr ≠ 20 := by
  have h : demo_called.fibers g =
      (coro_transfer
        (set_fiber
          (set_fiber { demo_created with sp := 1, stack := fun x => if x = 1 then 5 else 0 } 5
            { demo_created.fibers 5 with
              pool := [{ addr := 7, ptr := 7, destructor := none, destructor_context := 0 }] })
          5
          { demo_created.fibers 5 with
            pool := [{ addr := 7, ptr := 7, destructor := none, destructor_context := 0 }],
            call_list := [{ addr := 8, caller := 0, argc := 1, argv := [fbr_fiber_arg.i 1] }],
            call_list_size := 1 })
        0 5 coro_context.in_vcall).fibers g := rfl
  rw [h, (coro_transfer_fibers _ _ _ _ g).2.2.1] at he
  simp only [set_fiber] at he
  split_ifs at he with h5
  · simp only [List.mem_singleton] at he
    subst he
    decide
  · revert he
    simp only [demo_created, fbr_create, demo_init, fbr_init, allocate_in_fiber, mem0,
      set_fiber, CURRENT_FIBER, ROOT, zero_fiber]
    simp only [Nat.succ_ne_zero, ↓reduceIte, Option.getD_some, List.nil_append, h5]
    split_ifs <;> simp
    intro he
    subst he
    decide

/-- Witness of C7: fiber 5, running, allocates at address 20. -/
theorem arena_alloc_free_witness :
    (20 ≠ 0) ∧ (∀ g, ∀ e ∈ (demo_called.fibers g).pool, e.addr ≠ 20) ∧
    fbr_alloc demo_called 20 = some (21, set_fiber demo_called (CURRENT_FIBER demo_called)
      { demo_called.fibers (CURRENT_FIBER demo_called) with
        pool := (demo_called.fibers (CURRENT_FIBER demo_called)).pool ++
          [{ addr := 20, ptr := 20, destructor := none, destructor_context := 0 }] }) :=
  ⟨by decide, demo_called_pool,
   (arena_alloc_free demo_called 20 3 4 (by decide) demo_called_pool).1⟩

/-! ## Reclaiming a fiber -/

/-- A run of `fbr_reclaim` keeps the lists of children and leaves every arena
as it was or empty. -/
theorem reclaim_rel_keeps (rank : Nat → Nat) (s t : fbr_context) (h : reclaim_rel s t)
    (hs : (∀ g, ∀ c ∈ (s.fibers g).children, rank c < rank g) ∧
      (∀ g, ∀ e ∈ (s.fibers g).pool, e.ptr = e.addr)) :
    (∀ g, ∀ c ∈ (t.fibers g).children, rank c < rank g) ∧
      (∀ g, ∀ e ∈ (t.fibers g).pool, e.ptr = e.addr) := by
  constructor
  · intro g c hc
    rw [reclaim_rel_children s t h] at hc
    exact hs.1 g c hc
  · intro g e he
    rcases h.2 g with ⟨a, _⟩ | ⟨_, b, _⟩
    · rw [a] at he
      exact hs.2 g e he
    · rw [b] at he
      simp [reclaimed_fiber] at he

/-- Function `fbr_reclaim` returns when the lists of children are ranked (they
form a forest) and the arena entries carry their own address: fuel above the
rank of the fiber is enough. -/
theorem fbr_reclaim_total (rank : Nat → Nat) (fuel : Nat) :
    ∀ (s : fbr_context) (fiber : Nat), rank fiber < fuel →
      ((∀ g, ∀ c ∈ (s.fibers g).children, rank c < rank g) ∧
        (∀ g, ∀ e ∈ (s.fibers g).pool, e.ptr = e.addr)) →
      ∃ t, fbr_reclaim fuel s fiber = some t := by
  induction fuel with
  | zero => intro s fiber h; omega
  | succ n ih =>
    intro s fiber hr hs
    simp only [fbr_reclaim]
    split_ifs with hflag
    · exact ⟨s, rfl⟩
    · have hloop : ∀ (l : List Nat) (x : fbr_context), (∀ c ∈ l, rank c < n) →
          ((∀ g, ∀ c ∈ (x.fibers g).children, rank c < rank g) ∧
            (∀ g, ∀ e ∈ (x.fibers g).pool, e.ptr = e.addr)) →
          ∃ y, reclaim_children_loop (fbr_reclaim n) x l = some y := by
        intro l
        induction l with
        | nil => intro x _ _; exact ⟨x, rfl⟩
        | cons c rest ihl =>
          intro x hl hx
          obtain ⟨x1, h1⟩ := ih x c (hl c (List.mem_cons_self _ _)) hx
          have hx1 := reclaim_rel_keeps rank x x1 (fbr_reclaim_rel n x c x1 h1) hx
          obtain ⟨y, hy⟩ := ihl x1 (fun d hd => hl d (List.mem_cons_of_mem _ hd)) hx1
          exact ⟨y, by simp only [reclaim_children_loop, h1, hy]⟩
      obtain ⟨s1, h1⟩ := hloop (s.fibers fiber).children s
        (fun c hc => by have := hs.1 fiber c hc; omega) hs
      have hs1 := reclaim_rel_keeps rank s s1
        (reclaim_children_loop_rel (fbr_reclaim n) (fbr_reclaim_rel n) _ s s1 h1) hs
      obtain ⟨s2, h2⟩ := fiber_cleanup_total s1 fiber (hs1.2 fiber)
      simp only [h1, h2]
      exact ⟨_, rfl⟩

/-- Function `fbr_create` does not keep the forest: when it takes from the
pool a record that is still on a list of children, the record is afterwards
twice on the list of the running fiber, or on that list and on the one it was
on, whatever the ranks. -/
theorem fbr_create_breaks_forest (s : fbr_context) (name func p x g : Nat) (rest : List Nat)
    (hpool : s.reclaimed = x :: rest) (hlisted : x ∈ (s.fibers g).children)
    (hg : g ≠ x) (hx : x ≠ CURRENT_FIBER s) (rank : Nat → Nat) :
    ¬ children_forest rank (fbr_create s name func p).2 := by
  intro hf
  have h1 : (fbr_create s name func p).1 = x := by simp [fbr_create, hpool]
  have hx1 : (fbr_create s name func p).1 ≠ CURRENT_FIBER s := by rw [h1]; exact hx
  obtain ⟨_, _, _, _, _, _, f7⟩ := fbr_create_fibers s name func p hx1
  rw [h1] at f7
  have hcur := f7 (CURRENT_FIBER s) (fun e => hx e.symm)
  rw [if_pos rfl] at hcur
  by_cases hgc : g = CURRENT_FIBER s
  · subst hgc
    have := hf.2.1 (CURRENT_FIBER s)
    rw [hcur] at this
    exact (List.nodup_cons.mp this).1 hlisted
  · have hgt := f7 g hg
    rw [if_neg hgc] at hgt
    have e := hf.2.2 g (CURRENT_FIBER s) x (by rw [hgt]; exact hlisted)
      (by rw [hcur]; exact List.mem_cons_self _ _)
    exact hgc e

/-- C8 (on a forest of fibers). Reclaim runs the arena destructors once each,
in insertion order. For a live fiber `f` (`reclaimed = 0`), the lists of
children being the lists of a forest (`children_forest`: ranked, no fiber
twice on a list or on two lists) and the arena entries carrying their own
address, `fbr_reclaim` returns, and leaves the lists of children as they
were; and whenever it returns, in state `t`, the destructor calls made for
the arena of `f` are those already made followed by exactly one call for each
entry of the arena that has a destructor, in the order of the arena, with the
user pointer `addr + 1` and the context of the entry (`dtor_calls`); the arena
of `f` is empty; and a second `fbr_reclaim` of `f` returns the same state
`t`: no destructor call, no change. The forest is not kept by `fbr_create`:
when it takes from the pool a record that is still on a list of children (as
every reclaimed record is, `fbr_reclaim` unlinks none), the lists it leaves
are those of no forest. -/
theorem reclaim_runs_destructors (rank : Nat → Nat) (s : fbr_context) (f : Nat)
    (hlive : (s.fibers f).reclaimed = 0)
    (hforest : children_forest rank s)
    (hself : ∀ g, ∀ e ∈ (s.fibers g).pool, e.ptr = e.addr) :
    (∃ t, fbr_reclaim (rank f + 1) s f = some t) ∧
    (∀ (fuel : Nat) (t : fbr_context), fbr_reclaim fuel s f = some t →
      children_forest rank t ∧
      calls_of f t.dtor_log = calls_of f s.dtor_log ++ dtor_calls f (s.fibers f).pool ∧
      (t.fibers f).pool = [] ∧
      ∀ (fuel2 : Nat), fbr_reclaim (fuel2 + 1) t f = some t) ∧
    ∀ (name func p x g : Nat) (rest : List Nat) (r : Nat → Nat),
      s.reclaimed = x :: rest → x ∈ (s.fibers g).children → g ≠ x → x ≠ CURRENT_FIBER s →
      ¬ children_forest r (fbr_create s name func p).2 := by
  refine ⟨fbr_reclaim_total rank (rank f + 1) s f (by omega) ⟨hforest.1, hself⟩, ?_,
    fun name func p x g rest r hpool hl hg hx =>
      fbr_create_breaks_forest s name func p x g rest hpool hl hg hx r⟩
  intro fuel t ht
  have hflag := fbr_reclaim_flag fuel s t f (Or.inl hlive) ht
  have hrel := fbr_reclaim_rel fuel s f t ht
  have hch : children_forest rank t := by
    obtain ⟨f1, f2, f3⟩ := hforest
    refine ⟨fun g c hc => ?_, fun g => ?_, fun g1 g2 c h1 h2 => ?_⟩
    · rw [reclaim_rel_children s t hrel] at hc
      exact f1 g c hc
    · rw [reclaim_rel_children s t hrel]
      exact f2 g
    · rw [reclaim_rel_children s t hrel] at h1 h2
      exact f3 g1 g2 c h1 h2
  rcases hrel.2 f with ⟨a, _⟩ | ⟨_, b, c⟩
  · rw [a, hlive] at hflag
    exact absurd hflag (by decide)
  · refine ⟨hch, c, by rw [b]; rfl, fun fuel2 => ?_⟩
    simp [fbr_reclaim, hflag]

theorem demo_called_fibers (g : Nat) :
    (demo_called.fibers g).children = (if g = 0 then [5] else []) ∧
    ∀ e ∈ (demo_called.fibers g).pool, e.ptr = e.addr := by
  have h : demo_called.fibers g =
      (coro_transfer
        (set_fiber
          (set_fiber { demo_created with sp := 1, stack := fun x => if x = 1 then 5 else 0 } 5
            { demo_created.fibers 5 with
              pool := [{ addr := 7, ptr := 7, destructor := none, destructor_context := 0 }] })
          5
          { demo_created.fibers 5 with
            pool := [{ addr := 7, ptr := 7, destructor := none, destructor_context := 0 }],
            call_list := [{ addr := 8, caller := 0, argc := 1, argv := [fbr_fiber_arg.i 1] }],
            call_list_size := 1 })
        0 5 coro_context.in_vcall).fibers g := rfl
  rw [h, (coro_transfer_fibers _ _ _ _ g).2.2.1, coro_transfer_children]
  simp only [set_fiber]
  by_cases h5 : g = 5
  · subst h5
    simp only [↓reduceIte, List.mem_singleton, forall_eq]
    exact ⟨rfl, trivial⟩
  · simp only [h5, ↓reduceIte]
    simp only [demo_created, fbr_create, demo_init, fbr_init, allocate_in_fiber, mem0,
      set_fiber, CURRENT_FIBER, ROOT, zero_fiber]
    simp only [Nat.succ_ne_zero, ↓reduceIte, Option.getD_some, List.nil_append, h5]
    by_cases h0 : g = 0
    · subst h0
      simp
    · simp [h0]

theorem allocate_in_fiber_keeps (s t : fbr_context) (fiber p q : Nat)
    (h : allocate_in_fiber s fiber p = some (q, t)) (g : Nat) :
    (t.fibers g).children = (s.fibers g).children ∧
    (t.fibers g).reclaimed = (s.fibers g).reclaimed ∧
    ((∀ e ∈ (s.fibers g).pool, e.ptr = e.addr) → ∀ e ∈ (t.fibers g).pool, e.ptr = e.addr) := by
  unfold allocate_in_fiber at h
  split_ifs at h with hp
  simp only [Option.some.injEq, Prod.mk.injEq] at h
  obtain ⟨_, rfl⟩ := h
  simp only [set_fiber]
  by_cases hg : g = fiber
  · subst hg
    simp only [↓reduceIte, List.mem_append, List.mem_singleton, true_and]
    intro hs e he
    rcases he with he | he
    · exact hs e he
    · rw [he]
  · simp only [hg, ↓reduceIte, true_and]
    exact fun hs => hs

theorem set_destructor_keeps (s : fbr_context) (ptr : Nat) (func : Option Nat) (context : Nat)
    (g : Nat) :
    ((fbr_alloc_set_destructor s ptr func context).fibers g).children = (s.fibers g).children ∧
    ((fbr_alloc_set_destructor s ptr func context).fibers g).reclaimed
      = (s.fibers g).reclaimed ∧
    ((∀ e ∈ (s.fibers g).pool, e.ptr = e.addr) →
      ∀ e ∈ ((fbr_alloc_set_destructor s ptr func context).fibers g).pool, e.ptr = e.addr) := by
  unfold fbr_alloc_set_destructor
  simp only [List.mem_map, forall_exists_index, and_imp, true_and]
  intro hs e x hx hxe
  subst hxe
  unfold set_destructor_entry
  split_ifs
  · exact hs x hx
  · exact hs x hx

theorem demo_arena_fibers (g : Nat) :
    (demo_arena.fibers g).children = (if g = 0 then [5] else []) ∧
    ∀ e ∈ (demo_arena.fibers g).pool, e.ptr = e.addr := by
  obtain ⟨c0, p0⟩ := demo_called_fibers g
  have a1 := allocate_in_fiber_keeps demo_called
    ((fbr_alloc demo_called 20).getD (0, demo_called)).2 5 20 21 rfl g
  have a2 := set_destructor_keeps ((fbr_alloc demo_called 20).getD (0, demo_called)).2
    21 (some 100) 1 g
  have a3 := allocate_in_fiber_keeps
    (fbr_alloc_set_destructor ((fbr_alloc demo_called 20).getD (0, demo_called)).2 21 (some 100) 1)
    ((fbr_alloc (fbr_alloc_set_destructor ((fbr_alloc demo_called 20).getD (0, demo_called)).2
      21 (some 100) 1) 22).getD (0, demo_called)).2 5 22 23 rfl g
  have a4 := allocate_in_fiber_keeps
    ((fbr_alloc (fbr_alloc_set_destructor ((fbr_alloc demo_called 20).getD (0, demo_called)).2
      21 (some 100) 1) 22).getD (0, demo_called)).2
    ((fbr_alloc ((fbr_alloc (fbr_alloc_set_destructor
      ((fbr_alloc demo_called 20).getD (0, demo_called)).2
      21 (some 100) 1) 22).getD (0, demo_called)).2 24).getD (0, demo_called)).2 5 24 25 rfl g
  have a5 := set_destructor_keeps
    ((fbr_alloc ((fbr_alloc (fbr_alloc_set_destructor
      ((fbr_alloc demo_called 20).getD (0, demo_called)).2
      21 (some 100) 1) 22).getD (0, demo_called)).2 24).getD (0, demo_called)).2
    25 (some 101) 2 g
  constructor
  · exact a5.1.trans (a4.1.trans (a3.1.trans (a2.1.trans (a1.1.trans c0))))
  · exact a5.2.2 (a4.2.2 (a3.2.2 (a2.2.2 (a1.2.2 p0))))

/-- Witness of C8: fiber 5 holds three blocks, the first and the third with a
destructor; its reclaim calls the two destructors in that order. -/
theorem reclaim_runs_destructors_witness :
    (demo_arena.fibers 5).reclaimed = 0 ∧
    children_forest demo_rank demo_arena ∧
    (∀ g, ∀ e ∈ (demo_arena.fibers g).pool, e.ptr = e.addr) ∧
    (∃ t, fbr_reclaim (demo_rank 5 + 1) demo_arena 5 = some t) ∧
    dtor_calls 5 (demo_arena.fibers 5).pool =
      [{ fiber := 5, func := 100, ptr := 21, context := 1 },
       { fiber := 5, func := 101, ptr := 25, context := 2 }] :=
  have hforest : children_forest demo_rank demo_arena := by
    refine ⟨fun g c hc => ?_, fun g => ?_, fun g1 g2 c h1 h2 => ?_⟩
    · rw [(demo_arena_fibers g).1] at hc
      split_ifs at hc with h0
      · simp only [List.mem_singleton] at hc
        subst hc
        subst h0
        decide
      · simp at hc
    · rw [(demo_arena_fibers g).1]
      split_ifs <;> simp
    · rw [(demo_arena_fibers g1).1] at h1
      rw [(demo_arena_fibers g2).1] at h2
      split_ifs at h1 h2 with a1 a2
      · rw [a1, a2]
      · simp at h2
      · simp at h1
      · simp at h1
  ⟨rfl, hforest, fun g => (demo_arena_fibers g).2,
   (reclaim_runs_destructors demo_rank demo_arena 5 rfl hforest
     (fun g => (demo_arena_fibers g).2)).1, rfl⟩

/-! ## I/O wrappers -/

theorem io_stop_disarmed (x t : fbr_context) (g : Nat) (h : io_stop x g = some t) :
    (t.fibers g).w_io_expected = 0 ∧ (t.fibers g).w_io.active = false := by
  unfold io_stop at h
  simp only at h
  split_ifs at h
  simp only [Option.some.injEq] at h
  subst h
  simp [set_fiber]

theorem io_stop_armed (x : fbr_context) (g : Nat) (h : (x.fibers g).w_io_expected = 1) :
    io_stop x g = some (set_fiber x g
      { x.fibers g with w_io_expected := 0, w_io := { (x.fibers g).w_io with active := false } }) := by
  unfold io_stop
  simp [h]

/-- Primitive `coro_transfer` keeps the expectation flags, the system call
results and `errno`, and keeps the I/O watcher of the fiber it leaves when that
fiber is saved in `fbr_yield` or `fbr_vcall` and the target is the fiber of the
top frame. -/
theorem coro_transfer_watch (s : fbr_context) (src dst : Nat) (site : coro_context)
    (hsite : site ≠ coro_context.entry) (hdst : dst = CURRENT_FIBER s) (g : Nat) :
    ((coro_transfer s src dst site).fibers g).w_io_expected = (s.fibers g).w_io_expected ∧
    (coro_transfer s src dst site).sys = s.sys ∧
    (coro_transfer s src dst site).errno = s.errno ∧
    ((coro_transfer s src dst site).fibers src).w_io = (s.fibers src).w_io := by
  subst hdst
  unfold coro_transfer
  simp only
  by_cases hsd : CURRENT_FIBER s = src
  · subst hsd
    have : ((set_fiber s (CURRENT_FIBER s) { s.fibers (CURRENT_FIBER s) with ctx := site }).fibers
        (CURRENT_FIBER s)).ctx = site := by simp [set_fiber]
    cases site <;> simp only [this] <;>
      first
      | exact absurd rfl hsite
      | (simp only [set_fiber]; split_ifs <;> simp_all)
  · split <;> simp only [fiber_prepare, set_fiber, CURRENT_FIBER] at hsd ⊢ <;>
      split_ifs <;> simp_all

theorem fbr_yield_watch (s : fbr_context) (g : Nat) :
    ((fbr_yield s).fibers g).w_io_expected = (s.fibers g).w_io_expected ∧
    (fbr_yield s).sys = s.sys ∧ (fbr_yield s).errno = s.errno ∧
    ((fbr_yield s).fibers (CURRENT_FIBER s)).w_io = (s.fibers (CURRENT_FIBER s)).w_io := by
  unfold fbr_yield
  exact coro_transfer_watch _ _ _ _ (by decide) rfl g

theorem io_start_idle (x : fbr_context) (g : Nat) (fd events : Int)
    (h : (x.fibers g).w_io_expected = 0) :
    io_start x g fd events = some (set_fiber x g
      { x.fibers g with w_io := { active := true, fd := fd, events := events },
                        w_io_expected := 1 }) := by
  unfold io_start
  simp only [set_fiber, ↓reduceIte, h, ne_eq, not_true_eq_false, Option.some.injEq,
    fbr_context.mk.injEq, and_self, and_true, true_and]
  funext y
  split_ifs <;> rfl

theorem io_wrapper_begin_arms (x : fbr_context) (fd events : Int)
    (h : (x.fibers (CURRENT_FIBER x)).w_io_expected = 0) :
    io_armed_and_yielded x (io_wrapper_begin x fd events) := by
  unfold io_wrapper_begin
  simp only [io_start_idle x (CURRENT_FIBER x) fd events h]
  have hc : CURRENT_FIBER (set_fiber x (CURRENT_FIBER x)
      { x.fibers (CURRENT_FIBER x) with w_io := { active := true, fd := fd, events := events },
                                        w_io_expected := 1 }) = CURRENT_FIBER x := rfl
  have ha : io_armed (set_fiber x (CURRENT_FIBER x)
      { x.fibers (CURRENT_FIBER x) with w_io := { active := true, fd := fd, events := events },
                                        w_io_expected := 1 }) (CURRENT_FIBER x) := by
    simp [io_armed, set_fiber]
  refine ⟨_, ha, rfl, rfl, rfl, ?_, ?_⟩
  · rw [(fbr_yield_watch _ (CURRENT_FIBER x)).1]
    exact ha.1
  · have := (fbr_yield_watch (set_fiber x (CURRENT_FIBER x)
      { x.fibers (CURRENT_FIBER x) with w_io := { active := true, fd := fd, events := events },
                                        w_io_expected := 1 }) (CURRENT_FIBER x)).2.2.2
    rw [hc] at this
    rw [this]
    exact ha.2

theorem single_shot_interrupted (s : fbr_context) (fiber : Nat)
    (hexp : (s.fibers fiber).w_io_expected = 1) (hspur : CALLED_BY_ROOT s = false) :
    io_interrupted s fiber (fbr_read_resume s fiber) ∧
    io_interrupted s fiber (fbr_write_resume s fiber) ∧
    io_interrupted s fiber (fbr_recvfrom_resume s fiber) ∧
    io_interrupted s fiber (fbr_sendto_resume s fiber) ∧
    io_interrupted s fiber (fbr_accept_resume s fiber) := by
  have h1 : io_stop { s with errno := EINTR } fiber = some (set_fiber { s with errno := EINTR } fiber
      { s.fibers fiber with w_io_expected := 0,
                            w_io := { (s.fibers fiber).w_io with active := false } }) :=
    io_stop_armed { s with errno := EINTR } fiber hexp
  have h2 := io_stop_armed s fiber hexp
  have hc : CALLED_BY_ROOT (set_fiber s fiber
      { s.fibers fiber with w_io_expected := 0,
                            w_io := { (s.fibers fiber).w_io with active := false } }) = false :=
    hspur
  refine ⟨?_, ?_, ?_, ?_, ?_⟩
  · unfold fbr_read_resume
    simp only [hspur, h1]
    exact ⟨_, rfl, rfl, rfl, by simp [set_fiber], by simp [set_fiber]⟩
  · unfold fbr_write_resume
    simp only [hspur, h1]
    exact ⟨_, rfl, rfl, rfl, by simp [set_fiber], by simp [set_fiber]⟩
  · unfold fbr_recvfrom_resume
    simp only [h2, hc]
    exact ⟨_, rfl, rfl, rfl, by simp [set_fiber], by simp [set_fiber]⟩
  · unfold fbr_sendto_resume
    simp only [h2, hc]
    exact ⟨_, rfl, rfl, rfl, by simp [set_fiber], by simp [set_fiber]⟩
  · unfold fbr_accept_resume
    simp only [hspur, h2]
    exact ⟨_, rfl, rfl, rfl, by simp [set_fiber], by simp [set_fiber]⟩

theorem io_stop_disarms (x t : fbr_context) (g : Nat) (h : io_stop x g = some t) :
    io_disarmed t g :=
  io_stop_disarmed x t g h

/-- Every return of a single-shot wrapper leaves the watcher disarmed. -/
theorem single_shot_return (x t : fbr_context) (g : Nat) (r : Int)
    (h : fbr_read_resume x g = some (r, t) ∨ fbr_write_resume x g = some (r, t) ∨
      fbr_recvfrom_resume x g = some (r, t) ∨ fbr_sendto_resume x g = some (r, t) ∨
      fbr_accept_resume x g = some (r, t)) : io_disarmed t g := by
  have hrw : ∀ (y : fbr_context), (if !CALLED_BY_ROOT y then
        match io_stop { y with errno := EINTR } g with
        | none => none
        | some s1 => some (-1, s1)
      else
        match retry_eintr y.sys y.errno with
        | none => none
        | some (r, e, rest) =>
          match io_stop { y with errno := e, sys := rest } g with
          | none => none
          | some s1 => some (r, s1)) = some (r, t) → io_disarmed t g := by
    intro y hy
    split_ifs at hy
    · cases hs : io_stop { y with errno := EINTR } g with
      | none => simp [hs] at hy
      | some s1 =>
        simp only [hs, Option.some.injEq, Prod.mk.injEq] at hy
        obtain ⟨_, rfl⟩ := hy
        exact io_stop_disarms _ _ g hs
    · cases hq : retry_eintr y.sys y.errno with
      | none => simp [hq] at hy
      | some q =>
        obtain ⟨r1, e, rest⟩ := q
        simp only [hq] at hy
        cases hs : io_stop { y with errno := e, sys := rest } g with
        | none => simp [hs] at hy
        | some s1 =>
          simp only [hs, Option.some.injEq, Prod.mk.injEq] at hy
          obtain ⟨_, rfl⟩ := hy
          exact io_stop_disarms _ _ g hs
  have hsock : ∀ (y : fbr_context), (match io_stop y g with
      | none => none
      | some s1 =>
        if CALLED_BY_ROOT s1 then
          match sys_once s1.sys s1.errno with
          | none => none
          | some (nbytes, e, rest) => some (nbytes, { s1 with errno := e, sys := rest })
        else some (-1, { s1 with errno := EINTR })) = some (r, t) → io_disarmed t g := by
    intro y hy
    cases hs : io_stop y g with
    | none => simp [hs] at hy
    | some s1 =>
      have hd := io_stop_disarms _ _ g hs
      simp only [hs] at hy
      split_ifs at hy
      · cases hq : sys_once s1.sys s1.errno with
        | none => simp [hq] at hy
        | some q =>
          obtain ⟨r1, e, rest⟩ := q
          simp only [hq, Option.some.injEq, Prod.mk.injEq] at hy
          obtain ⟨_, rfl⟩ := hy
          exact hd
      · simp only [Option.some.injEq, Prod.mk.injEq] at hy
        obtain ⟨_, rfl⟩ := hy
        exact hd
  rcases h with h | h | h | h | h
  · exact hrw x h
  · exact hrw x h
  · exact hsock x h
  · exact hsock x h
  · unfold fbr_accept_resume at h
    split_ifs at h
    · cases hs : io_stop x g with
      | none => simp [hs] at h
      | some s1 =>
        have hd := io_stop_disarms _ _ g hs
        simp only [hs, Option.some.injEq, Prod.mk.injEq] at h
        obtain ⟨_, rfl⟩ := h
        exact hd
    · cases hq : retry_eintr x.sys x.errno with
      | none => simp [hq] at h
      | some q =>
        obtain ⟨r1, e, rest⟩ := q
        simp only [hq] at h
        cases hs : io_stop { x with errno := e, sys := rest } g with
        | none => simp [hs] at h
        | some s1 =>
          simp only [hs, Option.some.injEq, Prod.mk.injEq] at h
          obtain ⟨_, rfl⟩ := h
          exact io_stop_disarms _ _ g hs

theorem all_loop_head_return (x t : fbr_context) (g : Nat) (count done r : Int)
    (h : all_loop_head x g count done = some (io_outcome.returned r, t)) : io_disarmed t g := by
  unfold all_loop_head at h
  split_ifs at h
  · simp at h
  · cases hs : io_stop x g with
    | none => simp [hs] at h
    | some s1 =>
      simp only [hs, Option.some.injEq, Prod.mk.injEq] at h
      obtain ⟨_, rfl⟩ := h
      exact io_stop_disarms _ _ g hs

/-- Every return of `fbr_read_all` and `fbr_write_all` leaves the watcher
disarmed. -/
theorem all_return (x t : fbr_context) (g : Nat) (fd count done r : Int)
    (h : fbr_read_all_resume x g count done = some (io_outcome.returned r, t) ∨
      fbr_write_all_resume x g count done = some (io_outcome.returned r, t) ∨
      (g = CURRENT_FIBER x ∧
        (fbr_read_all_begin x fd count = some (io_outcome.returned r, t) ∨
         fbr_write_all_begin x fd count = some (io_outcome.returned r, t)))) :
    io_disarmed t g := by
  have hstop : ∀ (y : fbr_context) (v : Int),
      (match io_stop y g with
        | none => none
        | some s1 => some (io_outcome.returned v, s1)) = some (io_outcome.returned r, t) →
      io_disarmed t g := by
    intro y v hy
    cases hs : io_stop y g with
    | none => simp [hs] at hy
    | some s1 =>
      have hd := io_stop_disarms _ _ g hs
      simp only [hs, Option.some.injEq, Prod.mk.injEq] at hy
      obtain ⟨_, rfl⟩ := hy
      exact hd
  have hbegin : ∀ (events : Int), all_begin x fd events count = some (io_outcome.returned r, t) →
      g = CURRENT_FIBER x → io_disarmed t g := by
    intro events hb hg
    unfold all_begin at hb
    simp only [← hg] at hb
    cases hs : io_start x g fd events with
    | none => simp [hs] at hb
    | some s1 =>
      simp only [hs] at hb
      exact all_loop_head_return _ _ g count 0 r hb
  rcases h with h | h | ⟨hg, h | h⟩
  · unfold fbr_read_all_resume at h
    split_ifs at h
    · exact all_loop_head_return _ _ g count done r h
    · cases hq : all_inner x.sys x.errno with
      | none => simp [hq] at h
      | some q =>
        obtain ⟨st, e, rest⟩ := q
        cases st with
        | next => simp [hq] at h
        | error =>
          simp only [hq] at h
          exact hstop _ _ h
        | done v =>
          simp only [hq] at h
          split_ifs at h
          · exact hstop _ _ h
          · exact all_loop_head_return _ _ g count _ r h
  · unfold fbr_write_all_resume at h
    split_ifs at h
    · exact all_loop_head_return _ _ g count done r h
    · cases hq : all_inner x.sys x.errno with
      | none => simp [hq] at h
      | some q =>
        obtain ⟨st, e, rest⟩ := q
        cases st with
        | next => simp [hq] at h
        | error =>
          simp only [hq] at h
          exact hstop _ _ h
        | done v =>
          simp only [hq] at h
          exact all_loop_head_return _ _ g count _ r h
  · exact hbegin EV_READ h hg
  · exact hbegin EV_WRITE h hg

/-- C9 (as amended). Spurious wake of an I/O wrapper. Let the watcher of
`fiber` be armed (`w_io_expected = 1`) and `fiber` be resumed with a frame
below its own that is not the root (`CALLED_BY_ROOT` false). Then `fbr_read`,
`fbr_write`, `fbr_recvfrom`, `fbr_sendto` and `fbr_accept` make no system call,
disarm the watcher (`w_io_expected = 0`, watcher stopped) and return `-1` with
`errno = EINTR`; `fbr_read_all` and `fbr_write_all`, with `count ≠ done`, make
no system call either but do not return: they yield again and the watcher
stays expected. In every state, the first part of the five single-shot
wrappers, entered with the watcher idle, arms the watcher of the running fiber
and yields; and every return of any of the seven wrappers leaves the watcher
disarmed. -/
theorem io_wrapper_spurious_wake (s : fbr_context) (fiber : Nat) (count done : Int)
    (hexp : (s.fibers fiber).w_io_expected = 1) (hspur : CALLED_BY_ROOT s = false)
    (hcount : count ≠ done) :
    (io_interrupted s fiber (fbr_read_resume s fiber) ∧
     io_interrupted s fiber (fbr_write_resume s fiber) ∧
     io_interrupted s fiber (fbr_recvfrom_resume s fiber) ∧
     io_interrupted s fiber (fbr_sendto_resume s fiber) ∧
     io_interrupted s fiber (fbr_accept_resume s fiber)) ∧
    (fbr_read_all_resume s fiber count done = some (io_outcome.suspended done, fbr_yield s) ∧
     fbr_write_all_resume s fiber count done = some (io_outcome.suspended done, fbr_yield s) ∧
     ((fbr_yield s).fibers fiber).w_io_expected = 1 ∧ (fbr_yield s).sys = s.sys) ∧
    (∀ (x : fbr_context) (fd : Int), (x.fibers (CURRENT_FIBER x)).w_io_expected = 0 →
      io_armed_and_yielded x (fbr_read_begin x fd) ∧
      io_armed_and_yielded x (fbr_write_begin x fd) ∧
      io_armed_and_yielded x (fbr_recvfrom_begin x fd) ∧
      io_armed_and_yielded x (fbr_sendto_begin x fd) ∧
      io_armed_and_yielded x (fbr_accept_begin x fd)) ∧
    (∀ (x t : fbr_context) (g : Nat) (r : Int),
      (fbr_read_resume x g = some (r, t) ∨ fbr_write_resume x g = some (r, t) ∨
        fbr_recvfrom_resume x g = some (r, t) ∨ fbr_sendto_resume x g = some (r, t) ∨
        fbr_accept_resume x g = some (r, t)) → io_disarmed t g) ∧
    (∀ (x t : fbr_context) (g : Nat) (fd n d r : Int),
      (fbr_read_all_resume x g n d = some (io_outcome.returned r, t) ∨
        fbr_write_all_resume x g n d = some (io_outcome.returned r, t) ∨
        (g = CURRENT_FIBER x ∧
          (fbr_read_all_begin x fd n = some (io_outcome.returned r, t) ∨
           fbr_write_all_begin x fd n = some (io_outcome.returned r, t)))) →
      io_disarmed t g) := by
  refine ⟨single_shot_interrupted s fiber hexp hspur, ⟨?_, ?_, ?_, ?_⟩, ?_,
    fun x t g r h => single_shot_return x t g r h,
    fun x t g fd n d r h => all_return x t g fd n d r h⟩
  · simp [fbr_read_all_resume, hspur, all_loop_head, hcount]
  · simp [fbr_write_all_resume, hspur, all_loop_head, hcount]
  · rw [(fbr_yield_watch s fiber).1]
    exact hexp
  · exact (fbr_yield_watch s fiber).2.1
  · intro x fd hx
    exact ⟨io_wrapper_begin_arms x fd EV_READ hx, io_wrapper_begin_arms x fd EV_WRITE hx,
      io_wrapper_begin_arms x fd EV_READ hx, io_wrapper_begin_arms x fd EV_WRITE hx,
      io_wrapper_begin_arms x fd EV_READ hx⟩

/-- Counterexample to C9 as stated: fiber 5 is suspended in `fbr_read_all`
and is called by fiber 6. Resumed with `CALLED_BY_ROOT` false, `fbr_read_all`
does not return `-1`: it yields again, and the watcher of fiber 5 is still
expected and started. -/
theorem read_all_spurious_wake_not_interrupted :
    CALLED_BY_ROOT demo_spurious = false ∧
    demo_spurious.stack (demo_spurious.sp - 1) = 6 ∧
    CURRENT_FIBER demo_spurious = 5 ∧
    (demo_spurious.fibers 5).w_io_expected = 1 ∧
    fbr_read_all_resume demo_spurious 5 10 0 =
      some (io_outcome.suspended 0, fbr_yield demo_spurious) ∧
    ((fbr_yield demo_spurious).fibers 5).w_io_expected = 1 ∧
    ((fbr_yield demo_spurious).fibers 5).w_io.active = true :=
  ⟨rfl, rfl, rfl, rfl, rfl, rfl, rfl⟩

/-- Witness of C9: fiber 5, armed, is resumed by a call from fiber 6. -/
theorem io_wrapper_spurious_wake_witness :
    (demo_spurious.fibers 5).w_io_expected = 1 ∧ CALLED_BY_ROOT demo_spurious = false ∧
    (10 : Int) ≠ 0 ∧
    io_interrupted demo_spurious 5 (fbr_read_resume demo_spurious 5) ∧
    fbr_write_all_resume demo_spurious 5 10 0 =
      some (io_outcome.suspended 0, fbr_yield demo_spurious) :=
  ⟨rfl, rfl, by decide,
   (io_wrapper_spurious_wake demo_spurious 5 10 0 rfl rfl (by decide)).1.1,
   (io_wrapper_spurious_wake demo_spurious 5 10 0 rfl rfl (by decide)).2.1.2.1⟩

/-! ## Reading a line -/

theorem write_at_length (data : List Nat) :
    ∀ (mem : List Nat) (k : Nat), (write_at mem k data).length = mem.length := by
  induction data with
  | nil => intro mem k; rfl
  | cons d ds ih =>
    intro mem k
    simp only [write_at]
    rw [ih]
    simp

theorem write_at_eq (data : List Nat) :
    ∀ (mem : List Nat) (k : Nat), k + data.length ≤ mem.length →
      write_at mem k data = mem.take k ++ data ++ mem.drop (k + data.length) := by
  induction data with
  | nil =>
    intro mem k _
    simp [write_at]
  | cons d ds ih =>
    intro mem k h
    simp only [List.length_cons] at h
    simp only [write_at]
    rw [ih (mem.set k d) (k + 1) (by simp; omega)]
    have hk : k < mem.length := by omega
    rw [List.drop_set_of_lt d mem (by omega : k < k + 1 + ds.length)]
    have ht : (mem.set k d).take (k + 1) = mem.take k ++ [d] := by
      rw [List.set_eq_take_append_cons_drop, if_pos hk]
      rw [List.take_append_eq_append_take]
      simp [List.length_take, Nat.min_eq_left (Nat.le_of_lt hk)]
    rw [ht]
    simp only [List.length_cons, List.append_assoc, List.singleton_append]
    congr 3
    omega

/-- The loop of `fbr_readline` on a stream of bytes `bs` followed by the end
of the stream, entered with `k` bytes stored: it reads through the first
newline or to the end, stores while fewer than `n - 1` bytes are stored, and
discards the rest. -/
theorem fbr_readline_loop_spec (n : Nat) (tail : List read_event) (errno : Int)
    (bs : List Nat) :
    ∀ (cur : List Nat) (k : Nat),
      fbr_readline_loop n (bs.map read_event.byte ++ read_event.eof :: tail) cur k k errno =
        some { ret := ((k + ((line_of bs).take (n - 1 - k)).length : Nat) : Int),
               buffer := if 10 ∉ bs ∧ k + ((line_of bs).take (n - 1 - k)).length = 0 then cur
                         else write_at cur k ((line_of bs).take (n - 1 - k) ++ [0]),
               errno := errno,
               rest := if 10 ∈ bs then (after_line bs).map read_event.byte ++
                         read_event.eof :: tail
                       else tail } := by
  induction bs with
  | nil =>
    intro cur k
    by_cases hk : k = 0
    · subst hk
      simp [fbr_readline_loop, line_of]
    · simp [fbr_readline_loop, line_of, hk, write_at]
  | cons b bs ih =>
    intro cur k
    simp only [List.map_cons, List.cons_append, fbr_readline_loop, List.append_eq]
    by_cases hkeep : k < n - 1
    · have hpos : n - 1 - k = (n - 1 - (k + 1)) + 1 := by omega
      by_cases hb : b = 10
      · subst hb
        simp [hkeep, line_of, after_line, hpos, write_at]
      · have hne : ¬ (10 = b) := fun h => hb h.symm
        simp only [hkeep, decide_True, ↓reduceIte, hb, ih, line_of, List.mem_cons, hne,
          false_or, after_line]
        rw [hpos]
        simp only [List.take_succ_cons, List.length_cons, List.cons_append, write_at]
        have e1 : k + 1 + ((line_of bs).take (n - 1 - (k + 1))).length
            = k + (((line_of bs).take (n - 1 - (k + 1))).length + 1) := by omega
        rw [e1]
        simp
    · have hz : n - 1 - k = 0 := by omega
      by_cases hb : b = 10
      · subst hb
        simp [hkeep, line_of, after_line, hz, write_at]
      · have hne : ¬ (10 = b) := fun h => hb h.symm
        simp only [hkeep, decide_False, Bool.false_eq_true, ↓reduceIte, hb, ih, line_of,
          List.mem_cons, hne, false_or, after_line, hz, List.take_zero, List.length_nil,
          Nat.add_zero, List.nil_append]

/-- C10 (as amended). Stopping rule of `fbr_readline`. On a stream that gives
the bytes `bs` and then its end, with `n ≥ 1` and a buffer of at least `n`
bytes, `fbr_readline` reads one byte at a time through the first newline, or
to the end of the stream when `bs` has no newline: it does not stop after
`n - 1` bytes, the bytes read beyond the first `n - 1` are consumed and
discarded. It returns the count of bytes stored, which are the first `n - 1`
bytes read (`line_of bs` cut at `n - 1`), and the buffer holds them followed by
a NUL, the bytes after the NUL being as before; when it ends on the end of
the stream with no byte stored it returns 0 and leaves the buffer as it was,
with no NUL. With a `NULL` buffer or `n = 0` it returns `-1` with
`errno = EINVAL` and reads nothing. -/
theorem readline_reads_through_newline (n : Nat) (mem bs : List Nat)
    (tail : List read_event) (errno : Int) (hn : 0 < n) (hlen : n ≤ mem.length) :
    fbr_readline (bs.map read_event.byte ++ read_event.eof :: tail) (some mem) n errno =
      some { ret := ((((line_of bs).take (n - 1)).length : Nat) : Int),
             buffer := if 10 ∉ bs ∧ ((line_of bs).take (n - 1)).length = 0 then mem
                       else (line_of bs).take (n - 1) ++
                         0 :: mem.drop (((line_of bs).take (n - 1)).length + 1),
             errno := errno,
             rest := if 10 ∈ bs then (after_line bs).map read_event.byte ++
                       read_event.eof :: tail
                     else tail } ∧
    ((line_of bs).take (n - 1)).length = min (n - 1) (line_of bs).length ∧
    (∀ (stream : List read_event) (e : Int),
      fbr_readline stream none n e =
        some { ret := -1, buffer := [], errno := EINVAL, rest := stream }) ∧
    (∀ (stream : List read_event) (m : List Nat) (e : Int),
      fbr_readline stream (some m) 0 e =
        some { ret := -1, buffer := m, errno := EINVAL, rest := stream }) := by
  refine ⟨?_, List.length_take _ _, fun stream e => rfl, fun stream m e => rfl⟩
  have hn0 : ¬ n ≤ 0 := by omega
  simp only [fbr_readline, hn0, ↓reduceIte]
  rw [fbr_readline_loop_spec n tail errno bs mem 0]
  simp only [Nat.sub_zero, Nat.zero_add]
  have hl : ((line_of bs).take (n - 1)).length ≤ n - 1 := by
    rw [List.length_take]
    exact Nat.min_le_left _ _
  rw [write_at_eq _ mem 0 (by simp only [List.length_append, List.length_singleton]; omega)]
  simp

/-- Counterexample to C10 as stated: with `n = 2` and the stream `a b \n c`,
`fbr_readline` stores `a`, returns 1, and has consumed `a`, `b` and the newline
(only `c` is left in the stream): it did not stop after `n - 1 = 1` byte, and
the buffer does not hold the bytes consumed. And at an immediate end of the
stream it returns 0 and writes no NUL. -/
theorem readline_reads_past_buffer :
    fbr_readline [read_event.byte 97, read_event.byte 98, read_event.byte 10, read_event.byte 99]
        (some [0, 0]) 2 0 =
      some { ret := 1, buffer := [97, 0], errno := 0, rest := [read_event.byte 99] } ∧
    fbr_readline [read_event.eof] (some [7]) 1 0 =
      some { ret := 0, buffer := [7], errno := 0, rest := [] } := by
  constructor <;> rfl

/-- Witness of C10: a line of five bytes read into a buffer of four. -/
theorem readline_reads_through_newline_witness :
    (0 < 4) ∧ (4 ≤ [1, 1, 1, 1, 1].length) ∧
    fbr_readline ([104, 101, 108, 108, 10, 120].map read_event.byte ++ read_event.eof :: [])
        (some [1, 1, 1, 1, 1]) 4 0 =
      some { ret := 3, buffer := [104, 101, 108, 0, 1], errno := 0,
             rest := [read_event.byte 120, read_event.eof] } :=
  ⟨by decide, by decide,
   (readline_reads_through_newline 4 [1, 1, 1, 1, 1] [104, 101, 108, 108, 10, 120] [] 0
     (by decide) (by decide)).1.trans (by decide)⟩

/-! ## The invariant of the runs -/

/-- The fiber records after `coro_transfer`: the context of `src` is saved,
and the fiber of the top frame is prepared when the target starts
`call_wrapper`. -/
theorem coro_transfer_record (s : fbr_context) (src dst : Nat) (site : coro_context) (g : Nat) :
    (coro_transfer s src dst site).fibers g =
      if g = CURRENT_FIBER s ∧
          (if dst = src then saved_at (s.fibers dst) site else s.fibers dst).ctx
            = coro_context.entry then
        prepared (if g = src then saved_at (s.fibers g) site else s.fibers g)
      else (if g = src then saved_at (s.fibers g) site else s.fibers g) := by
  unfold coro_transfer
  simp only
  have hmid : ∀ x, (set_fiber s src { s.fibers src with ctx := site }).fibers x =
      if x = src then saved_at (s.fibers x) site else s.fibers x := by
    intro x
    simp only [set_fiber, saved_at]
    split_ifs with h
    · subst h; rfl
    · rfl
  split
  · rename_i hentry
    rw [hmid] at hentry
    simp only [hentry, and_true]
    have hp : ∀ (y : fbr_context) (a : Nat), (fiber_prepare y a).fibers g =
        if g = a then prepared (y.fibers a) else y.fibers g := by
      intro y a
      simp only [fiber_prepare, set_fiber, prepared]
    have hcur : CURRENT_FIBER { set_fiber s src { s.fibers src with ctx := site } with
        running := dst } = CURRENT_FIBER s := rfl
    rw [hp, hcur]
    split_ifs with h1 h2 h2
    · exact congrArg prepared (by rw [← h1]; exact (hmid g).trans (if_pos h2))
    · exact congrArg prepared (by rw [← h1]; exact (hmid g).trans (if_neg h2))
    · exact (hmid g).trans (if_pos h2)
    · exact (hmid g).trans (if_neg h2)
  · rename_i hv
    rw [hmid] at hv
    simp only [hv, reduceCtorEq, and_false, ↓reduceIte]
    exact hmid g
  · rename_i hne _
    rw [hmid] at hne
    have hne2 : ¬ (if dst = src then saved_at (s.fibers dst) site else s.fibers dst).ctx
        = coro_context.entry := hne
    simp only [hne2, and_false, ↓reduceIte]
    exact hmid g

theorem fiber_base_saved (f : fbr_fiber) (site : coro_context) (h : fiber_base f) :
    fiber_base (saved_at f site) := h

theorem fiber_fresh_saved (f : fbr_fiber) (site : coro_context)
    (h : site ≠ coro_context.entry) : fiber_fresh (saved_at f site) :=
  fun h1 => absurd h1 h

theorem fiber_prepared (f : fbr_fiber) (hc : f.ctx = coro_context.entry)
    (hf : fiber_fresh f) :
    fiber_base (prepared f) ∧ fiber_fresh (prepared f) := by
  obtain ⟨e1, e2⟩ := hf hc
  refine ⟨⟨?_, ?_, ?_, ?_⟩, fun _ => ⟨e1, e2⟩⟩
  · intro h; simp [prepared] at h
  · intro h; simp [prepared] at h
  · intro _
    refine ⟨fun h => ?_, fun h => ?_⟩
    · have : f.w_io_expected = 1 := h
      rw [e1] at this; exact absurd this (by decide)
    · have : f.w_timer_expected = 1 := h
      rw [e2] at this; exact absurd this (by decide)
  · intro h
    have : (0 : Int) = 1 := h
    exact absurd this (by decide)

theorem runs_inv_weaken (s : fbr_context) (hs : List Nat) (src src2 : Nat) (k k2 : Int)
    (h : runs_inv s hs src k) (hk : k2 ≤ k)
    (hsrc : ∀ g ∈ hs, g ≠ src2 → g = src → fiber_fresh (s.fibers g)) :
    runs_inv s hs src2 k2 := by
  obtain ⟨hA, hB, hC, hD, hE, hF⟩ := h
  refine ⟨hA, hB, hC, hD, fun g hg => ⟨(hE g hg).1, fun h2 => ?_⟩,
    fun g hg hfl i hi hik => hF g hg hfl i hi (le_trans hik hk)⟩
  by_cases h3 : g = src
  · exact hsrc g hg h2 h3
  · exact (hE g hg).2 h3

theorem runs_inv_transfer (x : fbr_context) (hs : List Nat) (src dst : Nat)
    (site : coro_context) (h : runs_inv x hs src x.sp)
    (hsite : site ≠ coro_context.entry) (hdst : dst = CURRENT_FIBER x) :
    runs_inv (coro_transfer x src dst site) hs ROOT (coro_transfer x src dst site).sp := by
  obtain ⟨hA, hB, hC, hD, hE, hF⟩ := h
  obtain ⟨hsp, h0, hroot, hfr⟩ := hA
  have hflag : ∀ g ∈ hs, (x.fibers g).reclaimed = 1 →
      ((coro_transfer x src dst site).fibers g).reclaimed = 1 := by
    intro g hg hfl
    rw [coro_transfer_record]
    have hcur : g ≠ CURRENT_FIBER x := fun e => hF g hg hfl x.sp hsp le_rfl e.symm
    rw [if_neg (fun hh => hcur hh.1)]
    split_ifs <;> exact hfl
  have hflag2 : ∀ g, ((coro_transfer x src dst site).fibers g).reclaimed = 1 →
      (x.fibers g).reclaimed = 1 := by
    intro g
    rw [coro_transfer_record]
    split_ifs <;> intro hfl <;>
      first
      | exact hfl
      | exact absurd (show (0 : Int) = 1 from hfl) (by decide)
  refine ⟨?_, ?_, ?_, ?_, ?_, ?_⟩
  · simp only [coro_transfer_sp, coro_transfer_stack]
    exact ⟨hsp, h0, hroot, hfr⟩
  · intro g hg c hc
    rw [coro_transfer_children] at hc
    exact hB g hg c hc
  · obtain ⟨rank, hr⟩ := hC
    refine ⟨rank, fun g hg c hc => ?_⟩
    rw [coro_transfer_children] at hc
    exact hr g hg c hc
  · simp only [coro_transfer_reclaimed]
    exact ⟨hD.1, fun y hy => ⟨(hD.2 y hy).1, hflag y (hD.2 y hy).1 (hD.2 y hy).2⟩⟩
  · intro g hg
    obtain ⟨hb, hf⟩ := hE g hg
    rw [coro_transfer_record]
    have hmb : fiber_base (if g = src then saved_at (x.fibers g) site else x.fibers g) := by
      split_ifs
      · exact fiber_base_saved _ _ hb
      · exact hb
    have hmf : fiber_fresh (if g = src then saved_at (x.fibers g) site else x.fibers g) := by
      split_ifs with h1
      · exact fiber_fresh_saved _ _ hsite
      · exact hf h1
    by_cases h1 : g = CURRENT_FIBER x ∧
        (if dst = src then saved_at (x.fibers dst) site else x.fibers dst).ctx
          = coro_context.entry
    · rw [if_pos h1]
      obtain ⟨h2, h3⟩ := h1
      have hgd : dst = g := hdst.trans h2.symm
      rw [hgd] at h3
      have := fiber_prepared _ h3 hmf
      exact ⟨this.1, fun _ => this.2⟩
    · rw [if_neg h1]
      exact ⟨hmb, fun _ => hmf⟩
  · intro g hg hfl i hi hik
    simp only [coro_transfer_sp] at hik
    simp only [coro_transfer_stack]
    exact hF g hg (hflag2 g hfl) i hi hik

theorem runs_inv_yield (s : fbr_context) (hs : List Nat)
    (h : runs_inv s hs (CURRENT_FIBER s) (s.sp - 1)) (hcur : CURRENT_FIBER s ≠ ROOT) :
    runs_inv (fbr_yield s) hs ROOT (fbr_yield s).sp := by
  obtain ⟨hA, hB, hC, hD, hE, hF⟩ := h
  obtain ⟨hsp, h0, hroot, hfr⟩ := hA
  have hpos : 0 < s.sp := by
    rcases lt_or_eq_of_le hsp with h1 | h1
    · exact h1
    · exfalso
      apply hcur
      unfold CURRENT_FIBER
      rw [← h1]
      exact h0
  unfold fbr_yield
  apply runs_inv_transfer
  · refine ⟨⟨?_, h0, hroot, fun i hi hik => hfr i hi ?_⟩, hB, hC, hD, hE, hF⟩
    · show 0 ≤ s.sp - 1
      omega
    · have : i ≤ s.sp - 1 := hik
      omega
  · decide
  · rfl

theorem runs_inv_keeps (s t : fbr_context) (hs : List Nat) (src : Nat)
    (h : runs_inv s hs src s.sp) (hk : keeps hs src s t) : runs_inv t hs src t.sp := by
  obtain ⟨hA, hB, hC, hD, hE, hF⟩ := h
  obtain ⟨k1, k2, k3, k4⟩ := hk
  refine ⟨?_, ?_, ?_, ?_, ?_, ?_⟩
  · rw [k1, k2]; exact hA
  · intro g hg c hc
    rw [(k4 g).1] at hc
    exact hB g hg c hc
  · obtain ⟨rank, hr⟩ := hC
    refine ⟨rank, fun g hg c hc => ?_⟩
    rw [(k4 g).1] at hc
    exact hr g hg c hc
  · rw [k3]
    exact ⟨hD.1, fun y hy => ⟨(hD.2 y hy).1, by rw [(k4 y).2.1]; exact (hD.2 y hy).2⟩⟩
  · intro g hg
    obtain ⟨hb, hf⟩ := hE g hg
    refine ⟨(k4 g).2.2.1 hg (fun hfl e => ?_) hb, fun h1 => (k4 g).2.2.2 hg h1 (hf h1)⟩
    exact hF g hg hfl s.sp hA.1 le_rfl e.symm
  · intro g hg hfl i hi hik
    rw [(k4 g).2.1] at hfl
    rw [k1]
    rw [k2] at hik
    exact hF g hg hfl i hi hik

theorem same_core_refl (s : fbr_context) : same_core s s := ⟨rfl, rfl, rfl, rfl⟩

theorem keeps_of_update (hs : List Nat) (src : Nat) (s t : fbr_context) (f : Nat)
    (r : fbr_fiber) (h1 : t.stack = s.stack) (h2 : t.sp = s.sp)
    (h3 : t.reclaimed = s.reclaimed)
    (h4 : ∀ g, t.fibers g = if g = f then r else s.fibers g)
    (hc : r.children = (s.fibers f).children) (hfl : r.reclaimed = (s.fibers f).reclaimed)
    (hb : f ∈ hs → ((s.fibers f).reclaimed = 1 → f ≠ CURRENT_FIBER s) →
      fiber_base (s.fibers f) → fiber_base r)
    (hf : f ∈ hs → f ≠ src → fiber_fresh (s.fibers f) → fiber_fresh r) :
    keeps hs src s t := by
  refine ⟨h1, h2, h3, fun g => ?_⟩
  rw [h4]
  by_cases hg : g = f
  · subst hg
    rw [if_pos rfl]
    exact ⟨hc, hfl, hb, hf⟩
  · rw [if_neg hg]
    exact ⟨rfl, rfl, fun _ _ h => h, fun _ _ h => h⟩

theorem keeps_core_left (hs : List Nat) (src : Nat) (s x t : fbr_context)
    (hx : same_core x s) (h : keeps hs src x t) : keeps hs src s t := by
  obtain ⟨x1, x2, x3, x4⟩ := hx
  unfold keeps CURRENT_FIBER at *
  rw [x1, x2, x3, x4] at h
  exact h

theorem keeps_of_same_core (hs : List Nat) (src : Nat) (s t : fbr_context)
    (h : same_core t s) : keeps hs src s t := by
  obtain ⟨h1, h2, h3, h4⟩ := h
  refine ⟨h2, h3, h4, fun g => ?_⟩
  rw [h1]
  exact ⟨rfl, rfl, fun _ _ h => h, fun _ _ h => h⟩

theorem keeps_trans (hs : List Nat) (src : Nat) (s t u : fbr_context)
    (h1 : keeps hs src s t) (h2 : keeps hs src t u) : keeps hs src s u := by
  obtain ⟨a1, a2, a3, a4⟩ := h1
  obtain ⟨b1, b2, b3, b4⟩ := h2
  refine ⟨b1.trans a1, b2.trans a2, b3.trans a3, fun g => ⟨?_, ?_, ?_, ?_⟩⟩
  · exact (b4 g).1.trans (a4 g).1
  · exact (b4 g).2.1.trans (a4 g).2.1
  · intro hg hF hb
    refine (b4 g).2.2.1 hg ?_ ((a4 g).2.2.1 hg hF hb)
    intro hfl
    rw [(a4 g).2.1] at hfl
    have : CURRENT_FIBER t = CURRENT_FIBER s := by
      unfold CURRENT_FIBER
      rw [a1, a2]
    rw [this]
    exact hF hfl
  · intro hg hsrc hf
    exact (b4 g).2.2.2 hg hsrc ((a4 g).2.2.2 hg hsrc hf)

theorem io_stop_eq (x t : fbr_context) (f : Nat) (h : io_stop x f = some t) :
    (x.fibers f).w_io_expected = 1 ∧
    t = set_fiber x f { x.fibers f with w_io_expected := 0,
                                        w_io := { (x.fibers f).w_io with active := false } } := by
  unfold io_stop at h
  simp only at h
  split_ifs at h with h1
  simp only [Option.some.injEq] at h
  exact ⟨not_not.mp h1, h.symm⟩

theorem io_start_eq (x t : fbr_context) (f : Nat) (fd events : Int)
    (h : io_start x f fd events = some t) :
    (x.fibers f).w_io_expected = 0 ∧
    t = set_fiber x f { x.fibers f with w_io := { active := true, fd := fd, events := events },
                                        w_io_expected := 1 } := by
  have h0 : (x.fibers f).w_io_expected = 0 := by
    unfold io_start at h
    simp only [set_fiber, ↓reduceIte] at h
    split_ifs at h with h1
    exact not_not.mp h1
  rw [io_start_idle x f fd events h0] at h
  simp only [Option.some.injEq] at h
  exact ⟨h0, h.symm⟩

theorem keeps_io_stop (hs : List Nat) (src : Nat) (s x t : fbr_context) (f : Nat)
    (hx : same_core x s) (h : io_stop x f = some t) : keeps hs src s t := by
  apply keeps_core_left hs src s x t hx
  obtain ⟨_, rfl⟩ := io_stop_eq x t f h
  refine keeps_of_update hs src x _ f
    { x.fibers f with w_io_expected := 0,
                      w_io := { (x.fibers f).w_io with active := false } }
    rfl rfl rfl (fun g => rfl) rfl rfl ?_ ?_
  · intro _ _ hb
    obtain ⟨b1, b2, b3, b4⟩ := hb
    refine ⟨fun h => ?_, b2, fun h => ⟨fun h5 => ?_, (b3 h).2⟩, fun h => ⟨rfl, (b4 h).2⟩⟩
    · simp at h
    · exact absurd (show (0 : Int) = 1 from h5) (by decide)
  · intro _ _ hf hctx
    exact ⟨rfl, (hf hctx).2⟩

theorem keeps_timer_stop (hs : List Nat) (src : Nat) (s : fbr_context) (f : Nat) :
    keeps hs src s (timer_stop s f) := by
  refine keeps_of_update hs src s _ f _ rfl rfl rfl (fun g => rfl) rfl rfl ?_ ?_
  · intro _ _ hb
    obtain ⟨b1, b2, b3, b4⟩ := hb
    refine ⟨b1, fun h => ?_, fun h => ⟨(b3 h).1, fun h5 => ?_⟩, fun h => ⟨(b4 h).1, rfl, (b4 h).2.2⟩⟩
    · simp at h
    · exact absurd (show (0 : Int) = 1 from h5) (by decide)
  · intro _ _ hf hctx
    exact ⟨(hf hctx).1, rfl⟩

theorem keeps_io_start (hs : List Nat) (s t : fbr_context) (fd events : Int)
    (h : io_start s (CURRENT_FIBER s) fd events = some t) :
    keeps hs (CURRENT_FIBER s) s t := by
  obtain ⟨_, rfl⟩ := io_start_eq s t _ fd events h
  refine keeps_of_update hs _ s _ (CURRENT_FIBER s) _ rfl rfl rfl (fun g => rfl) rfl rfl ?_ ?_
  · intro _ hF hb
    obtain ⟨b1, b2, b3, b4⟩ := hb
    refine ⟨fun _ => rfl, b2, fun h => ⟨fun _ => rfl, (b3 h).2⟩, fun h => absurd rfl (hF h)⟩
  · intro _ h
    exact absurd rfl h

theorem keeps_timer_start (hs : List Nat) (s : fbr_context) :
    keeps hs (CURRENT_FIBER s) s (timer_start s (CURRENT_FIBER s)) := by
  refine keeps_of_update hs _ s _ (CURRENT_FIBER s) _ rfl rfl rfl (fun g => rfl) rfl rfl ?_ ?_
  · intro _ hF hb
    obtain ⟨b1, b2, b3, b4⟩ := hb
    refine ⟨b1, fun _ => rfl, fun h => ⟨(b3 h).1, fun _ => rfl⟩, fun h => absurd rfl (hF h)⟩
  · intro _ h
    exact absurd rfl h

theorem keeps_allocate (hs : List Nat) (src : Nat) (s t : fbr_context) (p ptr : Nat)
    (h : allocate_in_fiber s (CURRENT_FIBER s) p = some (ptr, t)) : keeps hs src s t := by
  unfold allocate_in_fiber at h
  simp only at h
  split_ifs at h
  simp only [Option.some.injEq, Prod.mk.injEq] at h
  obtain ⟨_, rfl⟩ := h
  refine keeps_of_update hs _ s _ (CURRENT_FIBER s) _ rfl rfl rfl (fun g => rfl) rfl rfl ?_ ?_
  · intro _ hF hb
    obtain ⟨b1, b2, b3, b4⟩ := hb
    exact ⟨b1, b2, b3, fun h => absurd rfl (hF h)⟩
  · intro _ _ hf
    exact hf

theorem keeps_free_in_fiber (hs : List Nat) (src : Nat) (s t : fbr_context) (f ptr : Nat)
    (h : fbr_free_in_fiber s f ptr = some t) : keeps hs src s t := by
  unfold fbr_free_in_fiber at h
  simp only at h
  split_ifs at h with h0
  · simp only [Option.some.injEq] at h
    subst h
    exact keeps_of_same_core hs src s s (same_core_refl s)
  · cases hfind : (s.fibers f).pool.find? (fun e => e.addr + 1 == ptr) with
    | none => simp [hfind] at h
    | some e =>
      simp only [hfind] at h
      split_ifs at h with h1
      have hk : keeps hs src s (set_fiber s f { s.fibers f with
          pool := (s.fibers f).pool.eraseP (fun e => e.addr + 1 == ptr) }) := by
        refine keeps_of_update hs _ s _ f _ rfl rfl rfl (fun g => rfl) rfl rfl ?_ ?_
        · intro _ _ hb
          obtain ⟨b1, b2, b3, b4⟩ := hb
          refine ⟨b1, b2, b3, fun h => ⟨(b4 h).1, (b4 h).2.1, ?_⟩⟩
          show (s.fibers f).pool.eraseP _ = []
          rw [(b4 h).2.2]
          rfl
        · intro _ _ hf
          exact hf
      cases hd : e.destructor with
      | none =>
        simp only [hd, Option.some.injEq] at h
        subst h
        exact hk
      | some d =>
        simp only [hd, Option.some.injEq] at h
        subst h
        exact keeps_trans hs src s _ _ hk (keeps_of_same_core hs src _ _ ⟨rfl, rfl, rfl, rfl⟩)

theorem keeps_set_destructor (hs : List Nat) (src : Nat) (s : fbr_context) (ptr : Nat)
    (func : Option Nat) (context : Nat) :
    keeps hs src s (fbr_alloc_set_destructor s ptr func context) := by
  refine ⟨rfl, rfl, rfl, fun g => ⟨rfl, rfl, ?_, ?_⟩⟩
  · intro _ _ hb
    obtain ⟨b1, b2, b3, b4⟩ := hb
    refine ⟨b1, b2, b3, fun h => ⟨(b4 h).1, (b4 h).2.1, ?_⟩⟩
    show (s.fibers g).pool.map _ = []
    rw [(b4 h).2.2]
    rfl
  · intro _ _ hf
    exact hf

theorem runs_inv_begin (s x : fbr_context) (hs : List Nat)
    (h : runs_inv s hs ROOT s.sp) (hk : keeps hs (CURRENT_FIBER s) s x)
    (hcur : CURRENT_FIBER s ≠ ROOT) : runs_inv (fbr_yield x) hs ROOT (fbr_yield x).sp := by
  have hc : CURRENT_FIBER x = CURRENT_FIBER s := by
    unfold CURRENT_FIBER
    rw [hk.1, hk.2.1]
  have h1 : runs_inv s hs (CURRENT_FIBER s) s.sp :=
    runs_inv_weaken s hs ROOT _ _ _ h le_rfl (fun g hg _ e => absurd (e ▸ hg) h.1.2.2.1)
  have h2 := runs_inv_keeps s x hs _ h1 hk
  apply runs_inv_yield
  · rw [hc]
    exact runs_inv_weaken x hs _ _ _ _ h2 (by omega) (fun g _ h3 h4 => absurd h4 h3)
  · rw [hc]; exact hcur

theorem step_io_wrapper_begin (s t : fbr_context) (hs : List Nat) (fd events : Int)
    (h : runs_inv s hs ROOT s.sp) (hcur : CURRENT_FIBER s ≠ ROOT)
    (hstep : io_wrapper_begin s fd events = some t) : runs_inv t hs ROOT t.sp := by
  unfold io_wrapper_begin at hstep
  simp only at hstep
  cases hio : io_start s (CURRENT_FIBER s) fd events with
  | none => simp [hio] at hstep
  | some s1 =>
    simp only [hio, Option.some.injEq] at hstep
    subst hstep
    exact runs_inv_begin s s1 hs h (keeps_io_start hs s s1 fd events hio) hcur

theorem step_sleep_begin (s : fbr_context) (hs : List Nat)
    (h : runs_inv s hs ROOT s.sp) (hcur : CURRENT_FIBER s ≠ ROOT) :
    runs_inv (fbr_sleep_begin s) hs ROOT (fbr_sleep_begin s).sp :=
  runs_inv_begin s _ hs h (keeps_timer_start hs s) hcur

theorem step_keeps (s t : fbr_context) (hs : List Nat)
    (h : runs_inv s hs ROOT s.sp) (hk : keeps hs ROOT s t) : runs_inv t hs ROOT t.sp :=
  runs_inv_keeps s t hs ROOT h hk

theorem keeps_single_resume (hs : List Nat) (src : Nat) (s t : fbr_context) (f : Nat) (r : Int)
    (h : fbr_read_resume s f = some (r, t) ∨ fbr_write_resume s f = some (r, t) ∨
      fbr_recvfrom_resume s f = some (r, t) ∨ fbr_sendto_resume s f = some (r, t) ∨
      fbr_accept_resume s f = some (r, t)) : keeps hs src s t := by
  have hread : ∀ (res : Option (Int × fbr_context)),
      res = (if !CALLED_BY_ROOT s then
        match io_stop { s with errno := EINTR } f with
        | none => none
        | some s1 => some (-1, s1)
      else
        match retry_eintr s.sys s.errno with
        | none => none
        | some (r, e, rest) =>
          match io_stop { s with errno := e, sys := rest } f with
          | none => none
          | some s1 => some (r, s1)) → res = some (r, t) → keeps hs src s t := by
    intro res hres h
    rw [hres] at h
    split_ifs at h
    · cases hio : io_stop { s with errno := EINTR } f with
      | none => simp [hio] at h
      | some s1 =>
        simp only [hio, Option.some.injEq, Prod.mk.injEq] at h
        obtain ⟨_, rfl⟩ := h
        exact keeps_io_stop hs src s _ _ f (by exact ⟨rfl, rfl, rfl, rfl⟩) hio
    · cases hsys : retry_eintr s.sys s.errno with
      | none => simp [hsys] at h
      | some v =>
        obtain ⟨r1, e, rest⟩ := v
        simp only [hsys] at h
        cases hio : io_stop { s with errno := e, sys := rest } f with
        | none => simp [hio] at h
        | some s1 =>
          simp only [hio, Option.some.injEq, Prod.mk.injEq] at h
          obtain ⟨_, rfl⟩ := h
          exact keeps_io_stop hs src s _ _ f (by exact ⟨rfl, rfl, rfl, rfl⟩) hio
  have hrecv : ∀ (res : Option (Int × fbr_context)),
      res = (match io_stop s f with
        | none => none
        | some s1 =>
          if CALLED_BY_ROOT s1 then
            match sys_once s1.sys s1.errno with
            | none => none
            | some (nbytes, e, rest) => some (nbytes, { s1 with errno := e, sys := rest })
          else some (-1, { s1 with errno := EINTR })) → res = some (r, t) →
        keeps hs src s t := by
    intro res hres h
    rw [hres] at h
    cases hio : io_stop s f with
    | none => simp [hio] at h
    | some s1 =>
      simp only [hio] at h
      have hk := keeps_io_stop hs src s s s1 f (same_core_refl s) hio
      split_ifs at h
      · cases hsys : sys_once s1.sys s1.errno with
        | none => simp [hsys] at h
        | some v =>
          obtain ⟨r1, e, rest⟩ := v
          simp only [hsys, Option.some.injEq, Prod.mk.injEq] at h
          obtain ⟨_, rfl⟩ := h
          exact keeps_trans hs src s s1 _ hk (keeps_of_same_core hs src _ _ ⟨rfl, rfl, rfl, rfl⟩)
      · simp only [Option.some.injEq, Prod.mk.injEq] at h
        obtain ⟨_, rfl⟩ := h
        exact keeps_trans hs src s s1 _ hk (keeps_of_same_core hs src _ _ ⟨rfl, rfl, rfl, rfl⟩)
  rcases h with h | h | h | h | h
  · exact hread _ rfl h
  · exact hread _ rfl h
  · exact hrecv _ rfl h
  · exact hrecv _ rfl h
  · unfold fbr_accept_resume at h
    split_ifs at h
    · cases hio : io_stop s f with
      | none => simp [hio] at h
      | some s1 =>
        simp only [hio, Option.some.injEq, Prod.mk.injEq] at h
        obtain ⟨_, rfl⟩ := h
        exact keeps_trans hs src s s1 _ (keeps_io_stop hs src s s s1 f (same_core_refl s) hio)
          (keeps_of_same_core hs src _ _ ⟨rfl, rfl, rfl, rfl⟩)
    · cases hsys : retry_eintr s.sys s.errno with
      | none => simp [hsys] at h
      | some v =>
        obtain ⟨r1, e, rest⟩ := v
        simp only [hsys] at h
        cases hio : io_stop { s with errno := e, sys := rest } f with
        | none => simp [hio] at h
        | some s1 =>
          simp only [hio, Option.some.injEq, Prod.mk.injEq] at h
          obtain ⟨_, rfl⟩ := h
          exact keeps_io_stop hs src s _ _ f (by exact ⟨rfl, rfl, rfl, rfl⟩) hio

theorem runs_inv_root_src (s : fbr_context) (hs : List Nat) (src : Nat) (k : Int)
    (h : runs_inv s hs ROOT k) : runs_inv s hs src k :=
  runs_inv_weaken s hs ROOT src k k h le_rfl (fun _ hg _ e => absurd (e ▸ hg) h.1.2.2.1)

theorem step_yield (s : fbr_context) (hs : List Nat) (h : runs_inv s hs ROOT s.sp)
    (hcur : CURRENT_FIBER s ≠ ROOT) : runs_inv (fbr_yield s) hs ROOT (fbr_yield s).sp :=
  runs_inv_yield s hs
    (runs_inv_weaken s hs ROOT _ s.sp (s.sp - 1) h (by omega)
      (fun g hg _ e => absurd (e ▸ hg) h.1.2.2.1)) hcur

theorem step_all_loop_head (x t : fbr_context) (hs : List Nat) (count done : Int)
    (o : io_outcome) (h : runs_inv x hs (CURRENT_FIBER x) x.sp)
    (hcur : CURRENT_FIBER x ≠ ROOT)
    (htim : CURRENT_FIBER x ∈ hs → (x.fibers (CURRENT_FIBER x)).ctx = coro_context.entry →
      (x.fibers (CURRENT_FIBER x)).w_timer_expected = 0)
    (hstep : all_loop_head x (CURRENT_FIBER x) count done = some (o, t)) :
    runs_inv t hs ROOT t.sp := by
  unfold all_loop_head at hstep
  split_ifs at hstep
  · simp only [Option.some.injEq, Prod.mk.injEq] at hstep
    obtain ⟨_, rfl⟩ := hstep
    exact runs_inv_yield x hs
      (runs_inv_weaken x hs _ _ _ _ h (by omega) (fun g _ h3 h4 => absurd h4 h3)) hcur
  · cases hio : io_stop x (CURRENT_FIBER x) with
    | none => simp [hio] at hstep
    | some s1 =>
      simp only [hio, Option.some.injEq, Prod.mk.injEq] at hstep
      obtain ⟨_, rfl⟩ := hstep
      have hk := keeps_io_stop hs (CURRENT_FIBER x) x x s1 _ (same_core_refl x) hio
      have h2 := runs_inv_keeps x s1 hs _ h hk
      refine runs_inv_weaken s1 hs _ ROOT _ _ h2 le_rfl (fun g hg _ e => ?_)
      subst e
      obtain ⟨_, rfl⟩ := io_stop_eq x s1 _ hio
      intro hctx
      simp only [set_fiber, ↓reduceIte] at hctx ⊢
      exact ⟨trivial, htim hg hctx⟩

theorem step_all_begin (s t : fbr_context) (hs : List Nat) (fd events count : Int)
    (o : io_outcome) (h : runs_inv s hs ROOT s.sp) (hcur : CURRENT_FIBER s ≠ ROOT)
    (hstep : all_begin s fd events count = some (o, t)) : runs_inv t hs ROOT t.sp := by
  unfold all_begin at hstep
  simp only at hstep
  cases hio : io_start s (CURRENT_FIBER s) fd events with
  | none => simp [hio] at hstep
  | some s1 =>
    simp only [hio] at hstep
    have hk := keeps_io_start hs s s1 fd events hio
    have h2 := runs_inv_keeps s s1 hs _ (runs_inv_root_src s hs _ _ h) hk
    obtain ⟨_, e1⟩ := io_start_eq s s1 _ fd events hio
    have hc : CURRENT_FIBER s1 = CURRENT_FIBER s := by rw [e1]; rfl
    rw [← hc] at hstep
    refine step_all_loop_head s1 t hs count 0 o (hc ▸ h2) (hc ▸ hcur) ?_ hstep
    rw [hc]
    intro hg hctx
    have hf := (h.2.2.2.2.1 _ hg).2 hcur
    rw [e1] at hctx ⊢
    simp only [set_fiber, ↓reduceIte] at hctx ⊢
    exact (hf hctx).2

theorem runs_inv_core (s x : fbr_context) (hs : List Nat) (src : Nat)
    (hx : same_core x s) (h : runs_inv s hs src s.sp) : runs_inv x hs src x.sp :=
  runs_inv_keeps s x hs src h (keeps_of_same_core hs src s x hx)

theorem step_all_resume (s t : fbr_context) (hs : List Nat) (count done : Int)
    (o : io_outcome) (h : runs_inv s hs ROOT s.sp) (hcur : CURRENT_FIBER s ≠ ROOT)
    (hstep : fbr_read_all_resume s (CURRENT_FIBER s) count done = some (o, t) ∨
      fbr_write_all_resume s (CURRENT_FIBER s) count done = some (o, t)) :
    runs_inv t hs ROOT t.sp := by
  have hhead : ∀ (x : fbr_context) (d : Int), same_core x s →
      all_loop_head x (CURRENT_FIBER s) count d = some (o, t) → runs_inv t hs ROOT t.sp := by
    intro x d hx hl
    have hc : CURRENT_FIBER x = CURRENT_FIBER s := by
      unfold CURRENT_FIBER
      rw [hx.2.1, hx.2.2.1]
    rw [← hc] at hl
    refine step_all_loop_head x t hs count d o
      (runs_inv_root_src x hs _ _ (runs_inv_core s x hs ROOT hx h)) (hc ▸ hcur) ?_ hl
    rw [hc, hx.1]
    intro hg hctx
    exact ((h.2.2.2.2.1 _ hg).2 hcur hctx).2
  have hyield : ∀ (x : fbr_context), same_core x s →
      runs_inv (fbr_yield x) hs ROOT (fbr_yield x).sp := by
    intro x hx
    have hc : CURRENT_FIBER x = CURRENT_FIBER s := by
      unfold CURRENT_FIBER
      rw [hx.2.1, hx.2.2.1]
    exact step_yield x hs (runs_inv_core s x hs ROOT hx h) (hc ▸ hcur)
  have hstop : ∀ (x u : fbr_context), same_core x s →
      io_stop x (CURRENT_FIBER s) = some u → runs_inv u hs ROOT u.sp :=
    fun x u hx hio => step_keeps s u hs h (keeps_io_stop hs ROOT s x u _ hx hio)
  rcases hstep with hstep | hstep
  · unfold fbr_read_all_resume at hstep
    split_ifs at hstep
    · exact hhead s done (same_core_refl s) hstep
    · cases hsys : all_inner s.sys s.errno with
      | none => simp [hsys] at hstep
      | some v =>
        obtain ⟨st, e, rest⟩ := v
        cases st with
        | next =>
          simp only [hsys, Option.some.injEq, Prod.mk.injEq] at hstep
          obtain ⟨_, rfl⟩ := hstep
          exact hyield _ ⟨rfl, rfl, rfl, rfl⟩
        | error =>
          simp only [hsys] at hstep
          cases hio : io_stop { s with errno := e, sys := rest } (CURRENT_FIBER s) with
          | none => simp [hio] at hstep
          | some s1 =>
            simp only [hio, Option.some.injEq, Prod.mk.injEq] at hstep
            obtain ⟨_, rfl⟩ := hstep
            exact hstop _ _ (by exact ⟨rfl, rfl, rfl, rfl⟩) hio
        | done r =>
          simp only [hsys] at hstep
          split_ifs at hstep
          · cases hio : io_stop { s with errno := e, sys := rest } (CURRENT_FIBER s) with
            | none => simp [hio] at hstep
            | some s1 =>
              simp only [hio, Option.some.injEq, Prod.mk.injEq] at hstep
              obtain ⟨_, rfl⟩ := hstep
              exact hstop _ _ (by exact ⟨rfl, rfl, rfl, rfl⟩) hio
          · exact hhead _ _ (by exact ⟨rfl, rfl, rfl, rfl⟩) hstep
  · unfold fbr_write_all_resume at hstep
    split_ifs at hstep
    · exact hhead s done (same_core_refl s) hstep
    · cases hsys : all_inner s.sys s.errno with
      | none => simp [hsys] at hstep
      | some v =>
        obtain ⟨st, e, rest⟩ := v
        cases st with
        | next =>
          simp only [hsys, Option.some.injEq, Prod.mk.injEq] at hstep
          obtain ⟨_, rfl⟩ := hstep
          exact hyield _ ⟨rfl, rfl, rfl, rfl⟩
        | error =>
          simp only [hsys] at hstep
          cases hio : io_stop { s with errno := e, sys := rest } (CURRENT_FIBER s) with
          | none => simp [hio] at hstep
          | some s1 =>
            simp only [hio, Option.some.injEq, Prod.mk.injEq] at hstep
            obtain ⟨_, rfl⟩ := hstep
            exact hstop _ _ (by exact ⟨rfl, rfl, rfl, rfl⟩) hio
        | done r =>
          simp only [hsys] at hstep
          exact hhead _ _ (by exact ⟨rfl, rfl, rfl, rfl⟩) hstep

theorem runs_inv_push (s : fbr_context) (hs : List Nat) (callee src : Nat)
    (h : runs_inv s hs ROOT s.sp) (hc : callee ∈ hs)
    (hfl : (s.fibers callee).reclaimed ≠ 1) :
    runs_inv { s with sp := s.sp + 1,
                      stack := fun x => if x = s.sp + 1 then callee else s.stack x }
      hs src (s.sp + 1) := by
  obtain ⟨⟨hsp, h0, hroot, hfr⟩, hB, hC, hD, hE, hF⟩ := h
  refine ⟨⟨?_, ?_, hroot, ?_⟩, hB, hC, hD, ?_, ?_⟩
  · show 0 ≤ s.sp + 1
    omega
  · show (if (0 : Int) = s.sp + 1 then callee else s.stack 0) = ROOT
    rw [if_neg (by omega)]
    exact h0
  · intro i hi hik
    show (if i = s.sp + 1 then callee else s.stack i) ∈ hs
    have hik2 : i ≤ s.sp + 1 := hik
    split_ifs with h1
    · exact hc
    · exact hfr i hi (by omega)
  · intro g hg
    refine ⟨(hE g hg).1, fun _ => (hE g hg).2 (fun e => hroot (e ▸ hg))⟩
  · intro g hg hfl2 i hi hik
    show (if i = s.sp + 1 then callee else s.stack i) ≠ g
    split_ifs with h1
    · intro e
      rw [← e] at hfl2
      exact hfl hfl2
    · exact hF g hg hfl2 i hi (by omega)

theorem step_vcall (M : Int) (s : fbr_context) (hs : List Nat) (callee : Nat)
    (leave_info argnum : Int) (ap : List fbr_fiber_arg) (p : Nat) (o : call_outcome)
    (t : fbr_context) (h : runs_inv s hs ROOT s.sp) (hc : callee ∈ hs)
    (hstep : fbr_vcall M s callee leave_info argnum ap p = some (o, t)) :
    runs_inv t hs ROOT t.sp := by
  unfold fbr_vcall at hstep
  simp only at hstep
  split_ifs at hstep with h1 h2 h3
  · simp only [Option.some.injEq, Prod.mk.injEq] at hstep
    obtain ⟨_, rfl⟩ := hstep
    exact runs_inv_core s _ hs ROOT ⟨rfl, rfl, rfl, rfl⟩ h
  · simp only [Option.some.injEq, Prod.mk.injEq] at hstep
    obtain ⟨_, rfl⟩ := hstep
    exact runs_inv_core s _ hs ROOT ⟨rfl, rfl, rfl, rfl⟩ h
  · simp only [Option.some.injEq, Prod.mk.injEq] at hstep
    obtain ⟨_, rfl⟩ := hstep
    apply runs_inv_transfer _ hs _ _ _ (runs_inv_push s hs callee _ h hc h2) (by decide)
    simp [CURRENT_FIBER]
  · have hp := runs_inv_push s hs callee (s.stack s.sp) h hc h2
    obtain ⟨x, hx⟩ : ∃ x : fbr_context, x =
        { s with sp := s.sp + 1
                 stack := fun x => if x = s.sp + 1 then callee else s.stack x } := ⟨_, rfl⟩
    have hcur : CURRENT_FIBER x = callee := by
      rw [hx]
      simp [CURRENT_FIBER]
    have hsp : x.sp = s.sp + 1 := by rw [hx]
    rw [← hx] at hstep hp
    rw [← hsp] at hp
    cases ha : fbr_alloc x p with
    | none => simp [ha] at hstep
    | some v =>
      obtain ⟨info, s3⟩ := v
      simp only [ha, Option.some.injEq, Prod.mk.injEq] at hstep
      obtain ⟨_, rfl⟩ := hstep
      have hk3 := keeps_allocate hs (s.stack s.sp) _ s3 p info ha
      have hk4 : keeps hs (s.stack s.sp) s3 (set_fiber s3 callee
          { s3.fibers callee with
            call_list := (s3.fibers callee).call_list ++
              [{ addr := info, caller := s.stack s.sp, argc := argnum,
                 argv := ap.take argnum.toNat }],
            call_list_size := (s3.fibers callee).call_list_size + 1 }) :=
        keeps_of_update hs _ s3 _ callee _ rfl rfl rfl (fun g => rfl) rfl rfl
          (fun _ _ hb => hb) (fun _ _ hf => hf)
      have h4 := runs_inv_keeps _ _ hs _ hp (keeps_trans hs _ _ _ _ hk3 hk4)
      apply runs_inv_transfer _ hs _ _ _ h4 (by decide)
      have e3 : s3.stack = x.stack := hk3.1
      have e4 : s3.sp = x.sp := hk3.2.1
      rw [← hcur]
      simp only [CURRENT_FIBER, set_fiber, e3, e4]

theorem runs_inv_create_aux (s t : fbr_context) (hs : List Nat) (x : Nat)
    (h : runs_inv s hs ROOT s.sp) (hst : t.stack = s.stack) (hsp : t.sp = s.sp)
    (hxr : x ≠ ROOT)
    (hpool : (x ∉ hs ∧ s.reclaimed = [] ∧ t.reclaimed = [] ∧
        (t.fibers x).w_io.active = false ∧ (t.fibers x).w_timer.active = false) ∨
      (s.reclaimed = x :: t.reclaimed ∧ (t.fibers x).w_io = (s.fibers x).w_io ∧
        (t.fibers x).w_timer = (s.fibers x).w_timer))
    (hc : (t.fibers x).children = []) (hfl : (t.fibers x).reclaimed = 0)
    (he1 : (t.fibers x).w_io_expected = 0) (he2 : (t.fibers x).w_timer_expected = 0)
    (hoth : ∀ g, g ≠ x → t.fibers g =
      if g = CURRENT_FIBER s then { s.fibers g with children := x :: (s.fibers g).children }
      else s.fibers g) :
    runs_inv t (x :: hs) ROOT t.sp := by
  obtain ⟨⟨hsp0, h0, hroot, hfr⟩, hB, hC, hD, hE, hF⟩ := h
  have hchild : ∀ g, g ≠ x → ∀ c ∈ (t.fibers g).children, c = x ∨ c ∈ (s.fibers g).children := by
    intro g hg c hcm
    rw [hoth g hg] at hcm
    split_ifs at hcm
    · rcases List.mem_cons.mp hcm with e | e
      · exact Or.inl e
      · exact Or.inr e
    · exact Or.inr hcm
  have hflag : ∀ g, g ≠ x → (t.fibers g).reclaimed = (s.fibers g).reclaimed := by
    intro g hg
    rw [hoth g hg]
    split_ifs <;> rfl
  have hbase : ∀ g, g ≠ x → fiber_base (s.fibers g) → fiber_base (t.fibers g) := by
    intro g hg hb
    rw [hoth g hg]
    split_ifs
    · exact hb
    · exact hb
  have hfresh : ∀ g, g ≠ x → fiber_fresh (s.fibers g) → fiber_fresh (t.fibers g) := by
    intro g hg hb
    rw [hoth g hg]
    split_ifs
    · exact hb
    · exact hb
  have hmem : ∀ g, g ≠ x → (g = ROOT ∨ g ∈ x :: hs) → (g = ROOT ∨ g ∈ hs) := by
    intro g hg hm
    rcases hm with e | e
    · exact Or.inl e
    · rcases List.mem_cons.mp e with e2 | e2
      · exact absurd e2 hg
      · exact Or.inr e2
  refine ⟨⟨?_, ?_, ?_, ?_⟩, ?_, ?_, ?_, ?_, ?_⟩
  · rw [hsp]; exact hsp0
  · rw [hst]; exact h0
  · intro hm
    rcases List.mem_cons.mp hm with e | e
    · exact hxr e.symm
    · exact hroot e
  · intro i hi hik
    rw [hst]
    rw [hsp] at hik
    exact List.mem_cons_of_mem _ (hfr i hi hik)
  · intro g hg c hcm
    by_cases hgx : g = x
    · rw [hgx, hc] at hcm
      exact absurd hcm (List.not_mem_nil c)
    · rcases hchild g hgx c hcm with e | e
      · rw [e]; exact List.mem_cons_self _ _
      · exact List.mem_cons_of_mem _ (hB g (hmem g hgx hg) c e)
  · obtain ⟨rank, hr⟩ := hC
    refine ⟨fun g => if g = x then 0 else rank g + 1, fun g hg c hcm => ?_⟩
    by_cases hgx : g = x
    · rw [hgx, hc] at hcm
      exact absurd hcm (List.not_mem_nil c)
    · simp only [hgx, ↓reduceIte]
      rcases hchild g hgx c hcm with e | e
      · simp [e]
      · have := hr g (hmem g hgx hg) c e
        split_ifs <;> omega
  · rcases hpool with ⟨_, e1, e2, _⟩ | ⟨e1, _⟩
    · rw [e2]
      exact ⟨List.nodup_nil, fun y hy => absurd hy (List.not_mem_nil y)⟩
    · rw [e1] at hD
      have hnd := List.nodup_cons.mp hD.1
      refine ⟨hnd.2, fun y hy => ?_⟩
      have hyx : y ≠ x := fun e => hnd.1 (e ▸ hy)
      have := hD.2 y (List.mem_cons_of_mem _ hy)
      exact ⟨List.mem_cons_of_mem _ this.1, by rw [hflag y hyx]; exact this.2⟩
  · intro g hg
    by_cases hgx : g = x
    · rw [hgx]
      have hact : (t.fibers x).w_io.active = false ∧ (t.fibers x).w_timer.active = false := by
        rcases hpool with ⟨_, _, _, a1, a2⟩ | ⟨e1, a1, a2⟩
        · exact ⟨a1, a2⟩
        · have hx : x ∈ s.reclaimed := by rw [e1]; exact List.mem_cons_self _ _
          have := hD.2 x hx
          have hb := (hE x this.1).1.2.2.2 this.2
          rw [a1, a2]
          exact ⟨hb.1, hb.2.1⟩
      refine ⟨⟨?_, ?_, ?_, ?_⟩, fun _ _ => ⟨he1, he2⟩⟩
      · intro ha; rw [hact.1] at ha; exact absurd ha (by decide)
      · intro ha; rw [hact.2] at ha; exact absurd ha (by decide)
      · intro _
        refine ⟨fun ha => ?_, fun ha => ?_⟩
        · rw [he1] at ha; exact absurd ha (by decide)
        · rw [he2] at ha; exact absurd ha (by decide)
      · intro ha; rw [hfl] at ha; exact absurd ha (by decide)
    · have hgs : g ∈ hs := by
        rcases List.mem_cons.mp hg with e | e
        · exact absurd e hgx
        · exact e
      have hgr : g ≠ ROOT := fun e => hroot (e ▸ hgs)
      exact ⟨hbase g hgx (hE g hgs).1, fun _ => hfresh g hgx ((hE g hgs).2 hgr)⟩
  · intro g hg hfl2 i hi hik
    have hgx : g ≠ x := by
      intro e
      rw [e, hfl] at hfl2
      exact absurd hfl2 (by decide)
    have hgs : g ∈ hs := by
      rcases List.mem_cons.mp hg with e | e
      · exact absurd e hgx
      · exact e
    rw [hflag g hgx] at hfl2
    rw [hst]
    rw [hsp] at hik
    exact hF g hgs hfl2 i hi hik

theorem step_create (s : fbr_context) (hs : List Nat) (name func p : Nat)
    (h : runs_inv s hs ROOT s.sp) (hp0 : p ≠ ROOT) (hp : p ∉ hs) :
    runs_inv (fbr_create s name func p).2 ((fbr_create s name func p).1 :: hs) ROOT
      (fbr_create s name func p).2.sp := by
  obtain ⟨c1, c2, _, c4, _, _⟩ := fbr_create_spec s name func p
  have hcur : CURRENT_FIBER s = ROOT ∨ CURRENT_FIBER s ∈ hs := by
    unfold CURRENT_FIBER
    rcases lt_or_eq_of_le h.1.1 with h1 | h1
    · exact Or.inr (h.1.2.2.2 _ h1 le_rfl)
    · left
      rw [← h1]
      exact h.1.2.1
  have hx : (fbr_create s name func p).1 ≠ CURRENT_FIBER s := by
    rcases c4 with e | e
    · rw [e]
      rcases hcur with e2 | e2
      · rw [e2]; exact hp0
      · intro e3
        exact hp (e3 ▸ e2)
    · have := h.2.2.2.1.2 _ e
      intro e3
      exact h.2.2.2.2.2 _ this.1 this.2 s.sp h.1.1 le_rfl e3.symm
  obtain ⟨f1, f2, f3, f4, f5, _, f7⟩ := fbr_create_fibers s name func p hx
  refine runs_inv_create_aux s _ hs _ h c1 c2 ?_ ?_ f2 f3 f4 f5 f7
  · rcases c4 with e | e
    · rw [e]; exact hp0
    · intro e3
      exact h.1.2.2.1 (e3 ▸ (h.2.2.2.1.2 _ e).1)
  · rcases f1 with ⟨a1, a2, a3, a4, a5⟩ | ⟨a1, a2, a3⟩
    · left
      rw [a1]
      exact ⟨hp, a2, a3, a4, a5⟩
    · exact Or.inr ⟨a1, a2, a3⟩

theorem reclaim_children_loop_ranked (reclaim : fbr_context → Nat → Option fbr_context)
    (P : Nat → Prop) (rank : Nat → Nat)
    (hrel : ∀ s c t, reclaim s c = some t → reclaim_rel s t)
    (hrec : ∀ s c t, reclaim s c = some t →
      (∀ g, P g → ∀ c ∈ (s.fibers g).children, P c ∧ rank c < rank g) → P c →
      (s.reclaimed.Nodup ∧ ∀ x ∈ s.reclaimed, (s.fibers x).reclaimed = 1) →
      (t.reclaimed.Nodup ∧ ∀ x ∈ t.reclaimed, (t.fibers x).reclaimed = 1) ∧
        ∀ g, rank c < rank g → t.fibers g = s.fibers g) (l : List Nat) :
    ∀ s t, reclaim_children_loop reclaim s l = some t →
      (∀ g, P g → ∀ c ∈ (s.fibers g).children, P c ∧ rank c < rank g) → (∀ c ∈ l, P c) →
      (s.reclaimed.Nodup ∧ ∀ x ∈ s.reclaimed, (s.fibers x).reclaimed = 1) →
      (t.reclaimed.Nodup ∧ ∀ x ∈ t.reclaimed, (t.fibers x).reclaimed = 1) ∧
        ∀ g, (∀ c ∈ l, rank c < rank g) → t.fibers g = s.fibers g := by
  induction l with
  | nil =>
    intro s t h _ _ hpool
    simp only [reclaim_children_loop, Option.some.injEq] at h
    subst h
    exact ⟨hpool, fun _ _ => rfl⟩
  | cons c rest ih =>
    intro s t h hrk hl hpool
    simp only [reclaim_children_loop] at h
    cases hc : reclaim s c with
    | none => simp [hc] at h
    | some s1 =>
      simp only [hc] at h
      have hrk1 : ∀ g, P g → ∀ c ∈ (s1.fibers g).children, P c ∧ rank c < rank g := by
        intro g hg c1 hc1
        rw [reclaim_rel_children s s1 (hrel s c s1 hc)] at hc1
        exact hrk g hg c1 hc1
      obtain ⟨p1, q1⟩ := hrec s c s1 hc hrk (hl c (List.mem_cons_self _ _)) hpool
      obtain ⟨p2, q2⟩ := ih s1 t h hrk1 (fun y hy => hl y (List.mem_cons_of_mem _ hy)) p1
      refine ⟨p2, fun g hg => ?_⟩
      rw [q2 g (fun y hy => hg y (List.mem_cons_of_mem _ hy)),
        q1 g (hg c (List.mem_cons_self _ _))]

/-- Function `fbr_reclaim` on a forest of fibers keeps the pool of reclaimed
fibers free of duplicates, with `reclaimed = 1` in each of its fibers, and
leaves alone every fiber above the one it is given. -/
theorem fbr_reclaim_ranked (P : Nat → Prop) (rank : Nat → Nat) (fuel : Nat) :
    ∀ s fiber t, fbr_reclaim fuel s fiber = some t →
      (∀ g, P g → ∀ c ∈ (s.fibers g).children, P c ∧ rank c < rank g) → P fiber →
      (s.reclaimed.Nodup ∧ ∀ x ∈ s.reclaimed, (s.fibers x).reclaimed = 1) →
      (t.reclaimed.Nodup ∧ ∀ x ∈ t.reclaimed, (t.fibers x).reclaimed = 1) ∧
        ∀ g, rank fiber < rank g → t.fibers g = s.fibers g := by
  induction fuel with
  | zero => intro s fiber t h; simp [fbr_reclaim] at h
  | succ n ih =>
    intro s fiber t h hrk hP hpool
    simp only [fbr_reclaim] at h
    split_ifs at h with hr
    · simp only [Option.some.injEq] at h
      subst h
      exact ⟨hpool, fun _ _ => rfl⟩
    · cases hc : reclaim_children_loop (fbr_reclaim n) s (s.fibers fiber).children with
      | none => simp [hc] at h
      | some s1 =>
        simp only [hc] at h
        cases hk : fiber_cleanup s1 fiber with
        | none => simp [hk] at h
        | some s2 =>
          simp only [hk, Option.some.injEq] at h
          subst h
          have h2 := fiber_cleanup_spec s1 s2 fiber hk
          subst h2
          obtain ⟨p1, q1⟩ := reclaim_children_loop_ranked (fbr_reclaim n) P rank
            (fbr_reclaim_rel n) ih _ s s1 hc hrk (fun c hc1 => (hrk fiber hP c hc1).1) hpool
          have hsame : s1.fibers fiber = s.fibers fiber :=
            q1 fiber (fun c hc1 => (hrk fiber hP c hc1).2)
          have hfl0 : (s1.fibers fiber).reclaimed = 0 := by
            rw [hsame]
            exact not_not.mp hr
          have hnot : fiber ∉ s1.reclaimed := by
            intro hm
            have := p1.2 fiber hm
            rw [hfl0] at this
            exact absurd this (by decide)
          refine ⟨⟨?_, ?_⟩, ?_⟩
          · simp only [set_fiber]
            exact List.nodup_cons.mpr ⟨hnot, p1.1⟩
          · intro y hy
            simp only [set_fiber] at hy ⊢
            rcases List.mem_cons.mp hy with e | e
            · simp [e]
            · have hyf : y ≠ fiber := fun e2 => hnot (e2 ▸ e)
              simp only [hyf, ↓reduceIte]
              exact p1.2 y e
          · intro g hg
            have hgf : g ≠ fiber := by
              intro e
              rw [e] at hg
              exact lt_irrefl _ hg
            simp only [set_fiber, hgf, ↓reduceIte]
            exact q1 g (fun c hc1 => lt_trans (hrk fiber hP c hc1).2 hg)

theorem fiber_base_reclaimed (f : fbr_fiber) : fiber_base (reclaimed_fiber f) := by
  refine ⟨fun h => ?_, fun h => ?_, fun h => ?_, fun _ => ⟨rfl, rfl, rfl⟩⟩
  · simp [reclaimed_fiber] at h
  · simp [reclaimed_fiber] at h
  · exact absurd rfl h

theorem runs_inv_reclaim (s t : fbr_context) (hs : List Nat) (fuel f : Nat) (k : Int)
    (h : runs_inv s hs ROOT s.sp) (hf : f ∈ hs) (hstep : fbr_reclaim fuel s f = some t)
    (hk : k ≤ s.sp)
    (hoff : ∀ g, (s.fibers g).reclaimed ≠ 1 → (t.fibers g).reclaimed = 1 →
      ∀ i : Int, 0 ≤ i → i ≤ k → s.stack i ≠ g) :
    t.sp = s.sp ∧ t.stack = s.stack ∧ runs_inv t hs ROOT k := by
  obtain ⟨hA, hB, hC, hD, hE, hF⟩ := h
  have rel := fbr_reclaim_rel fuel s f t hstep
  obtain ⟨r1, r2, _, _⟩ := reclaim_rel_stack s t rel
  refine ⟨r2, r1, ?_, ?_, ?_, ?_, ?_, ?_⟩
  · rw [r1, r2]; exact hA
  · intro g hg c hc
    rw [reclaim_rel_children s t rel] at hc
    exact hB g hg c hc
  · obtain ⟨rank, hr⟩ := hC
    refine ⟨rank, fun g hg c hc => ?_⟩
    rw [reclaim_rel_children s t rel] at hc
    exact hr g hg c hc
  · obtain ⟨rank, hr⟩ := hC
    obtain ⟨p1, _⟩ := fbr_reclaim_ranked (fun g => g = ROOT ∨ g ∈ hs) rank fuel s f t hstep
      (fun g hg c hc => ⟨Or.inr (hB g hg c hc), hr g hg c hc⟩) (Or.inr hf)
      ⟨hD.1, fun x hx => (hD.2 x hx).2⟩
    refine ⟨p1.1, fun x hx => ⟨?_, p1.2 x hx⟩⟩
    rcases fbr_reclaim_pool (fun g => g ∈ hs) fuel s f t hstep
      (fun g hg c hc => hB g (Or.inr hg) c hc) hf x hx with e | e
    · exact (hD.2 x e).1
    · exact e
  · intro g hg
    rcases rel.2 g with ⟨a, _⟩ | ⟨_, b, _⟩
    · rw [a]; exact hE g hg
    · rw [b]
      exact ⟨fiber_base_reclaimed _, fun h1 => (hE g hg).2 h1⟩
  · intro g hg hfl i hi hik
    rw [r1]
    by_cases h1 : (s.fibers g).reclaimed = 1
    · exact hF g hg h1 i hi (le_trans hik hk)
    · exact hoff g h1 hfl i hi hik

theorem step_reclaim (s t : fbr_context) (hs : List Nat) (fuel f : Nat)
    (h : runs_inv s hs ROOT s.sp) (hf : f ∈ hs) (hstep : fbr_reclaim fuel s f = some t)
    (hoff : ∀ g, (s.fibers g).reclaimed ≠ 1 → (t.fibers g).reclaimed = 1 → ¬ on_stack s g) :
    runs_inv t hs ROOT t.sp := by
  obtain ⟨e1, _, h2⟩ := runs_inv_reclaim s t hs fuel f s.sp h hf hstep le_rfl
    (fun g h1 h2 i hi hik e => hoff g h1 h2 ⟨i, hi, hik, e⟩)
  rw [e1]
  exact h2

theorem step_finish (s t : fbr_context) (hs : List Nat) (fuel : Nat)
    (h : runs_inv s hs ROOT s.sp) (hcur : CURRENT_FIBER s ≠ ROOT)
    (hstep : fbr_reclaim fuel s (CURRENT_FIBER s) = some t)
    (hoff : ∀ g, (s.fibers g).reclaimed ≠ 1 → (t.fibers g).reclaimed = 1 →
      g ≠ CURRENT_FIBER s → ¬ on_stack s g)
    (htop : ∀ i : Int, 0 ≤ i → i < s.sp → s.stack i ≠ CURRENT_FIBER s) :
    runs_inv (fbr_yield t) hs ROOT (fbr_yield t).sp := by
  have hpos : 0 < s.sp := by
    rcases lt_or_eq_of_le h.1.1 with h1 | h1
    · exact h1
    · exfalso
      apply hcur
      unfold CURRENT_FIBER
      rw [← h1]
      exact h.1.2.1
  have hmem : CURRENT_FIBER s ∈ hs := h.1.2.2.2 _ hpos le_rfl
  obtain ⟨e1, e2, h2⟩ := runs_inv_reclaim s t hs fuel _ (s.sp - 1) h hmem hstep (by omega)
    (fun g h1 h2 i hi hik e => by
      by_cases hg : g = CURRENT_FIBER s
      · exact htop i hi (by omega) (e.trans hg)
      · exact hoff g h1 h2 hg ⟨i, hi, by omega, e⟩)
  have hc : CURRENT_FIBER t = CURRENT_FIBER s := by
    unfold CURRENT_FIBER
    rw [e1, e2]
  apply runs_inv_yield
  · rw [e1]
    exact runs_inv_root_src t hs _ _ h2
  · rw [hc]; exact hcur

theorem step_init (mem : fbr_context) (p : Nat) (s : fbr_context)
    (h : fbr_init mem p = some s) : runs_inv s [] ROOT s.sp := by
  obtain ⟨h1, h2, _, h4, h5⟩ := fbr_init_spec mem p s h
  refine ⟨⟨?_, h2, List.not_mem_nil _, ?_⟩, ?_, ⟨fun _ => 0, ?_⟩, ?_, ?_, ?_⟩
  · rw [h1]
  · intro i hi hik
    rw [h1] at hik
    omega
  · intro g hg c hc
    rcases hg with e | e
    · rw [e, h5] at hc
      exact absurd hc (List.not_mem_nil c)
    · exact absurd e (List.not_mem_nil g)
  · intro g hg c hc
    rcases hg with e | e
    · rw [e, h5] at hc
      exact absurd hc (List.not_mem_nil c)
    · exact absurd e (List.not_mem_nil g)
  · rw [h4]
    exact ⟨List.nodup_nil, fun x hx => absurd hx (List.not_mem_nil x)⟩
  · intro g hg
    exact absurd hg (List.not_mem_nil g)
  · intro g hg
    exact absurd hg (List.not_mem_nil g)

/-- Every state of `Runs` has the invariant `runs_inv`, with no fiber inside
a step and no reclaimed fiber in any frame of the call stack. -/
theorem runs_invariant (M C : Int) (s : fbr_context) (hs : List Nat) (h : Runs M C s hs) :
    runs_inv s hs ROOT s.sp := by
  induction h with
  | init mem p s h => exact step_init mem p s h
  | create s hs name func p _ _ hp0 hp ih => exact step_create s hs name func p ih hp0 hp
  | reclaim s hs fuel fiber t _ hf hstep hoff ih =>
    exact step_reclaim s t hs fuel fiber ih hf hstep hoff
  | finish s hs fuel t _ hcur hstep hoff htop ih =>
    exact step_finish s t hs fuel ih hcur hstep hoff htop
  | call s hs callee argnum ap p o t _ hc hstep _ ih =>
    exact step_vcall M s hs callee 1 argnum ap p o t ih hc hstep
  | call_noinfo s hs callee argnum ap o t _ hc hstep _ ih =>
    exact step_vcall M s hs callee 0 argnum ap 0 o t ih hc hstep
  | yield s hs _ hcur ih => exact step_yield s hs ih hcur
  | alloc s hs p ptr t _ hstep ih =>
    rcases hstep with e | e
    · exact step_keeps s t hs ih (keeps_allocate hs ROOT s t p ptr e)
    · exact step_keeps s t hs ih (keeps_allocate hs ROOT s t p ptr e)
  | set_destructor s hs ptr func context _ _ ih =>
    exact step_keeps s _ hs ih (keeps_set_destructor hs ROOT s ptr func context)
  | free s hs ptr t _ _ hstep ih =>
    exact step_keeps s t hs ih (keeps_free_in_fiber hs ROOT s t _ ptr hstep)
  | io_begin s hs fd t _ hcur hstep ih =>
    rcases hstep with e | e | e | e | e
    · exact step_io_wrapper_begin s t hs fd _ ih hcur e
    · exact step_io_wrapper_begin s t hs fd _ ih hcur e
    · exact step_io_wrapper_begin s t hs fd _ ih hcur e
    · exact step_io_wrapper_begin s t hs fd _ ih hcur e
    · exact step_io_wrapper_begin s t hs fd _ ih hcur e
  | io_resume s hs r t _ hstep ih =>
    exact step_keeps s t hs ih (keeps_single_resume hs ROOT s t _ r hstep)
  | all_begin s hs fd count o t _ hcur hstep ih =>
    rcases hstep with e | e
    · exact step_all_begin s t hs fd _ count o ih hcur e
    · exact step_all_begin s t hs fd _ count o ih hcur e
  | all_resume s hs count done o t _ hcur hstep ih =>
    exact step_all_resume s t hs count done o ih hcur hstep
  | sleep_begin s hs _ hcur ih => exact step_sleep_begin s hs ih hcur
  | sleep_resume s hs _ ih => exact step_keeps s _ hs ih (keeps_timer_stop hs ROOT s _)

/-! ## Reclaimed fibers and expectation flags -/

theorem demo_created_runs : Runs 10 16 demo_created [5] :=
  Runs.create demo_init [] 0 0 5 (Runs.init mem0 1 demo_init rfl) rfl (by decide) (by simp)

theorem demo_undelivered_runs : Runs 10 16 demo_undelivered [5] := by
  have h1 : Runs 10 16 demo_called [5] :=
    Runs.call demo_created [5] 5 1 [fbr_fiber_arg.i 1] 7 call_outcome.transferred demo_called
      demo_created_runs (List.mem_cons_self _ _) rfl (fun _ => by decide)
  have h2 : Runs 10 16 (fbr_yield demo_called) [5] := Runs.yield demo_called [5] h1 (by decide)
  refine Runs.reclaim (fbr_yield demo_called) [5] 1 5 demo_undelivered h2
    (List.mem_cons_self _ _) rfl ?_
  rintro g hg1 hg2 ⟨i, hi, hik, e⟩
  have hsp : (fbr_yield demo_called).sp = 0 := rfl
  rw [hsp] at hik
  have hi0 : i = 0 := le_antisymm hik hi
  subst hi0
  have hg : g = 0 := e.symm
  subst hg
  exact hg1 hg2

theorem demo_reading_runs : Runs 10 16 demo_reading [6, 5] := by
  have h1 : Runs 10 16 demo_two [6, 5] :=
    Runs.create demo_created [5] 0 0 6 demo_created_runs rfl (by decide) (by simp)
  have h2 := Runs.call_noinfo demo_two [6, 5] 5 0 [] call_outcome.transferred
    ((fbr_call_noinfo 10 demo_two 5 0 []).getD (call_outcome.transferred, demo_two)).2
    h1 (by simp) rfl (fun _ => by decide)
  exact Runs.all_begin _ [6, 5] 3 10 (io_outcome.suspended 0) demo_reading h2 (by decide)
    (Or.inl rfl)

theorem demo_armed_reclaimed_runs : Runs 10 16 demo_armed_reclaimed [6, 5] := by
  refine Runs.reclaim demo_reading [6, 5] 1 5 demo_armed_reclaimed demo_reading_runs
    (by simp) rfl ?_
  rintro g hg1 hg2 ⟨i, hi, hik, e⟩
  have hsp : demo_reading.sp = 0 := rfl
  rw [hsp] at hik
  have hi0 : i = 0 := le_antisymm hik hi
  subst hi0
  have hg : g = 0 := e.symm
  subst hg
  exact hg1 hg2

/-- C13. `fbr_mutex_unlock` on a mutex with two or more waiting fibers does
not start `mutex_async`: it hands the mutex to the first waiter, appends the
mutex to `mutexes` and sends the signal, but leaves the handle in the state
(started or stopped) it was in. -/
theorem mutex_unlock_async_not_started (s : fbr_context) (mutex w w2 : Nat) (rest : List Nat)
    (hp : (s.mutex_mem mutex).pending = w :: w2 :: rest) :
    ((fbr_mutex_unlock s mutex).mutex_mem mutex).locked_by = some w ∧
    ((fbr_mutex_unlock s mutex).mutex_mem mutex).pending = w2 :: rest ∧
    (fbr_mutex_unlock s mutex).mutexes = s.mutexes ++ [mutex] ∧
    (fbr_mutex_unlock s mutex).mutex_async.sent = true ∧
    (fbr_mutex_unlock s mutex).mutex_async.active = s.mutex_async.active := by
  unfold fbr_mutex_unlock
  simp only [hp, set_mutex]
  simp

/-- Witness of C13: the root fiber unlocks the mutex 3 of `demo_contended`,
for which fibers 5 and 6 wait while `mutex_async` is stopped, as `fbr_init`
left it. -/
theorem mutex_unlock_async_not_started_witness :
    (demo_contended.mutex_mem 3).pending = [5, 6] ∧
    (demo_contended.mutex_mem 3).locked_by = some ROOT ∧
    CURRENT_FIBER demo_contended = ROOT ∧
    demo_contended.mutexes = [] ∧
    demo_contended.mutex_async.active = false ∧
    (((fbr_mutex_unlock demo_contended 3).mutex_mem 3).locked_by = some 5 ∧
     ((fbr_mutex_unlock demo_contended 3).mutex_mem 3).pending = [6] ∧
     (fbr_mutex_unlock demo_contended 3).mutexes = [] ++ [3] ∧
     (fbr_mutex_unlock demo_contended 3).mutex_async.sent = true ∧
     (fbr_mutex_unlock demo_contended 3).mutex_async.active = false) :=
  ⟨rfl, rfl, rfl, rfl, rfl, mutex_unlock_async_not_started demo_contended 3 5 6 [] rfl⟩

end Evfibers
